import Mathlib

/-!
# Sokoban breadth-first solver (`sokoban.c`): embedding and verification

The C program keeps its board, transposition table and frontier in global
variables.  Here every function takes the globals it reads as arguments and
returns the globals it writes.  C `int` values are `Int`; `cidx_t`
(`uint16_t`) and `hash_t` (`uint32_t`) values are `Nat` reduced modulo
`2^16` resp. `2^32` where the C code stores them.  Array accesses are
checked: an access outside the allocated array, or a division by zero, is
the result `Res.fault`.
-/

namespace Sokoban

set_option maxRecDepth 1000000

/-- Result of running a fragment of the program. -/
inductive Res (α : Type) where
  /-- normal completion -/
  | ok (a : α)
  /-- undefined behaviour in C: out-of-bounds access, division by zero -/
  | fault
  /-- the bounded model ran out of steps (never a behaviour of the program) -/
  | timeout
deriving DecidableEq, Repr

/-- Sequencing of fallible computations. -/
@[simp] def Res.bind {α β : Type} : Res α → (α → Res β) → Res β
  | .ok a, f => f a
  | .fault, _ => .fault
  | .timeout, _ => .timeout

instance : Monad Res where
  pure := Res.ok
  bind := Res.bind

/-- Cell kinds of `board[]`: `enum { space, wall, player, box }`. -/
def space : Nat := 0
/-- Cell kind `wall` of the enum. -/
def wall : Nat := 1

/-- Read `a[i]` for a C `int` index. -/
def rd {α : Type} (a : List α) (i : Int) : Res α :=
  if 0 ≤ i then
    match a[i.toNat]? with
    | some v => .ok v
    | none => .fault
  else .fault

/-- Write `a[i] = v` for a C `int` index. -/
def wr {α : Type} (a : List α) (i : Int) (v : α) : Res (List α) :=
  if 0 ≤ i ∧ i.toNat < a.length then .ok (a.set i.toNat v) else .fault

/-- Conversion of an `int` to `cidx_t` (`uint16_t`). -/
def to_cidx (i : Int) : Nat := (i % 65536).toNat

/-- The globals `w, h, n_boxes, board, goals, live`. -/
structure Board where
  w : Int
  h : Int
  n_boxes : Nat
  board : List Nat
  goals : List Nat
  live : List Nat
deriving DecidableEq, Repr

/-- The record `struct state_t`: cached hash `h`, parent link `prev` and the
index array `c` (player, then boxes).  The links `next` and `qnext` are the
list structure of the bucket chains and of the frontier. -/
inductive state_t where
  | mk (h : Nat) (prev : Option state_t) (c : List Nat)
deriving Repr

/-- Field `h`. -/
def state_t.h : state_t → Nat
  | .mk h _ _ => h

/-- Field `prev`. -/
def state_t.prev : state_t → Option state_t
  | .mk _ p _ => p

/-- Field `c`. -/
def state_t.c : state_t → List Nat
  | .mk _ _ c => c

/-- Allocation `newstate(parent)`: `prev = parent`, `h = 0`; the index slots
are given by the caller, which writes every one of them. -/
def newstate (parent : Option state_t) (c : List Nat) : state_t :=
  .mk 0 parent c

/-- Loop `for (i = 1; i <= n_boxes; i++) if (s->c[i] == c1) { at_box = i; break; }`
started at index `i` with `k` iterations left; `0` when no slot matches. -/
def find_box (c : List Nat) (c1 : Int) : Nat → Nat → Res Nat
  | 0, _ => .ok 0
  | k + 1, i =>
    match rd c (i : Int) with
    | .ok v => if (v : Int) = c1 then .ok i else find_box c c1 k (i + 1)
    | .fault => .fault
    | .timeout => .timeout

/-- Inner loop of the bubble sort, `for (j = 1; j < i; j++)`, at index `j`
with `k` iterations left; returns the array and the flag `t`. -/
def sort_inner : Nat → Nat → List Nat → Nat → Res (List Nat × Nat)
  | 0, _, p, t => .ok (p, t)
  | k + 1, j, p, t =>
    match rd p (j : Int), rd p ((j : Int) + 1) with
    | .ok a, .ok a1 =>
      if a > a1 then sort_inner k (j + 1) ((p.set j a1).set (j + 1) a) a
      else sort_inner k (j + 1) p t
    | .timeout, _ => .timeout
    | _, .timeout => .timeout
    | _, _ => .fault

/-- Outer loop `for (int i = n_boxes; --i;)`; the argument is the value of
`i` before the decrement.  For `i = 0` the decrement gives `-1`, the inner
loop does not run and `t = 0` leaves the loop. -/
def sort_outer : Nat → List Nat → Res (List Nat)
  | 0, p => .ok p
  | 1, p => .ok p
  | i + 2, p =>
    match sort_inner i 1 p 0 with
    | .ok (p1, t) => if t = 0 then .ok p1 else sort_outer (i + 1) p1
    | .fault => .fault
    | .timeout => .timeout

/-- Successor generator `move_me(s, dy, dx)`; `none` is the `NULL` return. -/
def move_me (b : Board) (s : state_t) (dy dx : Int) : Res (Option state_t) :=
  if b.w = 0 then .fault else
  match rd s.c 0 with
  | .fault => .fault
  | .timeout => .timeout
  | .ok c0 =>
    let y : Int := Int.tdiv c0 b.w
    let x : Int := Int.tmod c0 b.w
    let y1 : Int := y + dy
    let x1 : Int := x + dx
    let c1 : Int := y1 * b.w + x1
    if y1 < 0 ∨ y1 > b.h ∨ x1 < 0 ∨ x1 > b.w then .ok none else
    match rd b.board c1 with
    | .fault => .fault
    | .timeout => .timeout
    | .ok bc1 =>
      if bc1 = wall then .ok none else
      match find_box s.c c1 b.n_boxes 1 with
      | .fault => .fault
      | .timeout => .timeout
      | .ok at_box =>
        let c2 : Int := c1 + dy * b.w + dx
        let build : Res (Option state_t) :=
          if s.c.length < b.n_boxes + 1 then .fault else
          let p : List Nat := to_cidx c1 :: (s.c.drop 1).take b.n_boxes
          let p : List Nat := if at_box ≠ 0 then p.set at_box (to_cidx c2) else p
          match sort_outer b.n_boxes p with
          | .ok p => .ok (some (newstate (some s) p))
          | .fault => .fault
          | .timeout => .timeout
        if at_box ≠ 0 then
          match rd b.board c2 with
          | .fault => .fault
          | .timeout => .timeout
          | .ok bc2 =>
            if bc2 = wall then .ok none else
            match rd b.live c2 with
            | .fault => .fault
            | .timeout => .timeout
            | .ok lc2 =>
              if lc2 = 0 then .ok none else
              match find_box s.c c2 b.n_boxes 1 with
              | .fault => .fault
              | .timeout => .timeout
              | .ok blocked => if blocked ≠ 0 then .ok none else build
        else build

/-- Goal test `success(s)`: loop over the box slots starting at index `i`
with `k` iterations left. -/
def success_loop (goals : List Nat) (c : List Nat) : Nat → Nat → Res Bool
  | 0, _ => .ok true
  | k + 1, i =>
    match rd c (i : Int) with
    | .fault => .fault
    | .timeout => .timeout
    | .ok ci =>
      match rd goals (ci : Int) with
      | .fault => .fault
      | .timeout => .timeout
      | .ok g => if g = 0 then .ok false else success_loop goals c k (i + 1)

/-- Goal test `success(s)`. -/
def success (b : Board) (s : state_t) : Res Bool :=
  success_loop b.goals s.c b.n_boxes 1

/-- Loop of `hash`: `ha = p[i] + 31 * ha` in `uint32_t`, at index `i` with
`k` iterations left. -/
def hash_loop (c : List Nat) : Nat → Nat → Nat → Res Nat
  | 0, _, ha => .ok ha
  | k + 1, i, ha =>
    match rd c (i : Int) with
    | .fault => .fault
    | .timeout => .timeout
    | .ok v => hash_loop c k (i + 1) ((v + 31 * ha) % 4294967296)

/-- Lazy hash `hash(s)`: fills the field `h` when it is `0`. -/
def hash (b : Board) (s : state_t) : Res state_t :=
  if s.h = 0 then
    match hash_loop s.c (b.n_boxes + 1) 0 0 with
    | .fault => .fault
    | .timeout => .timeout
    | .ok ha => .ok (.mk ha s.prev s.c)
  else .ok s

/-- The globals `buckets, hash_size, fill_limit, filled`; a bucket is its
chain of states linked by `next`, head first.  The counters are not wrapped
at `2^32`: the doubling that would wrap `hash_size` to 0 asks `realloc` for
0 bytes and ends in the failed `assert(buckets)`, and allocation failure is
not part of the embedding. -/
structure Table where
  buckets : List (List state_t)
  hash_size : Nat
  fill_limit : Nat
  filled : Nat

/-- The table before the first `extend_table`: all globals zero. -/
def Table.empty : Table := ⟨[], 0, 0, 0⟩

/-- The mask `hash_size - 1` in `uint32_t`. -/
def mask (hash_size : Nat) : Nat := (hash_size + 4294967295) % 4294967296

/-- Inner `while (head)` of the rehash: push each state of the chain on the
bucket `h & bits`. -/
def rehash_chain (bits : Nat) : List state_t → List (List state_t) → Res (List (List state_t))
  | [], bk => .ok bk
  | head :: next, bk =>
    let j : Nat := head.h &&& bits
    match rd bk (j : Int) with
    | .fault => .fault
    | .timeout => .timeout
    | .ok old => rehash_chain bits next (bk.set j (head :: old))

/-- Outer `for (i = 0; i < old_size; i++)` of the rehash, at index `i` with
`k` iterations left. -/
def rehash_loop (bits : Nat) : Nat → Nat → List (List state_t) → Res (List (List state_t))
  | 0, _, bk => .ok bk
  | k + 1, i, bk =>
    match rd bk (i : Int) with
    | .fault => .fault
    | .timeout => .timeout
    | .ok head =>
      match rehash_chain bits head (bk.set i []) with
      | .fault => .fault
      | .timeout => .timeout
      | .ok bk1 => rehash_loop bits k (i + 1) bk1

/-- Table growth `extend_table()`. -/
def extend_table (t : Table) : Res Table :=
  let old_size := t.hash_size
  let hash_size := if old_size = 0 then 1024 else t.hash_size * 2
  let filled := if old_size = 0 then 0 else t.filled
  let fill_limit := if old_size = 0 then 1024 * 3 / 4 else t.fill_limit * 2
  let bk := t.buckets.take old_size ++ List.replicate (hash_size - old_size) []
  match rehash_loop (mask hash_size) old_size 0 bk with
  | .fault => .fault
  | .timeout => .timeout
  | .ok bk1 => .ok ⟨bk1, hash_size, fill_limit, filled⟩

/-- Comparison `!memcmp(s->c, f->c, sizeof(cidx_t) * (1 + n_boxes))`. -/
def same_cells (n_boxes : Nat) (s f : state_t) : Res Bool :=
  if s.c.length < n_boxes + 1 ∨ f.c.length < n_boxes + 1 then .fault
  else .ok (decide (s.c.take (n_boxes + 1) = f.c.take (n_boxes + 1)))

/-- Chain walk of `lookup`: the first state of the chain with the cells of `s`. -/
def lookup_chain (n_boxes : Nat) (s : state_t) : List state_t → Res (Option state_t)
  | [] => .ok none
  | f :: next =>
    match same_cells n_boxes s f with
    | .fault => .fault
    | .timeout => .timeout
    | .ok true => .ok (some f)
    | .ok false => lookup_chain n_boxes s next

/-- Search `lookup(s)`; returns `s` with its hash filled in and the state found. -/
def lookup (b : Board) (t : Table) (s : state_t) : Res (state_t × Option state_t) :=
  match hash b s with
  | .fault => .fault
  | .timeout => .timeout
  | .ok s1 =>
    match rd t.buckets ((s1.h &&& mask t.hash_size : Nat) : Int) with
    | .fault => .fault
    | .timeout => .timeout
    | .ok chain =>
      match lookup_chain b.n_boxes s1 chain with
      | .fault => .fault
      | .timeout => .timeout
      | .ok f => .ok (s1, f)

/-- Insertion `add_to_table(s)`: the flag returned, the state as left by
`hash`, and the table.  A rejected state goes back to the free list
(`unnewstate`), which the embedding does not keep. -/
def add_to_table (b : Board) (t : Table) (s : state_t) : Res (Bool × state_t × Table) :=
  match lookup b t s with
  | .fault => .fault
  | .timeout => .timeout
  | .ok (s1, some _) => .ok (false, s1, t)
  | .ok (s1, none) =>
    let grown : Res Table :=
      if t.filled ≥ t.fill_limit then extend_table { t with filled := t.filled + 1 }
      else .ok { t with filled := t.filled + 1 }
    match grown with
    | .fault => .fault
    | .timeout => .timeout
    | .ok t1 =>
      let i : Nat := s1.h &&& mask t1.hash_size
      match rd t1.buckets (i : Int) with
      | .fault => .fault
      | .timeout => .timeout
      | .ok chain => .ok (true, s1, { t1 with buckets := t1.buckets.set i (s1 :: chain) })

/-- The globals of the search: the table, `next_level` (the frontier being
built, linked by `qnext`, head first) and `done`. -/
structure Globals where
  tbl : Table
  next_level : List state_t
  done : Option state_t

/-- Step `queue_move(s)`. -/
def queue_move (b : Board) (g : Globals) (s : Option state_t) : Res (Bool × Globals) :=
  match s with
  | none => .ok (false, g)
  | some s =>
    match add_to_table b g.tbl s with
    | .fault => .fault
    | .timeout => .timeout
    | .ok (false, _, t1) => .ok (false, { g with tbl := t1 })
    | .ok (true, s1, t1) =>
      match success b s1 with
      | .fault => .fault
      | .timeout => .timeout
      | .ok true => .ok (true, { g with tbl := t1, done := some s1 })
      | .ok false => .ok (false, { g with tbl := t1, next_level := s1 :: g.next_level })

/-- Short-circuit `queue_move(news[0]) || queue_move(news[1]) || ...`. -/
def queue_moves (b : Board) : List (Option state_t) → Globals → Res (Bool × Globals)
  | [], g => .ok (false, g)
  | n :: rest, g =>
    match queue_move b g n with
    | .fault => .fault
    | .timeout => .timeout
    | .ok (true, g1) => .ok (true, g1)
    | .ok (false, g1) => queue_moves b rest g1

/-- Expansion `do_move(s)`: the four `move_me` calls, joined, then queued in
the order right, left, up, down.  Outside a parallel region the tasks run
in program order. -/
def do_move (b : Board) (g : Globals) (s : state_t) : Res (Bool × Globals) :=
  match move_me b s 0 1, move_me b s 0 (-1), move_me b s (-1) 0, move_me b s 1 0 with
  | .ok n0, .ok n1, .ok n2, .ok n3 => queue_moves b [n0, n1, n2, n3] g
  | .timeout, _, _, _ => .timeout
  | _, .timeout, _, _ => .timeout
  | _, _, .timeout, _ => .timeout
  | _, _, _, .timeout => .timeout
  | _, _, _, _ => .fault

/-- Round `for (next_level = NULL; head && !done; head = head->qnext) do_move(head);`
over the frontier `head`. -/
def round (b : Board) : List state_t → Globals → Res Globals
  | [], g => .ok g
  | head :: qnext, g =>
    match g.done with
    | some _ => .ok g
    | none =>
      match do_move b g head with
      | .fault => .fault
      | .timeout => .timeout
      | .ok (_, g1) => round b qnext g1

/-- What the process prints and how it ends. -/
inductive Outcome where
  /-- `show_moves` completed: the text printed, exit status 0 -/
  | solved (out : List Char)
  /-- the text `no solution?`, exit status 1 -/
  | no_solution
  /-- `show_moves` printed `out` and then `Invalid move`, exit status 1 -/
  | invalid_move (out : List Char)
deriving DecidableEq, Repr

/-- Scan `for (i = 1; !box && i <= n_boxes; i++) box = s->c[i] == nextPos`
of `show_moves`, at index `i` with `k` iterations left. -/
def has_box (c : List Nat) (nextPos : Int) : Nat → Nat → Res Bool
  | 0, _ => .ok false
  | k + 1, i =>
    match rd c (i : Int) with
    | .fault => .fault
    | .timeout => .timeout
    | .ok v => if (v : Int) = nextPos then .ok true else has_box c nextPos k (i + 1)

/-- Letter printed by `show_moves` for the state cells `c` and the next
player position; `none` is the branch `Invalid move`. -/
def move_letter (b : Board) (c : List Nat) (nextPos : Int) : Res (Option Char) :=
  if b.w = 0 then .fault else
  match rd c 0 with
  | .fault => .fault
  | .timeout => .timeout
  | .ok c0 =>
    let cx : Int := Int.tmod c0 b.w
    let cy : Int := Int.tdiv c0 b.w
    let nx : Int := Int.tmod nextPos b.w
    let ny : Int := Int.tdiv nextPos b.w
    match has_box c nextPos b.n_boxes 1 with
    | .fault => .fault
    | .timeout => .timeout
    | .ok box =>
      if cx < nx then .ok (some (if box then 'R' else 'r'))
      else if cx > nx then .ok (some (if box then 'L' else 'l'))
      else if cy < ny then .ok (some (if box then 'D' else 'd'))
      else if cy > ny then .ok (some (if box then 'U' else 'u'))
      else .ok none

/-- Printer `show_moves(s, nextPos)`: the text printed and whether `exit(1)`
was taken. -/
def show_moves (b : Board) : state_t → Int → Res (List Char × Bool)
  | .mk _ prev c, nextPos =>
    let above : Res (List Char × Bool) :=
      match prev with
      | none => .ok ([], false)
      | some p =>
        match rd c 0 with
        | .fault => .fault
        | .timeout => .timeout
        | .ok c0 => show_moves b p (c0 : Int)
    match above with
    | .fault => .fault
    | .timeout => .timeout
    | .ok (out, true) => .ok (out, true)
    | .ok (out, false) =>
      if nextPos = -1 then .ok (out ++ ['\n'], false)
      else
        match move_letter b c nextPos with
        | .fault => .fault
        | .timeout => .timeout
        | .ok (some l) => .ok (out ++ [l], false)
        | .ok none => .ok (out ++ "Invalid move\n".toList, true)

/-- Loop `while (!done) { ... }` of `main` followed by `show_moves(done, -1)`,
bounded by `fuel` rounds. -/
def main_loop (b : Board) : Nat → Globals → Res Outcome
  | 0, _ => .timeout
  | fuel + 1, g =>
    match g.done with
    | some d =>
      match show_moves b d (-1) with
      | .fault => .fault
      | .timeout => .timeout
      | .ok (out, false) => .ok (.solved out)
      | .ok (out, true) => .ok (.invalid_move out)
    | none =>
      match round b g.next_level { g with next_level := [] } with
      | .fault => .fault
      | .timeout => .timeout
      | .ok g1 =>
        match g1.next_level with
        | [] => .ok .no_solution
        | _ :: _ => main_loop b fuel g1

/-- Flood fill `mark_live(c)` on the global `live`, bounded by `fuel` nested
calls. -/
def mark_live : Nat → Board → Int → Res Board
  | 0, _, _ => .timeout
  | fuel + 1, b, c =>
    if b.w = 0 then .fault else
    let y : Int := Int.tdiv c b.w
    let x : Int := Int.tmod c b.w
    match rd b.live c with
    | .fault => .fault
    | .timeout => .timeout
    | .ok l =>
      if l ≠ 0 then .ok b else
      match wr b.live c 1 with
      | .fault => .fault
      | .timeout => .timeout
      | .ok live1 =>
        let b1 : Board := { b with live := live1 }
        let go (cond : Bool) (near far next : Int) (b : Board) : Res Board :=
          if cond then
            match rd b.board near with
            | .fault => .fault
            | .timeout => .timeout
            | .ok v1 =>
              if v1 = wall then .ok b else
              match rd b.board far with
              | .fault => .fault
              | .timeout => .timeout
              | .ok v2 => if v2 = wall then .ok b else mark_live fuel b next
          else .ok b
        match go (decide (y > 1)) (c - b.w) (c - b.w * 2) (c - b.w) b1 with
        | .fault => .fault
        | .timeout => .timeout
        | .ok b2 =>
          match go (decide (y < b.h - 2)) (c + b.w) (c + b.w * 2) (c + b.w) b2 with
          | .fault => .fault
          | .timeout => .timeout
          | .ok b3 =>
            match go (decide (x > 1)) (c - 1) (c - 2) (c - 1) b3 with
            | .fault => .fault
            | .timeout => .timeout
            | .ok b4 => go (decide (x < b.w - 2)) (c + 1) (c + 2) (c + 1) b4

/-- First loop of `parse_board`, `for (i = 0; s[i]; i++) switch (s[i])`, at
index `i` over the remaining text. -/
def parse_cells : List Char → Nat → Board → Res Board
  | [], _, b => .ok b
  | ch :: rest, i, b =>
    if ch = Char.ofNat 0 then .ok b
    else if ch = '#' then
      match wr b.board (i : Int) wall with
      | .fault => .fault
      | .timeout => .timeout
      | .ok bd => parse_cells rest (i + 1) { b with board := bd }
    else if ch = '.' ∨ ch = '+' then
      match wr b.goals (i : Int) 1 with
      | .fault => .fault
      | .timeout => .timeout
      | .ok gl => parse_cells rest (i + 1) { b with goals := gl }
    else if ch = '*' then
      match wr b.goals (i : Int) 1 with
      | .fault => .fault
      | .timeout => .timeout
      | .ok gl => parse_cells rest (i + 1) { b with goals := gl, n_boxes := b.n_boxes + 1 }
    else if ch = '$' then parse_cells rest (i + 1) { b with n_boxes := b.n_boxes + 1 }
    else parse_cells rest (i + 1) b

/-- Read `s[i]` of the NUL-terminated text: the terminator sits right after
the last character and nothing is known beyond it. -/
def rd_text (s : List Char) (i : Nat) : Res Char :=
  if i < s.length then rd s (i : Int)
  else if i = s.length then .ok (Char.ofNat 0)
  else .fault

/-- Second loop of `parse_board`, `for (i = 0, j = 0; i < w * h; i++)`, at
index `i` with `k` iterations left: flood fill from the goals and fill the
index array `c` of the initial state. -/
def place_loop (s : List Char) (fuel : Nat) :
    Nat → Nat → Nat → Board → List Nat → Res (Board × List Nat)
  | 0, _, _, b, c => .ok (b, c)
  | k + 1, i, j, b, c =>
    match rd b.goals (i : Int) with
    | .fault => .fault
    | .timeout => .timeout
    | .ok g =>
      match (if g ≠ 0 then mark_live fuel b (i : Int) else .ok b) with
      | .fault => .fault
      | .timeout => .timeout
      | .ok b1 =>
        match rd_text s i with
        | .fault => .fault
        | .timeout => .timeout
        | .ok ch =>
          if ch = '$' ∨ ch = '*' then
            match wr c ((j : Int) + 1) (to_cidx (i : Int)) with
            | .fault => .fault
            | .timeout => .timeout
            | .ok c1 => place_loop s fuel k (i + 1) (j + 1) b1 c1
          else if ch = '@' ∨ ch = '+' then
            match wr c 0 (to_cidx (i : Int)) with
            | .fault => .fault
            | .timeout => .timeout
            | .ok c1 => place_loop s fuel k (i + 1) j b1 c1
          else place_loop s fuel k (i + 1) j b1 c

/-- Board construction `parse_board(s)` for the globals `w`, `h` set by
`main`: the board and the initial state.  The three arrays are `calloc`ed
with `w * h` zero bytes; the slots of the fresh state record are taken as
zero until written.  The flood fill is given one nested call per cell and
one more. -/
def parse_board (w h : Int) (s : List Char) : Res (Board × state_t) :=
  if w * h < 0 then .fault else
  let n : Nat := (w * h).toNat
  let b0 : Board := ⟨w, h, 0, List.replicate n 0, List.replicate n 0, List.replicate n 0⟩
  match parse_cells s 0 b0 with
  | .fault => .fault
  | .timeout => .timeout
  | .ok b1 =>
    match place_loop s (n + 1) n 0 0 b1 (List.replicate (b1.n_boxes + 1) 0) with
    | .fault => .fault
    | .timeout => .timeout
    | .ok (b2, c) => .ok (b2, newstate none c)

/-- Second half of `main`, from `extend_table()` to `show_moves(done, -1)`:
create the table, queue the initial state, search for at most `fuel`
rounds. -/
def main_search (b : Board) (s : state_t) (fuel : Nat) : Res Outcome :=
  match extend_table Table.empty with
  | .fault => .fault
  | .timeout => .timeout
  | .ok t =>
    match queue_move b ⟨t, [], none⟩ (some s) with
    | .fault => .fault
    | .timeout => .timeout
    | .ok (_, g) => main_loop b fuel g

/-- Program `main` after its input loop has set `w` (length of the longest
line, newline included), `h` (number of lines) and the text: parse, then
search. -/
def main (w h : Int) (text : List Char) (fuel : Nat) : Res Outcome :=
  match parse_board w h text with
  | .fault => .fault
  | .timeout => .timeout
  | .ok (b, s) => main_search b s fuel

/-! ## Observations on records and boards used in the statements -/

/-- Player slot `c[0]` of a record, as the `int` that `move_me` computes with. -/
def cell0 (s : state_t) : Int := ((s.c.headD 0 : Nat) : Int)

/-- Box slots `c[1..n_boxes]` of a record. -/
def boxes (b : Board) (s : state_t) : List Nat := (s.c.drop 1).take b.n_boxes

/-- Row `y1` of the destination in `move_me`. -/
def row1 (b : Board) (s : state_t) (dy : Int) : Int := Int.tdiv (cell0 s) b.w + dy

/-- Column `x1` of the destination in `move_me`. -/
def col1 (b : Board) (s : state_t) (dx : Int) : Int := Int.tmod (cell0 s) b.w + dx

/-- Destination index `c1 = y1 * w + x1` in `move_me`. -/
def cell1 (b : Board) (s : state_t) (dy dx : Int) : Int :=
  row1 b s dy * b.w + col1 b s dx

/-- Index `c2 = c1 + dy * w + dx` behind the destination in `move_me`. -/
def cell2 (b : Board) (s : state_t) (dy dx : Int) : Int :=
  cell1 b s dy dx + dy * b.w + dx

/-- The bounds test `y1 < 0 || y1 > h || x1 < 0 || x1 > w` of `move_me`. -/
def off_grid (b : Board) (s : state_t) (dy dx : Int) : Prop :=
  row1 b s dy < 0 ∨ row1 b s dy > b.h ∨ col1 b s dx < 0 ∨ col1 b s dx > b.w

instance (b : Board) (s : state_t) (dy dx : Int) : Decidable (off_grid b s dy dx) := by
  unfold off_grid
  infer_instance

/-- The four directions `(dy, dx)` tried by `do_move`, in its order. -/
def dirs : List (Int × Int) := [(0, 1), (0, -1), (-1, 0), (1, 0)]

/-- All the ways a call `move_me(s, dy, dx)` on a record `s` can go, with
what it returns in each. -/
inductive MoveCase (b : Board) (s : state_t) (dy dx : Int) : Res (Option state_t) → Prop where
  | off (h : off_grid b s dy dx) : MoveCase b s dy dx (.ok none)
  | c1_fault (h : ¬ off_grid b s dy dx) (h1 : rd b.board (cell1 b s dy dx) = .fault) :
      MoveCase b s dy dx .fault
  | c1_wall (h : ¬ off_grid b s dy dx) (h1 : rd b.board (cell1 b s dy dx) = .ok wall) :
      MoveCase b s dy dx (.ok none)
  | walk (v : Nat) (bs1 : List Nat) (h : ¬ off_grid b s dy dx)
      (h1 : rd b.board (cell1 b s dy dx) = .ok v) (hv : v ≠ wall)
      (hfree : ∀ x ∈ boxes b s, (x : Int) ≠ cell1 b s dy dx)
      (hperm : bs1.Perm (boxes b s)) :
      MoveCase b s dy dx (.ok (some (.mk 0 (some s) (to_cidx (cell1 b s dy dx) :: bs1))))
  | c2_fault (v : Nat) (h : ¬ off_grid b s dy dx)
      (h1 : rd b.board (cell1 b s dy dx) = .ok v) (hv : v ≠ wall)
      (hbox : ∃ x ∈ boxes b s, (x : Int) = cell1 b s dy dx)
      (h2 : rd b.board (cell2 b s dy dx) = .fault ∨
        (∃ v2, rd b.board (cell2 b s dy dx) = .ok v2 ∧ v2 ≠ wall ∧
          rd b.live (cell2 b s dy dx) = .fault)) :
      MoveCase b s dy dx .fault
  | blocked (v : Nat) (h : ¬ off_grid b s dy dx)
      (h1 : rd b.board (cell1 b s dy dx) = .ok v) (hv : v ≠ wall)
      (hbox : ∃ x ∈ boxes b s, (x : Int) = cell1 b s dy dx)
      (h2 : rd b.board (cell2 b s dy dx) = .ok wall ∨
        (∃ v2, rd b.board (cell2 b s dy dx) = .ok v2 ∧ v2 ≠ wall ∧
          (rd b.live (cell2 b s dy dx) = .ok 0 ∨
            (∃ l, rd b.live (cell2 b s dy dx) = .ok l ∧ l ≠ 0 ∧
              ∃ x ∈ boxes b s, (x : Int) = cell2 b s dy dx)))) :
      MoveCase b s dy dx (.ok none)
  | push (v v2 l : Nat) (j x : Nat) (bs1 : List Nat) (h : ¬ off_grid b s dy dx)
      (h1 : rd b.board (cell1 b s dy dx) = .ok v) (hv : v ≠ wall)
      (hj : (boxes b s)[j]? = some x) (hx : (x : Int) = cell1 b s dy dx)
      (hfirst : ∀ j2, j2 < j → ∀ x2, (boxes b s)[j2]? = some x2 → (x2 : Int) ≠ cell1 b s dy dx)
      (h2 : rd b.board (cell2 b s dy dx) = .ok v2) (hv2 : v2 ≠ wall)
      (h3 : rd b.live (cell2 b s dy dx) = .ok l) (hl : l ≠ 0)
      (hfree : ∀ x ∈ boxes b s, (x : Int) ≠ cell2 b s dy dx)
      (hperm : bs1.Perm ((boxes b s).set j (to_cidx (cell2 b s dy dx)))) :
      MoveCase b s dy dx (.ok (some (.mk 0 (some s) (to_cidx (cell1 b s dy dx) :: bs1))))

/-- The arrays have the `w * h` cells that `parse_board` allocates. -/
structure Sized (b : Board) : Prop where
  w_pos : 0 < b.w
  h_pos : 0 < b.h
  board_len : (b.board.length : Int) = b.w * b.h
  goals_len : (b.goals.length : Int) = b.w * b.h
  live_len : (b.live.length : Int) = b.w * b.h

/-- Wall-enclosed board: `R` is the set of cells that the player or a box
can occupy.  No cell of `R` is a wall or lies on the first or last row or
column, and a non-wall cell next to a cell of `R` is in `R`. -/
structure Enclosed (b : Board) (R : Nat → Prop) : Prop where
  inner : ∀ c, R c → 0 < (c : Int) / b.w ∧ (c : Int) / b.w < b.h - 1 ∧
    0 < (c : Int) % b.w ∧ (c : Int) % b.w < b.w - 1
  floor : ∀ c, R c → ∃ v, rd b.board (c : Int) = .ok v ∧ v ≠ wall
  closed : ∀ c, R c → ∀ d : Int, d = 1 ∨ d = -1 ∨ d = b.w ∨ d = -b.w →
    ∀ v, rd b.board ((c : Int) + d) = .ok v → v ≠ wall → R ((c : Int) + d).toNat

/-- State invariants of the data model on the cells `R`: the record has
`n_boxes + 1` slots, the boxes are pairwise distinct cells of `R`, the
player is on a cell of `R` that holds no box. -/
structure ValidState (b : Board) (R : Nat → Prop) (s : state_t) : Prop where
  len : s.c.length = b.n_boxes + 1
  player : R (s.c.headD 0)
  box : ∀ x ∈ boxes b s, R x
  nodup : (boxes b s).Nodup
  apart : s.c.headD 0 ∉ boxes b s

/-- Every box of the record is on a cell with `live` set. -/
def BoxesLive (b : Board) (s : state_t) : Prop :=
  ∀ x ∈ boxes b s, ∃ l, rd b.live (x : Int) = .ok l ∧ l ≠ 0

/-- The facts about the destination of a move from a cell off the border. -/
structure StepFacts (b : Board) (s : state_t) (dy dx : Int) : Prop where
  on_grid : ¬ off_grid b s dy dx
  row_lo : 0 ≤ row1 b s dy
  row_hi : row1 b s dy < b.h
  col_lo : 0 ≤ col1 b s dx
  col_hi : col1 b s dx < b.w
  c1_eq : cell1 b s dy dx = cell0 s + (dy * b.w + dx)
  c1_lo : 0 ≤ cell1 b s dy dx
  c1_hi : cell1 b s dy dx < b.w * b.h
  offset : dy * b.w + dx = 1 ∨ dy * b.w + dx = -1 ∨ dy * b.w + dx = b.w ∨ dy * b.w + dx = -b.w


/-! ## Boards used as examples -/

/-- Text of a room with the player above a box above a goal. -/
def room_text : List Char := "#####\n# @ #\n# $ #\n# . #\n#####\n".toList

/-- The board `parse_board` builds from `room_text` (`w = 6`, `h = 5`). -/
def room_board : Board :=
  ⟨6, 5, 1,
    [1, 1, 1, 1, 1, 0, 1, 0, 0, 0, 1, 0, 1, 0, 0, 0, 1, 0, 1, 0, 0, 0, 1, 0, 1, 1, 1, 1, 1, 0],
    [0, 0, 0, 0, 0, 0, 0, 0, 0, 0, 0, 0, 0, 0, 0, 0, 0, 0, 0, 0, 1, 0, 0, 0, 0, 0, 0, 0, 0, 0],
    [0, 0, 0, 0, 0, 0, 0, 0, 0, 0, 0, 0, 0, 0, 1, 0, 0, 0, 0, 0, 1, 0, 0, 0, 0, 0, 0, 0, 0, 0]⟩

/-- The initial state `parse_board` builds from `room_text`. -/
def room_state : state_t := .mk 0 none [8, 14]

/-- The floor cells of the room. -/
def room_cells : List Nat := [7, 8, 9, 13, 14, 15, 19, 20, 21]

/-- A single row of 65538 floor cells. -/
def wide_cells : List Nat := List.replicate 65538 0

/-- Goal flags of the wide row: one goal, at cell 65536. -/
def wide_goals : List Nat := List.replicate 65536 0 ++ [1, 0]

/-- Live flags of the wide row: the cells 1 to 65536. -/
def wide_live : List Nat := 0 :: (List.replicate 65536 1 ++ [0])

/-- A board of one row of 65538 cells, more than `cidx_t` can index: the
board of the line of 65534 blanks followed by `@$.` and a newline. -/
def wide_board : Board := ⟨65538, 1, 1, wide_cells, wide_goals, wide_live⟩

/-- A state on the wide row: player at 65534, box at 65535. -/
def wide_state : state_t := .mk 0 none [65534, 65535]

/-- A state on the wide row: player at 65535, box at 3. -/
def wide_walker : state_t := .mk 0 none [65535, 3]

/-- Text of two lines with the box on the last row, below the player:
`w = 4`, `h = 2`. -/
def open_text : List Char := " @ \n $ ".toList

/-- The board `parse_board` builds from `open_text`: 8 floor cells, no goal. -/
def open_board : Board :=
  ⟨4, 2, 1, [0, 0, 0, 0, 0, 0, 0, 0], [0, 0, 0, 0, 0, 0, 0, 0], [0, 0, 0, 0, 0, 0, 0, 0]⟩

/-- The initial state of `open_text`: player at cell 1, box below it at cell 5. -/
def open_state : state_t := .mk 0 none [1, 5]

/-! ## Observations on the transposition table -/

/-- The states stored in the table, bucket after bucket. -/
def Table.states (t : Table) : List state_t := t.buckets.flatten

/-- The index arrays stored in the table. -/
def Table.keys (t : Table) : List (List Nat) := t.states.map state_t.c

/-- State `f` is in the chain of bucket `i`. -/
def InBucket (bk : List (List state_t)) (i : Nat) (f : state_t) : Prop :=
  ∃ chain, bk[i]? = some chain ∧ f ∈ chain

/-- A record as `newstate` and `hash` leave it: `n_boxes + 1` slots and a
field `h` that is `0` or the hash of the slots. -/
def Hashable (b : Board) (s : state_t) : Prop :=
  s.c.length = b.n_boxes + 1 ∧ (s.h = 0 ∨ hash_loop s.c (b.n_boxes + 1) 0 0 = .ok s.h)

instance (b : Board) (s : state_t) : Decidable (Hashable b s) := by
  unfold Hashable
  infer_instance

/-- Invariant of the table: `hash_size` buckets, at least one, and every
stored record has `n_boxes + 1` slots, carries the hash of its slots and
sits in the bucket `h & (hash_size - 1)`. -/
structure TableInv (b : Board) (t : Table) : Prop where
  size_pos : 0 < t.hash_size
  len : t.buckets.length = t.hash_size
  placed : ∀ i f, InBucket t.buckets i f →
    f.c.length = b.n_boxes + 1 ∧ hash_loop f.c (b.n_boxes + 1) 0 0 = .ok f.h ∧
      f.h &&& mask t.hash_size = i

/-- Offer the states of a list to the table, one `add_to_table` call after
the other; the flags returned and the final table. -/
def offer_all (b : Board) : Table → List state_t → Res (List Bool × Table)
  | t, [] => .ok ([], t)
  | t, s :: rest =>
    match add_to_table b t s with
    | .fault => .fault
    | .timeout => .timeout
    | .ok (r, _, t1) =>
      match offer_all b t1 rest with
      | .fault => .fault
      | .timeout => .timeout
      | .ok (rs, t2) => .ok (r :: rs, t2)

/-- Text of the one-row corridor: player, box, goal. -/
def corridor_text : List Char := "#####\n#@$.#\n#####\n".toList

/-- Text of a one-row corridor with a free cell between player and box. -/
def long_corridor_text : List Char := "#######\n#@ $.#\n#######\n".toList

/-- Text of a room with two boxes side by side below the player. -/
def two_box_text : List Char := "#####\n#@  #\n#$$ #\n#   #\n#. .#\n#####\n".toList

/-- Text of two lines, the second without a final newline: `w = 4`, `h = 2`. -/
def ragged_text : List Char := "  @\n   ".toList

/-- Three records offered to the table, the third with the slots of the first. -/
def demo_offers : List state_t := [.mk 0 none [8, 14], .mk 0 none [9, 14], .mk 0 none [8, 14]]

/-! ## The Sokoban rules, as the specification words them -/

/-- A configuration of the puzzle: the cell of the player and the cells of
the boxes. -/
structure Config where
  player : Nat
  boxes : List Nat
deriving DecidableEq, Repr

/-- Direction `(dy, dx)` of a move letter and whether it is a push:
`r l u d` walk, `R L U D` push. -/
def letter_move (l : Char) : Option (Int × Int × Bool) :=
  if l = 'r' then some (0, 1, false)
  else if l = 'R' then some (0, 1, true)
  else if l = 'l' then some (0, -1, false)
  else if l = 'L' then some (0, -1, true)
  else if l = 'u' then some (-1, 0, false)
  else if l = 'U' then some (-1, 0, true)
  else if l = 'd' then some (1, 0, false)
  else if l = 'D' then some (1, 0, true)
  else none

/-- The cell in row `y` and column `x` lies inside the grid and is not a wall. -/
def is_floor (b : Board) (y x : Int) : Bool :=
  decide (0 ≤ y ∧ y < b.h ∧ 0 ≤ x ∧ x < b.w) &&
    (match rd b.board (y * b.w + x) with
     | .ok v => decide (v ≠ wall)
     | _ => false)

/-- One move under the Sokoban rules: the letter moves the player one cell
in its direction; an uppercase letter pushes the box in front of the player
one cell further, into a non-wall cell holding no other box; a lowercase
letter steps onto a non-wall cell holding no box.  `none` when the move is
not legal. -/
def rule_step (b : Board) (cfg : Config) (l : Char) : Option Config :=
  match letter_move l with
  | none => none
  | some (dy, dx, push) =>
    let y1 : Int := (cfg.player : Int) / b.w + dy
    let x1 : Int := (cfg.player : Int) % b.w + dx
    let c1 : Nat := (y1 * b.w + x1).toNat
    let c2 : Nat := ((y1 + dy) * b.w + (x1 + dx)).toNat
    if is_floor b y1 x1 then
      if push then
        if c1 ∈ cfg.boxes ∧ is_floor b (y1 + dy) (x1 + dx) = true ∧ c2 ∉ cfg.boxes then
          some ⟨c1, cfg.boxes.map (fun c => if c = c1 then c2 else c)⟩
        else none
      else if c1 ∈ cfg.boxes then none
      else some ⟨c1, cfg.boxes⟩
    else none

/-- Replay of a letter sequence under the rules; `none` when some move is
not legal. -/
def replay (b : Board) : Config → List Char → Option Config
  | cfg, [] => some cfg
  | cfg, l :: ls =>
    match rule_step b cfg l with
    | none => none
    | some cfg1 => replay b cfg1 ls

/-- Every box of the configuration is on a goal cell. -/
def all_on_goals (b : Board) (cfg : Config) : Prop :=
  ∀ c ∈ cfg.boxes, ∃ g, rd b.goals (c : Int) = .ok g ∧ g ≠ 0

/-- The configuration a record stands for. -/
def config_of (b : Board) (s : state_t) : Config := ⟨s.c.headD 0, boxes b s⟩

/-- Record `s` stands for the configuration `cfg`: same player cell, same
boxes up to the order of the slots. -/
def Rep (b : Board) (s : state_t) (cfg : Config) : Prop :=
  cfg.player = s.c.headD 0 ∧ (boxes b s).Perm cfg.boxes

/-- Records linked by `prev` back to a root with the slots `c0`, each made
by `move_me` from its parent; the number is the count of `prev` links. -/
inductive Chain (b : Board) (c0 : List Nat) : state_t → Nat → Prop where
  | root (h : Nat) : Chain b c0 (.mk h none c0) 0
  | step (h : Nat) (p n : state_t) (k : Nat) (dy dx : Int) (hp : Chain b c0 p k)
      (hd : (dy, dx) ∈ dirs) (hm : move_me b p dy dx = .ok (some n)) :
      Chain b c0 (.mk h (some p) n.c) (k + 1)

/-- What `show_moves(s, nextPos)` prints after the letters `letters` of the
ancestors of `s`. -/
def shown (b : Board) (letters : List Char) (s : state_t) (nextPos : Int) :
    Res (List Char × Bool) :=
  if nextPos = -1 then .ok (letters ++ ['\n'], false)
  else
    match move_letter b s.c nextPos with
    | .fault => .fault
    | .timeout => .timeout
    | .ok (some l) => .ok (letters ++ [l], false)
    | .ok none => .ok (letters ++ "Invalid move\n".toList, true)


/-- Every box of the configuration is on a cell with `live` set. -/
def boxes_live (b : Board) (cfg : Config) : Prop :=
  ∀ c ∈ cfg.boxes, ∃ l, rd b.live (c : Int) = .ok l ∧ l ≠ 0

/-- The player of the configuration stands inside the grid, not on a wall. -/
def player_ok (b : Board) (cfg : Config) : Prop :=
  is_floor b ((cfg.player : Int) / b.w) ((cfg.player : Int) % b.w) = true

/-- Legal letter sequences from `cfg0` that leave the boxes on live cells
after every move, with the configuration reached. -/
inductive LiveRun (b : Board) (cfg0 : Config) : List Char → Config → Prop where
  | nil : LiveRun b cfg0 [] cfg0
  | snoc (ls : List Char) (l : Char) (cfg cfg1 : Config) (hrun : LiveRun b cfg0 ls cfg)
      (hstep : rule_step b cfg l = some cfg1) (hlive : boxes_live b cfg1) :
      LiveRun b cfg0 (ls ++ [l]) cfg1

/-- The four steps of `mark_live` from the cell `c` have been taken: in each
direction in which the neighbour and the cell behind it are inside the grid
and not walls, the neighbour is live. -/
structure ClosedAt (b : Board) (c : Int) : Prop where
  up : Int.tdiv c b.w > 1 →
    (∃ v, rd b.board (c - b.w) = .ok v ∧ v ≠ wall) →
    (∃ v, rd b.board (c - b.w * 2) = .ok v ∧ v ≠ wall) →
    ∃ l2, rd b.live (c - b.w) = .ok l2 ∧ l2 ≠ 0
  down : Int.tdiv c b.w < b.h - 2 →
    (∃ v, rd b.board (c + b.w) = .ok v ∧ v ≠ wall) →
    (∃ v, rd b.board (c + b.w * 2) = .ok v ∧ v ≠ wall) →
    ∃ l2, rd b.live (c + b.w) = .ok l2 ∧ l2 ≠ 0
  left : Int.tmod c b.w > 1 →
    (∃ v, rd b.board (c - 1) = .ok v ∧ v ≠ wall) →
    (∃ v, rd b.board (c - 2) = .ok v ∧ v ≠ wall) →
    ∃ l2, rd b.live (c - 1) = .ok l2 ∧ l2 ≠ 0
  right : Int.tmod c b.w < b.w - 2 →
    (∃ v, rd b.board (c + 1) = .ok v ∧ v ≠ wall) →
    (∃ v, rd b.board (c + 2) = .ok v ∧ v ≠ wall) →
    ∃ l2, rd b.live (c + 1) = .ok l2 ∧ l2 ≠ 0

/-- The array `live` holds every goal and is closed under the steps of
`mark_live`. -/
structure LiveClosed (b : Board) : Prop where
  goals_live : ∀ (c : Nat) (g : Nat), rd b.goals (c : Int) = .ok g → g ≠ 0 →
    ∃ l, rd b.live (c : Int) = .ok l ∧ l ≠ 0
  closed : ∀ (c : Int) (l : Nat), rd b.live c = .ok l → l ≠ 0 → ClosedAt b c

/-- One of the four conditional calls of `mark_live`, with the recursive
call as a parameter. -/
def mark_branch (rec : Board → Int → Res Board) (cond : Bool) (near far next : Int)
    (b : Board) : Res Board :=
  if cond then
    match rd b.board near with
    | .fault => .fault
    | .timeout => .timeout
    | .ok v1 =>
      if v1 = wall then .ok b else
      match rd b.board far with
      | .fault => .fault
      | .timeout => .timeout
      | .ok v2 => if v2 = wall then .ok b else rec b next
  else .ok b

/-- Board `b1` is `b` with more cells live, and every cell that became
live, other than those in `skip`, has had its four steps taken. -/
structure Marked (skip : Int → Prop) (b b1 : Board) : Prop where
  w_eq : b1.w = b.w
  h_eq : b1.h = b.h
  n_eq : b1.n_boxes = b.n_boxes
  board_eq : b1.board = b.board
  goals_eq : b1.goals = b.goals
  len_eq : b1.live.length = b.live.length
  mono : ∀ (i : Int) (l : Nat), rd b.live i = .ok l → l ≠ 0 → ∃ l1, rd b1.live i = .ok l1 ∧ l1 ≠ 0
  fresh : ∀ (i : Int) (l1 : Nat), rd b1.live i = .ok l1 → l1 ≠ 0 → rd b.live i = .ok 0 →
    ¬ skip i → ClosedAt b1 i

/-- Invariant of the search at the start of round `r`, with `done` unset:
the table holds chains from the root, none of them a goal state; the
frontier holds stored records of depth `r`; every stored record outside the
frontier has all its successors stored; every configuration that a live
run of at most `r` letters reaches has a stored record. -/
structure LevelInv (b : Board) (c0 : List Nat) (r : Nat) (g : Globals) : Prop where
  tinv : TableInv b g.tbl
  uniq : ∀ s ∈ g.tbl.states, ∀ s2 ∈ g.tbl.states, s.c = s2.c → s = s2
  chain : ∀ s ∈ g.tbl.states, ∃ k, Chain b c0 s k
  front : ∀ s ∈ g.next_level, s ∈ g.tbl.states ∧ Chain b c0 s r
  nogoal : ∀ s ∈ g.tbl.states, success b s = .ok false
  closed : ∀ s ∈ g.tbl.states, s.c ∉ g.next_level.map state_t.c →
    ∀ (dy dx : Int) (n : state_t), (dy, dx) ∈ dirs → move_me b s dy dx = .ok (some n) →
      n.c ∈ g.tbl.keys
  complete : ∀ (letters : List Char) (cfg : Config), letters.length ≤ r →
    LiveRun b (config_of b (.mk 0 none c0)) letters cfg → ∃ s ∈ g.tbl.states, Rep b s cfg

/-- Invariant of the search inside round `r`: `old` are the records stored
when the round began, `rest` the records of the frontier not yet expanded. -/
structure RoundInv (b : Board) (c0 : List Nat) (r : Nat) (old rest : List state_t)
    (g : Globals) : Prop where
  tinv : TableInv b g.tbl
  uniq : ∀ s ∈ g.tbl.states, ∀ s2 ∈ g.tbl.states, s.c = s2.c → s = s2
  chain : ∀ s ∈ g.tbl.states, ∃ k, Chain b c0 s k
  mono : ∀ s ∈ old, s ∈ g.tbl.states
  fresh : ∀ s ∈ g.tbl.states, s ∉ old → s ∈ g.next_level ∨ g.done = some s
  queued : ∀ s ∈ g.next_level, s ∈ g.tbl.states ∧ s ∉ old ∧ Chain b c0 s (r + 1)
  nogoal : g.done = none → ∀ s ∈ g.tbl.states, success b s = .ok false
  goal : ∀ d, g.done = some d → Chain b c0 d (r + 1) ∧ success b d = .ok true
  closed : g.done = none → ∀ s ∈ old, s.c ∉ rest.map state_t.c →
    ∀ (dy dx : Int) (n : state_t), (dy, dx) ∈ dirs → move_me b s dy dx = .ok (some n) →
      n.c ∈ g.tbl.keys

/-- Every live cell has had its four steps taken. -/
def AllClosed (b : Board) : Prop :=
  ∀ (c : Int) (l : Nat), rd b.live c = .ok l → l ≠ 0 → ClosedAt b c

/-- The globals at the round boundaries of the search from the record `s0`:
after `queue_move` of `s0` on the fresh table, and after each round of
`main` run with `done` unset. -/
inductive Reached (b : Board) (s0 : state_t) : Globals → Prop where
  | init (t : Table) (res : Bool) (g : Globals) (ht : extend_table Table.empty = .ok t)
      (hq : queue_move b ⟨t, [], none⟩ (some s0) = .ok (res, g)) : Reached b s0 g
  | round (g g1 : Globals) (hg : Reached b s0 g) (hdone : g.done = none)
      (hr : round b g.next_level { g with next_level := [] } = .ok g1) : Reached b s0 g1

/-- Text of the room with the player in the corner: two moves solve it. -/
def offset_text : List Char := "#####\n#@  #\n# $ #\n# . #\n#####\n".toList

/-- The initial state `parse_board` builds from `offset_text`. -/
def offset_state : state_t := .mk 0 none [7, 14]

/-! ## Observations used for the printer, the flood fill, the parser and the table -/

/-- Number of `prev` links from a record back to its root. -/
def depth : state_t → Nat
  | .mk _ none _ => 0
  | .mk _ (some p) _ => depth p + 1

/-- The letter the specification assigns to a move in direction `(dy, dx)`:
`r l u d` for right, left, up, down, uppercase for a push. -/
def step_letter (dy dx : Int) (push : Bool) : Char :=
  if (dy, dx) = (0, 1) then (if push then 'R' else 'r')
  else if (dy, dx) = (0, -1) then (if push then 'L' else 'l')
  else if (dy, dx) = (-1, 0) then (if push then 'U' else 'u')
  else (if push then 'D' else 'd')

/-- The move from `p` to `n` was a push: the box multisets differ. -/
def pushed (b : Board) (p n : state_t) : Bool :=
  decide (¬ (boxes b n).Perm (boxes b p))

/-- Chains `root = s0, ..., sk = s` of records with `n_boxes + 1` slots in
which every record was returned by `move_me` on its parent for one of the
four directions, with the number `k` of links and the letters the
specification assigns to the steps, root first.  `G p dy dx` is a side
condition on the steps. -/
inductive Trail (b : Board) (G : state_t → Int → Int → Prop) :
    state_t → Nat → List Char → Prop where
  | root (h : Nat) (c : List Nat) (hc : c.length = b.n_boxes + 1) :
      Trail b G (.mk h none c) 0 []
  | step (h : Nat) (p n : state_t) (k : Nat) (ls : List Char) (dy dx : Int)
      (hp : Trail b G p k ls) (hd : (dy, dx) ∈ dirs)
      (hm : move_me b p dy dx = .ok (some n)) (hg : G p dy dx) :
      Trail b G (.mk h (some p) n.c) (k + 1) (ls ++ [step_letter dy dx (pushed b p n)])

/-- Side condition of a step: the destination column `x1` is a column of
the grid. -/
def in_columns (b : Board) (p : state_t) (_dy dx : Int) : Prop :=
  col1 b p dx < b.w

instance (b : Board) (p : state_t) (dy dx : Int) : Decidable (in_columns b p dy dx) := by
  unfold in_columns
  infer_instance

/-- The board `parse_board` builds from `ragged_text`. -/
def ragged_board : Board :=
  ⟨4, 2, 0, [0, 0, 0, 0, 0, 0, 0, 0], [0, 0, 0, 0, 0, 0, 0, 0], [0, 0, 0, 0, 0, 0, 0, 0]⟩

/-- Some record of the chain has the player cell of its parent. -/
def stalled : state_t → Bool
  | .mk _ none _ => false
  | .mk _ (some p) c => stalled p || decide (c.headD 0 = p.c.headD 0)

/-- Every record of the chain has `n_boxes + 1` slots. -/
def sized_chain (b : Board) : state_t → Prop
  | .mk _ none c => c.length = b.n_boxes + 1
  | .mk _ (some p) c => c.length = b.n_boxes + 1 ∧ sized_chain b p

/-- Cell `i` of the array `bd` exists and is not a wall. -/
def open_at (bd : List Nat) (i : Int) : Prop := ∃ v, rd bd i = .ok v ∧ v ≠ wall

/-- The set `P` of cells is kept by the four conditional steps of
`mark_live` on the grid of width `W` and height `H` with the cells `BD`. -/
structure StepClosed (W H : Int) (BD : List Nat) (P : Int → Prop) : Prop where
  up : ∀ c, P c → 0 ≤ c → c < W * H → c / W > 1 →
    open_at BD (c - W) → open_at BD (c - W * 2) → P (c - W)
  down : ∀ c, P c → 0 ≤ c → c < W * H → c / W < H - 2 →
    open_at BD (c + W) → open_at BD (c + W * 2) → P (c + W)
  left : ∀ c, P c → 0 ≤ c → c < W * H → c % W > 1 →
    open_at BD (c - 1) → open_at BD (c - 2) → P (c - 1)
  right : ∀ c, P c → 0 ≤ c → c < W * H → c % W < W - 2 →
    open_at BD (c + 1) → open_at BD (c + 2) → P (c + 1)

/-- State of the flood fill on the grid `W`, `H`, `BD`: the array `live` has
`W * H` cells, every live cell is in `P` and holds a value in `Q`. -/
structure Fill (W H : Int) (BD : List Nat) (P : Int → Prop) (Q : Nat → Prop) (b : Board) :
    Prop where
  w_eq : b.w = W
  h_eq : b.h = H
  board_eq : b.board = BD
  live_len : (b.live.length : Int) = W * H
  sound : ∀ (i : Int) (l : Nat), rd b.live i = .ok l → l ≠ 0 → P i
  bit : ∀ (i : Int) (l : Nat), rd b.live i = .ok l → l ≠ 0 → Q l

/-- Board `b1` is a later state of the flood fill than `b`: no more cells
with `live = 0`, same goals and box count. -/
structure Filled (W H : Int) (BD : List Nat) (P : Int → Prop) (Q : Nat → Prop)
    (b b1 : Board) : Prop where
  fill : Fill W H BD P Q b1
  count_le : b1.live.count 0 ≤ b.live.count 0
  goals_eq : b1.goals = b.goals
  n_eq : b1.n_boxes = b.n_boxes

/-- One step of the backward push closure of the specification, from the
cell `c = (y, x)` by `d`: up (`y - 2 ≥ 0`), down (`y + 2 ≤ h - 1`), left
(`x - 2 ≥ 0`) or right (`x + 2 ≤ w - 1`), with the cells `c + d` and
`c + 2 d` not walls. -/
def back_step (b : Board) (c d : Int) : Prop :=
  ((d = -b.w ∧ 0 ≤ c / b.w - 2) ∨ (d = b.w ∧ c / b.w + 2 ≤ b.h - 1) ∨
    (d = -1 ∧ 0 ≤ c % b.w - 2) ∨ (d = 1 ∧ c % b.w + 2 ≤ b.w - 1)) ∧
  open_at b.board (c + d) ∧ open_at b.board (c + 2 * d)

/-- Cells reached from the cell `g` by steps of the backward push closure. -/
inductive PushBack (b : Board) (g : Int) : Int → Prop where
  | refl : PushBack b g g
  | step (c d : Int) (hc : PushBack b g c) (hs : back_step b c d) : PushBack b g (c + d)

/-- The polynomial of the specification for the hash of the slots
`c[0..n]`: the sum of `c[i] * 31 ^ (n - i)` modulo `2 ^ 32`. -/
def poly_hash (c : List Nat) (n : Nat) : Nat :=
  ((List.range (n + 1)).map (fun i => c.getD i 0 * 31 ^ (n - i))).sum % 4294967296

/-- Counters of the table after `k` doublings: `hash_size = 1024 * 2 ^ k`,
`fill_limit = 768 * 2 ^ k`, `filled` is the number of stored records and
does not exceed `fill_limit`. -/
structure GrowthInv (t : Table) (k : Nat) : Prop where
  size_eq : t.hash_size = 1024 * 2 ^ k
  limit_eq : t.fill_limit = 768 * 2 ^ k
  filled_eq : t.filled = t.states.length
  filled_le : t.filled ≤ t.fill_limit

/-- The first table with the hashed initial record of the room stored in
bucket `262 & 1023`. -/
def one_table : Table :=
  ⟨(List.replicate 1024 []).set 262 [.mk 262 none [8, 14]], 1024, 768, 1⟩

/-- Character `s[i]` of the C string `s`: the terminator NUL from the end
of the text on. -/
def text_at (s : List Char) (i : Nat) : Char := s.getD i (Char.ofNat 0)

/-- The characters `$` and `*`: a box. -/
def is_box_char (ch : Char) : Bool := ch == '$' || ch == '*'

/-- The characters `@` and `+`: the player. -/
def is_player_char (ch : Char) : Bool := ch == '@' || ch == '+'

/-- The characters `.`, `+` and `*`: a goal. -/
def is_goal_char (ch : Char) : Bool := ch == '.' || ch == '+' || ch == '*'

/-- The positions below `k` of the characters of the text that satisfy `p`,
in ascending order. -/
def positions (p : Char → Bool) (s : List Char) (k : Nat) : List Nat :=
  (List.range k).filter (fun m => p (text_at s m))

/-- State of the first loop of `parse_board` at index `i` on the text `s`
for arrays of `n` cells: `board` and `goals` hold the characters below `i`,
`n_boxes` counts the boxes below `i`, `live` is untouched. -/
structure CellsAt (w h : Int) (n : Nat) (s : List Char) (i : Nat) (b : Board) : Prop where
  w_eq : b.w = w
  h_eq : b.h = h
  live_eq : b.live = List.replicate n 0
  board_len : b.board.length = n
  goals_len : b.goals.length = n
  board_at : ∀ m, m < n →
    b.board[m]? = some (if m < i ∧ text_at s m = '#' then wall else space)
  goals_at : ∀ m, m < n →
    b.goals[m]? = some (if m < i ∧ is_goal_char (text_at s m) = true then 1 else 0)
  boxes_eq : b.n_boxes = (positions is_box_char s i).length

/-- What one iteration of the first loop of `parse_board` does for the
character `ch` at index `i`. -/
def cell_step (ch : Char) (i : Nat) (b : Board) : Board :=
  ⟨b.w, b.h, if is_box_char ch then b.n_boxes + 1 else b.n_boxes,
    if ch = '#' then b.board.set i wall else b.board,
    if is_goal_char ch then b.goals.set i 1 else b.goals, b.live⟩

/-- State of the second loop of `parse_board` at index `i` with `j` boxes
placed: the slots of the record hold the boxes below `i` and the last
player below `i`, every index reduced to `cidx_t`. -/
structure PlaceAt (s : List Char) (nb : Nat) (i j : Nat) (slots : List Nat) : Prop where
  len : slots.length = nb + 1
  count : j = (positions is_box_char s i).length
  boxes_at : ∀ (m q : Nat), (positions is_box_char s i)[m]? = some q →
    slots[m + 1]? = some (q % 65536)
  player_at : ∀ (q : Nat), (positions is_player_char s i).getLast? = some q →
    slots[0]? = some (q % 65536)

/-- Text of two lines, the second empty: `w = 3`, `h = 2`, four characters
for six cells. -/
def short_text : List Char := "@$\n\n".toList

/-- Text of one line of 65536 blanks followed by the player: `w = 65538`,
`h = 1`. -/
def long_text : List Char := List.replicate 65536 ' ' ++ ['@', '\n']

/-- The room before the flood fill: no cell live. -/
def room_fresh : Board := { room_board with live := List.replicate 30 0 }

/-- Letter for a player position `cur` and the next position `nxt` on rows
of width `w`: the columns are compared first and the rows second, whatever
the distance between the two positions; the letter is uppercase when `box`;
`none` when neither the columns nor the rows differ. -/
def ladder_letter (w cur nxt : Int) (box : Bool) : Option Char :=
  if Int.tmod cur w < Int.tmod nxt w then some (if box then 'R' else 'r')
  else if Int.tmod nxt w < Int.tmod cur w then some (if box then 'L' else 'l')
  else if Int.tdiv cur w < Int.tdiv nxt w then some (if box then 'D' else 'd')
  else if Int.tdiv nxt w < Int.tdiv cur w then some (if box then 'U' else 'u')
  else none

/-- Letters of the links of a chain, root first, up to the first link whose
two records have the same player cell: one letter per link, for the player
cell of the parent and the player cell of the child, uppercase when the
player cell of the child is a box slot of the parent. -/
def link_letters (b : Board) : state_t → List Char
  | .mk _ none _ => []
  | .mk _ (some p) c =>
    if stalled p = true then link_letters b p
    else link_letters b p ++
      (ladder_letter b.w ((p.c.headD 0 : Nat) : Int) ((c.headD 0 : Nat) : Int)
        (decide (c.headD 0 ∈ boxes b p))).toList

/-! ## Array reads -/

theorem rd_ne_timeout {α : Type} (a : List α) (i : Int) : rd a i ≠ .timeout := by
  unfold rd
  split
  · split <;> simp
  · simp

theorem rd_nat {α : Type} (a : List α) (i : Nat) :
    rd a (i : Int) = match a[i]? with | some v => .ok v | none => .fault := by
  cases h : a[i]? with
  | none => simp [rd, h]
  | some v => simp [rd, h]

theorem rd_eq_ok {α : Type} {a : List α} {i : Int} {v : α} :
    rd a i = .ok v ↔ 0 ≤ i ∧ a[i.toNat]? = some v := by
  unfold rd
  split
  · rename_i h
    cases hv : a[i.toNat]? <;> simp [h]
  · rename_i h
    simp [h]

theorem rd_nat_ok {α : Type} {a : List α} {i : Nat} {v : α} :
    rd a (i : Int) = .ok v ↔ a[i]? = some v := by
  rw [rd_eq_ok]
  simp

theorem rd_lt {α : Type} {a : List α} {i : Int} {v : α} (h : rd a i = .ok v) :
    0 ≤ i ∧ i < a.length := by
  rw [rd_eq_ok] at h
  obtain ⟨h0, h1⟩ := h
  have := (List.getElem?_eq_some_iff.mp h1).1
  omega

theorem rd_of_lt {α : Type} (a : List α) (i : Nat) (h : i < a.length) :
    rd a (i : Int) = .ok (a.get ⟨i, h⟩) := by
  rw [rd_nat_ok]
  simp [List.getElem?_eq_getElem h]

theorem rd_cons_succ {α : Type} (x : α) (a : List α) (i : Nat) :
    rd (x :: a) ((i : Int) + 1) = rd a (i : Int) := by
  have : ((i : Int) + 1) = ((i + 1 : Nat) : Int) := by simp
  rw [this, rd_nat, rd_nat]
  simp

theorem rd_nat_succ_cons {α : Type} (x : α) (a : List α) (i : Nat) :
    rd (x :: a) ((i + 1 : Nat) : Int) = rd a (i : Int) := by
  rw [rd_nat, rd_nat]
  simp

/-! ## The box scan -/

theorem rd_append_length (pre : List Nat) (x : Nat) (rest : List Nat) :
    rd (pre ++ x :: rest) (pre.length : Int) = .ok x := by
  rw [rd_nat_ok, List.getElem?_append_right (le_refl _)]
  simp

/-- Scan `find_box` from the slot after `pre` over the `k` first slots of
`rest`: it returns the first slot holding `v`, or 0. -/
theorem find_box_append (v : Int) :
    ∀ (k : Nat) (pre rest : List Nat), k ≤ rest.length →
      ∃ r, find_box (pre ++ rest) v k pre.length = .ok r ∧
        ((r = 0 ∧ ∀ x ∈ rest.take k, (x : Int) ≠ v) ∨
         (∃ j x, r = pre.length + j ∧ j < k ∧ rest[j]? = some x ∧ (x : Int) = v ∧
            ∀ j2, j2 < j → ∀ x2, rest[j2]? = some x2 → (x2 : Int) ≠ v)) := by
  intro k
  induction k with
  | zero =>
    intro pre rest _
    exact ⟨0, rfl, Or.inl ⟨rfl, by simp⟩⟩
  | succ k ih =>
    intro pre rest hk
    cases rest with
    | nil => simp at hk
    | cons x rest =>
      simp only [List.length_cons, Nat.add_le_add_iff_right] at hk
      unfold find_box
      rw [rd_append_length]
      by_cases hx : (x : Int) = v
      · simp only [hx, if_true]
        exact ⟨pre.length, rfl, Or.inr ⟨0, x, by simp, by omega, by simp, hx, by
          intro j2 hj2; omega⟩⟩
      · simp only [hx, if_false]
        have h1 := ih (pre ++ [x]) rest hk
        have e1 : pre ++ [x] ++ rest = pre ++ x :: rest := by simp
        have e2 : (pre ++ [x]).length = pre.length + 1 := by simp
        rw [e1, e2] at h1
        obtain ⟨r, hr, hcase⟩ := h1
        refine ⟨r, hr, ?_⟩
        rcases hcase with ⟨h0, hall⟩ | ⟨j, y, hj, hjk, hy, hyv, hfirst⟩
        · left
          refine ⟨h0, ?_⟩
          intro z hz
          simp only [List.take_succ_cons, List.mem_cons] at hz
          rcases hz with rfl | hz
          · exact hx
          · exact hall z hz
        · right
          refine ⟨j + 1, y, by omega, by omega, by simpa using hy, hyv, ?_⟩
          intro j2 hj2 x2 hx2
          cases j2 with
          | zero =>
            simp at hx2
            subst hx2
            exact hx
          | succ j2 =>
            simp at hx2
            exact hfirst j2 (by omega) x2 hx2

/-- Scan of a whole record `p0 :: bs`. -/
theorem find_box_cons (p0 : Nat) (v : Int) (bs : List Nat) :
    ∃ r, find_box (p0 :: bs) v bs.length 1 = .ok r ∧
      ((r = 0 ∧ ∀ x ∈ bs, (x : Int) ≠ v) ∨
       (∃ j x, r = j + 1 ∧ bs[j]? = some x ∧ (x : Int) = v ∧
          ∀ j2, j2 < j → ∀ x2, bs[j2]? = some x2 → (x2 : Int) ≠ v)) := by
  obtain ⟨r, hr, hcase⟩ := find_box_append v bs.length [p0] bs (le_refl _)
  refine ⟨r, by simpa using hr, ?_⟩
  rcases hcase with ⟨h0, hall⟩ | ⟨j, x, hj, _, hx, hxv, hfirst⟩
  · left
    exact ⟨h0, by simpa using hall⟩
  · right
    exact ⟨j, x, by simp at hj; omega, hx, hxv, hfirst⟩

/-! ## The bubble sort -/

theorem swap_perm (p : List Nat) (j : Nat) (a a1 : Nat)
    (h0 : p[j]? = some a) (h1 : p[j + 1]? = some a1) :
    ((p.set j a1).set (j + 1) a).Perm p := by
  induction p generalizing j with
  | nil => simp at h0
  | cons x p ih =>
    cases j with
    | zero =>
      cases p with
      | nil => simp at h1
      | cons y p =>
        simp at h0 h1
        subst h0 h1
        simp
        exact List.Perm.swap _ _ _
    | succ j =>
      simp at h0 h1
      simp
      exact ih j h0 h1

theorem swap_head (p : List Nat) (j : Nat) (a a1 : Nat) :
    ((p.set (j + 1) a1).set (j + 1 + 1) a).head? = p.head? := by
  cases p <;> simp

/-- The inner loop permutes the slots from 1 on and keeps slot 0. -/
theorem sort_inner_spec :
    ∀ (k j : Nat) (p : List Nat) (t : Nat), 1 ≤ j → j + k < p.length →
      ∃ p1 t1, sort_inner k j p t = .ok (p1, t1) ∧ p1.Perm p ∧ p1.head? = p.head? := by
  intro k
  induction k with
  | zero =>
    intro j p t _ _
    exact ⟨p, t, rfl, List.Perm.refl _, rfl⟩
  | succ k ih =>
    intro j p t hj hlen
    have hj0 : j < p.length := by omega
    have hj1 : j + 1 < p.length := by omega
    unfold sort_inner
    have e : ((j : Int) + 1) = ((j + 1 : Nat) : Int) := by simp
    rw [e, rd_of_lt p j hj0, rd_of_lt p (j + 1) hj1]
    simp only
    split
    · have hp : ((p.set j (p.get ⟨j + 1, hj1⟩)).set (j + 1) (p.get ⟨j, hj0⟩)).Perm p :=
        swap_perm p j _ _ (by simp [List.getElem?_eq_getElem hj0])
          (by simp [List.getElem?_eq_getElem hj1])
      obtain ⟨p1, t1, h1, h2, h3⟩ := ih (j + 1)
        ((p.set j (p.get ⟨j + 1, hj1⟩)).set (j + 1) (p.get ⟨j, hj0⟩)) (p.get ⟨j, hj0⟩)
        (by omega) (by simp; omega)
      refine ⟨p1, t1, h1, h2.trans hp, ?_⟩
      rw [h3]
      obtain ⟨j', rfl⟩ : ∃ j', j = j' + 1 := ⟨j - 1, by omega⟩
      exact swap_head p j' _ _
    · obtain ⟨p1, t1, h1, h2, h3⟩ := ih (j + 1) p t (by omega) (by omega)
      exact ⟨p1, t1, h1, h2, h3⟩

/-- The sort loop of `move_me` permutes the slots from 1 on and keeps slot 0. -/
theorem sort_outer_spec :
    ∀ (n : Nat) (p : List Nat), n < p.length →
      ∃ p1, sort_outer n p = .ok p1 ∧ p1.Perm p ∧ p1.head? = p.head? := by
  intro n
  induction n using Nat.strong_induction_on with
  | _ n ih =>
    intro p hlen
    match n with
    | 0 => exact ⟨p, rfl, List.Perm.refl _, rfl⟩
    | 1 => exact ⟨p, rfl, List.Perm.refl _, rfl⟩
    | i + 2 =>
      unfold sort_outer
      obtain ⟨p1, t1, h1, h2, h3⟩ := sort_inner_spec i 1 p 0 (le_refl _) (by omega)
      rw [h1]
      simp only
      split
      · exact ⟨p1, rfl, h2, h3⟩
      · obtain ⟨p2, g1, g2, g3⟩ := ih (i + 1) (by omega) p1 (by rw [h2.length_eq]; omega)
        exact ⟨p2, g1, g2.trans h2, by rw [g3, h3]⟩

/-- On a record `a :: bs` the sort loop returns `a :: bs1` with `bs1` a
permutation of `bs`. -/
theorem sort_outer_cons (n : Nat) (a : Nat) (bs : List Nat) (h : n ≤ bs.length) :
    ∃ bs1, sort_outer n (a :: bs) = .ok (a :: bs1) ∧ bs1.Perm bs := by
  obtain ⟨p1, h1, h2, h3⟩ := sort_outer_spec n (a :: bs) (by simp; omega)
  cases p1 with
  | nil => simp at h3
  | cons a1 bs1 =>
    simp at h3
    subst h3
    exact ⟨bs1, h1, (List.perm_cons _).mp h2⟩

/-! ## Case analysis of `move_me` -/

theorem boxes_of_cons {b : Board} {s : state_t} {p0 : Nat} {bs : List Nat}
    (hc : s.c = p0 :: bs) (hn : bs.length = b.n_boxes) : boxes b s = bs := by
  unfold boxes
  rw [hc]
  simp [← hn]

theorem cell0_of_cons {s : state_t} {p0 : Nat} {bs : List Nat}
    (hc : s.c = p0 :: bs) : cell0 s = (p0 : Int) := by
  unfold cell0
  rw [hc]
  simp

/-- Every call of `move_me` on a record with `n_boxes + 1` slots, for `w ≠ 0`,
goes one of the ways of `MoveCase`. -/
theorem move_me_case (b : Board) (s : state_t) (dy dx : Int)
    (hw : b.w ≠ 0) (hlen : s.c.length = b.n_boxes + 1) :
    MoveCase b s dy dx (move_me b s dy dx) := by
  obtain ⟨p0, bs, hc, hn⟩ : ∃ p0 bs, s.c = p0 :: bs ∧ bs.length = b.n_boxes := by
    cases hcs : s.c with
    | nil => rw [hcs] at hlen; simp at hlen
    | cons p0 bs => rw [hcs] at hlen; exact ⟨p0, bs, rfl, by simpa using hlen⟩
  have hbx : boxes b s = bs := boxes_of_cons hc hn
  have hc0 : cell0 s = (p0 : Int) := cell0_of_cons hc
  have hrd0 : rd s.c 0 = .ok p0 := by
    rw [hc]; exact rd_nat_ok.mpr (by simp)
  have hy1 : Int.tdiv (p0 : Int) b.w + dy = row1 b s dy := by simp [row1, hc0]
  have hx1 : Int.tmod (p0 : Int) b.w + dx = col1 b s dx := by simp [col1, hc0]
  unfold move_me
  simp only [hw, if_false, hrd0, hy1, hx1]
  have hg : (row1 b s dy < 0 ∨ row1 b s dy > b.h ∨ col1 b s dx < 0 ∨ col1 b s dx > b.w)
      = off_grid b s dy dx := rfl
  have hcell1 : row1 b s dy * b.w + col1 b s dx = cell1 b s dy dx := rfl
  simp only [hg, hcell1]
  have hcell2 : cell1 b s dy dx + dy * b.w + dx = cell2 b s dy dx := rfl
  simp only [hcell2]
  by_cases hoff : off_grid b s dy dx
  · simp only [hoff, if_true]
    exact .off hoff
  simp only [hoff, if_false]
  cases h1 : rd b.board (cell1 b s dy dx) with
  | timeout => exact absurd h1 (rd_ne_timeout _ _)
  | fault => exact .c1_fault hoff h1
  | ok v =>
    simp only
    by_cases hv : v = wall
    · subst hv
      simp only [if_true]
      exact .c1_wall hoff h1
    simp only [hv, if_false]
    have hlt : ¬ (s.c.length < b.n_boxes + 1) := by omega
    have hbs : List.take b.n_boxes (List.drop 1 s.c) = bs := hbx
    simp only [hlt, if_false, hbs]
    obtain ⟨r, hr, hcase⟩ := find_box_cons p0 (cell1 b s dy dx) bs
    rw [← hc, hn] at hr
    simp only [hr]
    rcases hcase with ⟨h0, hall⟩ | ⟨j, x, hj, hjx, hxv, hfirst⟩
    · subst h0
      simp only [ne_eq, not_true_eq_false, if_false]
      obtain ⟨bs1, hs1, hp1⟩ := sort_outer_cons b.n_boxes (to_cidx (cell1 b s dy dx)) bs
        (by omega)
      simp only [hs1, newstate]
      exact .walk v bs1 hoff h1 hv (by rw [hbx]; exact hall) (by rw [hbx]; exact hp1)
    · subst hj
      have hne : j + 1 ≠ 0 := by omega
      simp only [ne_eq, hne, not_false_eq_true, if_true, List.set_cons_succ]
      have hbox : ∃ x ∈ boxes b s, (x : Int) = cell1 b s dy dx := by
        rw [hbx]
        exact ⟨x, List.mem_iff_getElem?.mpr ⟨_, hjx⟩, hxv⟩
      cases h2 : rd b.board (cell2 b s dy dx) with
      | timeout => exact absurd h2 (rd_ne_timeout _ _)
      | fault => exact .c2_fault v hoff h1 hv hbox (Or.inl h2)
      | ok v2 =>
        simp only
        by_cases hv2 : v2 = wall
        · subst hv2
          simp only [if_true]
          exact .blocked v hoff h1 hv hbox (Or.inl h2)
        simp only [hv2, if_false]
        cases h3 : rd b.live (cell2 b s dy dx) with
        | timeout => exact absurd h3 (rd_ne_timeout _ _)
        | fault => exact .c2_fault v hoff h1 hv hbox (Or.inr ⟨v2, h2, hv2, h3⟩)
        | ok l =>
          simp only
          by_cases hl : l = 0
          · subst hl
            simp only [if_true]
            exact .blocked v hoff h1 hv hbox (Or.inr ⟨v2, h2, hv2, Or.inl h3⟩)
          simp only [hl, if_false]
          obtain ⟨r2, hr2, hcase2⟩ := find_box_cons p0 (cell2 b s dy dx) bs
          rw [← hc, hn] at hr2
          simp only [hr2]
          rcases hcase2 with ⟨h0, hall2⟩ | ⟨j2, x2, hj2, hjx2, hxv2, _⟩
          · subst h0
            simp only [not_true_eq_false, if_false]
            obtain ⟨bs1, hs1, hp1⟩ := sort_outer_cons b.n_boxes (to_cidx (cell1 b s dy dx))
              (bs.set j (to_cidx (cell2 b s dy dx))) (by simp; omega)
            simp only [hs1, newstate]
            exact .push v v2 l j x bs1 hoff h1 hv (by rw [hbx]; exact hjx) hxv
              (by rw [hbx]; exact hfirst) h2 hv2 h3 hl (by rw [hbx]; exact hall2)
              (by rw [hbx]; exact hp1)
          · subst hj2
            have hne2 : j2 + 1 ≠ 0 := by omega
            simp only [hne2, not_false_eq_true, if_true]
            exact .blocked v hoff h1 hv hbox (Or.inr ⟨v2, h2, hv2, Or.inr ⟨l, h3, hl, by
              rw [hbx]
              exact ⟨x2, List.mem_iff_getElem?.mpr ⟨_, hjx2⟩, hxv2⟩⟩⟩)

/-! ## Cell arithmetic on an enclosed board -/

theorem set_perm_cons_erase (v : Nat) :
    ∀ (bs : List Nat) (j x : Nat), bs[j]? = some x →
      (∀ j2, j2 < j → ∀ x2, bs[j2]? = some x2 → x2 ≠ x) →
      (bs.set j v).Perm (v :: bs.erase x) := by
  intro bs
  induction bs with
  | nil => intro j x h; simp at h
  | cons a bs ih =>
    intro j x h hfirst
    cases j with
    | zero =>
      simp at h
      subst h
      simp
    | succ j =>
      simp at h
      have hax : a ≠ x := hfirst 0 (by omega) a (by simp)
      have h2 := ih j x h (fun j2 hj2 x2 hx2 => hfirst (j2 + 1) (by omega) x2 (by simpa using hx2))
      rw [List.set_cons_succ, List.erase_cons_tail (by simpa using hax)]
      exact (List.Perm.cons a h2).trans (List.Perm.swap _ _ _)

theorem to_cidx_of_lt {c : Int} (h0 : 0 ≤ c) (h1 : c < 65536) : to_cidx c = c.toNat := by
  unfold to_cidx
  rw [Int.emod_eq_of_lt h0 h1]

theorem tdiv_nat (c : Nat) {w : Int} (hw : 0 < w) : Int.tdiv (c : Int) w = (c : Int) / w :=
  Int.tdiv_eq_ediv (Int.natCast_nonneg c) (le_of_lt hw)

theorem tmod_nat (c : Nat) {w : Int} (hw : 0 < w) : Int.tmod (c : Int) w = (c : Int) % w :=
  Int.tmod_eq_emod (Int.natCast_nonneg c) (le_of_lt hw)

/-- A cell given by row `y` and column `x < w` has that row and column. -/
theorem div_mod_of_row_col {w y x : Int} (hx0 : 0 ≤ x) (hxw : x < w) :
    (y * w + x) / w = y ∧ (y * w + x) % w = x := by
  have hw : 0 < w := by omega
  constructor
  · rw [add_comm, Int.add_mul_ediv_right _ _ (ne_of_gt hw), Int.ediv_eq_zero_of_lt hx0 hxw]
    simp
  · rw [add_comm, Int.add_mul_emod_self, Int.emod_eq_of_lt hx0 hxw]

theorem cell_bound {w h y x : Int} (hy : y ≤ h - 1) (hx : x ≤ w - 1) (hw : 0 < w) :
    y * w + x < w * h := by
  have : y * w ≤ (h - 1) * w := mul_le_mul_of_nonneg_right hy (le_of_lt hw)
  have e : (h - 1) * w = w * h - w := by ring
  omega

theorem cell_nonneg {w y x : Int} (hy : 0 ≤ y) (hx : 0 ≤ x) (hw : 0 < w) :
    0 ≤ y * w + x := by
  have : 0 ≤ y * w := mul_nonneg hy (le_of_lt hw)
  omega

theorem dirs_cases {dy dx : Int} (h : (dy, dx) ∈ dirs) :
    (dy = 0 ∧ dx = 1) ∨ (dy = 0 ∧ dx = -1) ∨ (dy = -1 ∧ dx = 0) ∨ (dy = 1 ∧ dx = 0) := by
  simp [dirs] at h
  omega

theorem step_facts {b : Board} {R : Nat → Prop} (he : Enclosed b R) {s : state_t}
    (hp : R (s.c.headD 0)) {dy dx : Int} (hd : (dy, dx) ∈ dirs) :
    StepFacts b s dy dx := by
  obtain ⟨h1, h2, h3, h4⟩ := he.inner _ hp
  have hw : 0 < b.w := by omega
  have hdiv : Int.tdiv (cell0 s) b.w = cell0 s / b.w := tdiv_nat _ hw
  have hmod : Int.tmod (cell0 s) b.w = cell0 s % b.w := tmod_nat _ hw
  have hsum : cell0 s / b.w * b.w + cell0 s % b.w = cell0 s := Int.ediv_add_emod' _ _
  have hr : row1 b s dy = cell0 s / b.w + dy := by rw [row1, hdiv]
  have hc : col1 b s dx = cell0 s % b.w + dx := by rw [col1, hmod]
  have h1' : 0 < cell0 s / b.w := h1
  have h2' : cell0 s / b.w < b.h - 1 := h2
  have h3' : 0 < cell0 s % b.w := h3
  have h4' : cell0 s % b.w < b.w - 1 := h4
  have hrl : 0 ≤ row1 b s dy := by rcases dirs_cases hd with h | h | h | h <;> omega
  have hrh : row1 b s dy < b.h := by rcases dirs_cases hd with h | h | h | h <;> omega
  have hcl : 0 ≤ col1 b s dx := by rcases dirs_cases hd with h | h | h | h <;> omega
  have hch : col1 b s dx < b.w := by rcases dirs_cases hd with h | h | h | h <;> omega
  have hc1 : cell1 b s dy dx = cell0 s + (dy * b.w + dx) := by
    rw [cell1, hr, hc]
    have : (cell0 s / b.w + dy) * b.w = cell0 s / b.w * b.w + dy * b.w := by ring
    omega
  refine ⟨?_, hrl, hrh, hcl, hch, hc1, ?_, ?_, ?_⟩
  · unfold off_grid
    omega
  · exact cell_nonneg hrl hcl hw
  · exact cell_bound (by omega) (by omega) hw
  · rcases dirs_cases hd with ⟨h, h'⟩ | ⟨h, h'⟩ | ⟨h, h'⟩ | ⟨h, h'⟩ <;> subst h <;> subst h' <;> simp

theorem enclosed_lt {b : Board} {R : Nat → Prop} (he : Enclosed b R) {c : Nat} (hc : R c) :
    (c : Int) < b.w * b.h := by
  obtain ⟨h1, h2, h3, h4⟩ := he.inner _ hc
  have hw : 0 < b.w := by omega
  have hsum : (c : Int) / b.w * b.w + (c : Int) % b.w = c := Int.ediv_add_emod' _ _
  have := cell_bound (w := b.w) (h := b.h) (y := (c : Int) / b.w) (x := (c : Int) % b.w)
    (by omega) (by omega) hw
  omega

/-- The destination of a move from a cell of `R`, when not a wall, is a cell of `R`. -/
theorem enclosed_cell1 {b : Board} {R : Nat → Prop} (he : Enclosed b R) {s : state_t}
    (hp : R (s.c.headD 0)) {dy dx : Int} (hd : (dy, dx) ∈ dirs) {v : Nat}
    (h1 : rd b.board (cell1 b s dy dx) = .ok v) (hv : v ≠ wall) :
    R (cell1 b s dy dx).toNat := by
  have sf := step_facts he hp hd
  have := he.closed _ hp (dy * b.w + dx) sf.offset v (by
    have e : ((s.c.headD 0 : Nat) : Int) + (dy * b.w + dx) = cell1 b s dy dx := by
      rw [sf.c1_eq]; rfl
    rw [e]; exact h1) hv
  have e : ((s.c.headD 0 : Nat) : Int) + (dy * b.w + dx) = cell1 b s dy dx := by
    rw [sf.c1_eq]; rfl
  rw [e] at this
  exact this

/-- The cell behind the destination, when not a wall, is a cell of `R`. -/
theorem enclosed_cell2 {b : Board} {R : Nat → Prop} (he : Enclosed b R) {s : state_t}
    (hp : R (s.c.headD 0)) {dy dx : Int} (hd : (dy, dx) ∈ dirs) {v v2 : Nat}
    (h1 : rd b.board (cell1 b s dy dx) = .ok v) (hv : v ≠ wall)
    (h2 : rd b.board (cell2 b s dy dx) = .ok v2) (hv2 : v2 ≠ wall) :
    R (cell2 b s dy dx).toNat := by
  have sf := step_facts he hp hd
  have hR1 := enclosed_cell1 he hp hd h1 hv
  have e : (((cell1 b s dy dx).toNat : Nat) : Int) + (dy * b.w + dx) = cell2 b s dy dx := by
    rw [Int.toNat_of_nonneg sf.c1_lo]
    unfold cell2
    ring
  have := he.closed _ hR1 (dy * b.w + dx) sf.offset v2 (by rw [e]; exact h2) hv2
  rw [e] at this
  exact this

/-! ## Successors of valid states -/

theorem boxes_length {b : Board} {s : state_t} (h : s.c.length = b.n_boxes + 1) :
    (boxes b s).length = b.n_boxes := by
  unfold boxes
  simp
  omega

theorem boxes_mk {b : Board} (hh : Nat) (p : Option state_t) (a : Nat) (bs : List Nat)
    (h : bs.length = b.n_boxes) : boxes b (.mk hh p (a :: bs)) = bs := by
  unfold boxes state_t.c
  simp [← h]

/-- Shape of a successor returned by `move_me` on a valid state of an
enclosed board: the player steps to `c1`; either no box was there and the
boxes are kept, or the box at `c1` went to the free live cell `c2`. -/
theorem move_me_succ {b : Board} {R : Nat → Prop} {s n : state_t} {dy dx : Int}
    (he : Enclosed b R) (hcap : b.w * b.h ≤ 65536) (hs : ValidState b R s)
    (hd : (dy, dx) ∈ dirs) (hm : move_me b s dy dx = .ok (some n)) :
    ∃ bs1, n = .mk 0 (some s) ((cell1 b s dy dx).toNat :: bs1) ∧
      R (cell1 b s dy dx).toNat ∧
      (((cell1 b s dy dx).toNat ∉ boxes b s ∧ bs1.Perm (boxes b s)) ∨
       ((cell1 b s dy dx).toNat ∈ boxes b s ∧ R (cell2 b s dy dx).toNat ∧
        (cell2 b s dy dx).toNat ∉ boxes b s ∧
        (∃ l, rd b.live (cell2 b s dy dx) = .ok l ∧ l ≠ 0) ∧
        bs1.Perm ((cell2 b s dy dx).toNat :: (boxes b s).erase (cell1 b s dy dx).toNat))) := by
  have sf := step_facts he hs.player hd
  have hw : b.w ≠ 0 := by
    have := he.inner _ hs.player
    omega
  have hcase := move_me_case b s dy dx hw hs.len
  rw [hm] at hcase
  have hc1 : ∀ {v : Nat}, rd b.board (cell1 b s dy dx) = .ok v → v ≠ wall →
      to_cidx (cell1 b s dy dx) = (cell1 b s dy dx).toNat := by
    intro v _ _
    exact to_cidx_of_lt sf.c1_lo (by have := sf.c1_hi; omega)
  cases hcase with
  | walk v bs1 h h1 hv hfree hperm =>
    refine ⟨bs1, ?_, enclosed_cell1 he hs.player hd h1 hv, Or.inl ⟨?_, hperm⟩⟩
    · rw [hc1 h1 hv]
    · intro hmem
      exact hfree _ hmem (Int.toNat_of_nonneg sf.c1_lo)
  | push v v2 l j x bs1 h h1 hv hj hx hfirst h2 hv2 h3 hl hfree hperm =>
    have hR2 := enclosed_cell2 he hs.player hd h1 hv h2 hv2
    have h2lo : 0 ≤ cell2 b s dy dx := (rd_lt h2).1
    have h2hi : cell2 b s dy dx < 65536 := by
      have := enclosed_lt he hR2
      rw [Int.toNat_of_nonneg h2lo] at this
      omega
    have hx' : x = (cell1 b s dy dx).toNat := by omega
    refine ⟨bs1, ?_, enclosed_cell1 he hs.player hd h1 hv, Or.inr ⟨?_, hR2, ?_, ⟨l, h3, hl⟩, ?_⟩⟩
    · rw [hc1 h1 hv]
    · rw [← hx']
      exact List.mem_iff_getElem?.mpr ⟨_, hj⟩
    · intro hmem
      exact hfree _ hmem (Int.toNat_of_nonneg h2lo)
    · rw [to_cidx_of_lt h2lo h2hi] at hperm
      refine hperm.trans ?_
      rw [← hx']
      apply set_perm_cons_erase _ _ _ _ hj
      intro j2 hj2 x2 hx2 heq
      exact hfirst j2 hj2 x2 hx2 (by rw [heq]; exact hx)

/-- Successors of valid states are valid. -/
theorem move_me_valid {b : Board} {R : Nat → Prop} {s n : state_t} {dy dx : Int}
    (he : Enclosed b R) (hcap : b.w * b.h ≤ 65536) (hs : ValidState b R s)
    (hd : (dy, dx) ∈ dirs) (hm : move_me b s dy dx = .ok (some n)) :
    ValidState b R n := by
  obtain ⟨bs1, hn, hR1, hcase⟩ := move_me_succ he hcap hs hd hm
  have hbl := boxes_length hs.len
  rcases hcase with ⟨hfree, hperm⟩ | ⟨hmem, hR2, hfree2, _, hperm⟩
  · have hl1 : bs1.length = b.n_boxes := by rw [hperm.length_eq, hbl]
    have hb : boxes b n = bs1 := by rw [hn]; exact boxes_mk _ _ _ _ hl1
    refine ⟨by rw [hn]; simp [state_t.c, hl1], by rw [hn]; simpa [state_t.c] using hR1, ?_, ?_, ?_⟩
    · intro x hx
      rw [hb] at hx
      exact hs.box x (hperm.mem_iff.mp hx)
    · rw [hb]
      exact hperm.nodup_iff.mpr hs.nodup
    · rw [hb, hn]
      simp only [state_t.c, List.headD_cons]
      intro hx
      exact hfree (hperm.mem_iff.mp hx)
  · have hl1 : bs1.length = b.n_boxes := by
      rw [hperm.length_eq, List.length_cons, List.length_erase_of_mem hmem, hbl]
      have : 0 < (boxes b s).length := List.length_pos_of_mem hmem
      omega
    have hb : boxes b n = bs1 := by rw [hn]; exact boxes_mk _ _ _ _ hl1
    refine ⟨by rw [hn]; simp [state_t.c, hl1], by rw [hn]; simpa [state_t.c] using hR1, ?_, ?_, ?_⟩
    · intro x hx
      rw [hb] at hx
      have := hperm.mem_iff.mp hx
      rcases List.mem_cons.mp this with rfl | h
      · exact hR2
      · exact hs.box x (List.mem_of_mem_erase h)
    · rw [hb]
      refine hperm.nodup_iff.mpr (List.nodup_cons.mpr ⟨?_, hs.nodup.erase _⟩)
      intro h
      exact hfree2 (List.mem_of_mem_erase h)
    · rw [hb, hn]
      simp only [state_t.c, List.headD_cons]
      intro hx
      have := hperm.mem_iff.mp hx
      rcases List.mem_cons.mp this with h | h
      · rw [h] at hmem
        exact hfree2 hmem
      · exact (hs.nodup.not_mem_erase) h

/-! ## Moves on a sized board with the destination inside the grid -/

/-- The destination lies inside the grid. -/
theorem cell1_in_grid {b : Board} {s : state_t} {dy dx : Int} (hw : 0 < b.w)
    (hin : 0 ≤ row1 b s dy ∧ row1 b s dy < b.h ∧ 0 ≤ col1 b s dx ∧ col1 b s dx < b.w) :
    ¬ off_grid b s dy dx ∧ 0 ≤ cell1 b s dy dx ∧ cell1 b s dy dx < b.w * b.h := by
  obtain ⟨h1, h2, h3, h4⟩ := hin
  refine ⟨?_, cell_nonneg h1 h3 hw, cell_bound (by omega) (by omega) hw⟩
  unfold off_grid
  omega

/-- Walk: no box on the destination. -/
theorem move_me_walk {b : Board} {s : state_t} {dy dx : Int}
    (hw : 0 < b.w) (hcap : b.w * b.h ≤ 65536) (hlen : s.c.length = b.n_boxes + 1)
    (hin : 0 ≤ row1 b s dy ∧ row1 b s dy < b.h ∧ 0 ≤ col1 b s dx ∧ col1 b s dx < b.w)
    (hfl : ∃ v, rd b.board (cell1 b s dy dx) = .ok v ∧ v ≠ wall)
    (hfree : ∀ x ∈ boxes b s, (x : Int) ≠ cell1 b s dy dx) :
    ∃ bs1, move_me b s dy dx = .ok (some (.mk 0 (some s) ((cell1 b s dy dx).toNat :: bs1))) ∧
      bs1.Perm (boxes b s) := by
  obtain ⟨hon, hlo, hhi⟩ := cell1_in_grid hw hin
  obtain ⟨v, h1, hv⟩ := hfl
  have hcase := move_me_case b s dy dx (ne_of_gt hw) hlen
  generalize move_me b s dy dx = r at hcase
  have hcx : to_cidx (cell1 b s dy dx) = (cell1 b s dy dx).toNat :=
    to_cidx_of_lt hlo (by omega)
  cases hcase with
  | off h => exact absurd h hon
  | c1_fault h h1' => rw [h1] at h1'; cases h1'
  | c1_wall h h1' => rw [h1] at h1'; cases h1'; exact absurd rfl hv
  | walk v' bs1 h h1' hv' hfree' hperm => exact ⟨bs1, by rw [hcx], hperm⟩
  | c2_fault v' h h1' hv' hbox h2' =>
    obtain ⟨x, hx, hx1⟩ := hbox
    exact absurd hx1 (hfree x hx)
  | blocked v' h h1' hv' hbox h2' =>
    obtain ⟨x, hx, hx1⟩ := hbox
    exact absurd hx1 (hfree x hx)
  | push v' v2 l j x bs1 h h1' hv' hj hx hfirst h2' hv2 h3' hl hfree' hperm =>
    exact absurd hx (hfree x (List.mem_iff_getElem?.mpr ⟨_, hj⟩))

/-- Reads inside a sized array succeed. -/
theorem rd_sized {a : List Nat} {n c : Int} (hlen : (a.length : Int) = n)
    (h0 : 0 ≤ c) (h1 : c < n) : ∃ v, rd a c = .ok v := by
  have hlt : c.toNat < a.length := by omega
  refine ⟨a.get ⟨c.toNat, hlt⟩, ?_⟩
  rw [rd_eq_ok]
  exact ⟨h0, by simp [List.getElem?_eq_getElem hlt]⟩

/-- Push: a box on the destination and the cell behind it inside the grid. -/
theorem move_me_push {b : Board} {s : state_t} {dy dx : Int}
    (hw : 0 < b.w) (hcap : b.w * b.h ≤ 65536) (hlen : s.c.length = b.n_boxes + 1)
    (hin : 0 ≤ row1 b s dy ∧ row1 b s dy < b.h ∧ 0 ≤ col1 b s dx ∧ col1 b s dx < b.w)
    (hfl : ∃ v, rd b.board (cell1 b s dy dx) = .ok v ∧ v ≠ wall)
    (hbox : ∃ x ∈ boxes b s, (x : Int) = cell1 b s dy dx)
    (h2in : 0 ≤ cell2 b s dy dx ∧ cell2 b s dy dx < b.w * b.h)
    (h2b : ∃ w2, rd b.board (cell2 b s dy dx) = .ok w2)
    (h2l : ∃ l2, rd b.live (cell2 b s dy dx) = .ok l2) :
    ((rd b.board (cell2 b s dy dx) = .ok wall ∨ rd b.live (cell2 b s dy dx) = .ok 0 ∨
        ∃ x ∈ boxes b s, (x : Int) = cell2 b s dy dx) ∧ move_me b s dy dx = .ok none) ∨
    (¬ (rd b.board (cell2 b s dy dx) = .ok wall ∨ rd b.live (cell2 b s dy dx) = .ok 0 ∨
        ∃ x ∈ boxes b s, (x : Int) = cell2 b s dy dx) ∧
      ∃ bs1, move_me b s dy dx = .ok (some (.mk 0 (some s) ((cell1 b s dy dx).toNat :: bs1))) ∧
        bs1.Perm ((cell2 b s dy dx).toNat :: (boxes b s).erase (cell1 b s dy dx).toNat)) := by
  obtain ⟨hon, hlo, hhi⟩ := cell1_in_grid hw hin
  obtain ⟨v, h1, hv⟩ := hfl
  obtain ⟨w2, hb2⟩ := h2b
  obtain ⟨l2, hl2⟩ := h2l
  have hcase := move_me_case b s dy dx (ne_of_gt hw) hlen
  generalize move_me b s dy dx = r at hcase
  have hcx : to_cidx (cell1 b s dy dx) = (cell1 b s dy dx).toNat :=
    to_cidx_of_lt hlo (by omega)
  have hcx2 : to_cidx (cell2 b s dy dx) = (cell2 b s dy dx).toNat :=
    to_cidx_of_lt h2in.1 (by omega)
  cases hcase with
  | off h => exact absurd h hon
  | c1_fault h h1' => rw [h1] at h1'; cases h1'
  | c1_wall h h1' => rw [h1] at h1'; cases h1'; exact absurd rfl hv
  | walk v' bs1 h h1' hv' hfree' hperm =>
    obtain ⟨x, hx, hx1⟩ := hbox
    exact absurd hx1 (hfree' x hx)
  | c2_fault v' h h1' hv' hbox' h2' =>
    rcases h2' with h2' | ⟨v2, _, _, h3'⟩
    · rw [hb2] at h2'; cases h2'
    · rw [hl2] at h3'; cases h3'
  | blocked v' h h1' hv' hbox' h2' =>
    left
    refine ⟨?_, rfl⟩
    rcases h2' with h2' | ⟨v2, _, _, h3' | ⟨l, _, _, hx⟩⟩
    · exact Or.inl h2'
    · exact Or.inr (Or.inl h3')
    · exact Or.inr (Or.inr hx)
  | push v' v2 l j x bs1 h h1' hv' hj hx hfirst h2' hv2 h3' hl hfree' hperm =>
    right
    refine ⟨?_, bs1, by rw [hcx], ?_⟩
    · rintro (hw | hd | ⟨y, hy, hy2⟩)
      · rw [h2'] at hw; cases hw; exact hv2 rfl
      · rw [h3'] at hd; cases hd; exact hl rfl
      · exact hfree' y hy hy2
    · rw [hcx2] at hperm
      refine hperm.trans ?_
      have hx' : x = (cell1 b s dy dx).toNat := by omega
      rw [← hx']
      apply set_perm_cons_erase _ _ _ _ hj
      intro j2 hj2 x2 hx2 heq
      exact hfirst j2 hj2 x2 hx2 (by rw [heq]; exact hx)

/-! ## Live boxes -/

/-- A successor keeps every box on a live cell when the cells fit `cidx_t`. -/
theorem move_me_boxes_live {b : Board} {s n : state_t} {dy dx : Int}
    (hcap : b.live.length ≤ 65536) (hlen : s.c.length = b.n_boxes + 1)
    (hlive : BoxesLive b s) (hm : move_me b s dy dx = .ok (some n)) : BoxesLive b n := by
  have hw : b.w ≠ 0 := by
    intro h
    unfold move_me at hm
    simp [h] at hm
  have hcase := move_me_case b s dy dx hw hlen
  rw [hm] at hcase
  have hbl := boxes_length hlen
  cases hcase with
  | walk v bs1 h h1 hv hfree hperm =>
    intro x hx
    rw [boxes_mk _ _ _ _ (by rw [hperm.length_eq, hbl])] at hx
    exact hlive x (hperm.mem_iff.mp hx)
  | push v v2 l j x bs1 h h1 hv hj hx hfirst h2 hv2 h3 hl hfree hperm =>
    intro y hy
    rw [boxes_mk _ _ _ _ (by rw [hperm.length_eq, List.length_set, hbl])] at hy
    have hy2 := hperm.mem_iff.mp hy
    rcases List.mem_or_eq_of_mem_set hy2 with hmem | heq
    · exact hlive y hmem
    · have hb := rd_lt h3
      have e : to_cidx (cell2 b s dy dx) = (cell2 b s dy dx).toNat :=
        to_cidx_of_lt hb.1 (by omega)
      rw [heq, e, Int.toNat_of_nonneg hb.1]
      exact ⟨l, h3, hl⟩

/-! ## Facts about the example boards -/

/-- A list of cells is an enclosed region when each cell passes the three
checks of `Enclosed`. -/
theorem enclosed_of_list (b : Board) (cells : List Nat)
    (hin : ∀ c ∈ cells, 0 < (c : Int) / b.w ∧ (c : Int) / b.w < b.h - 1 ∧
      0 < (c : Int) % b.w ∧ (c : Int) % b.w < b.w - 1)
    (hfl : ∀ c ∈ cells, ∃ v, rd b.board (c : Int) = .ok v ∧ v ≠ wall)
    (hcl : ∀ c ∈ cells, ∀ d ∈ [1, -1, b.w, -b.w],
      rd b.board ((c : Int) + d) = .ok wall ∨ ((c : Int) + d).toNat ∈ cells) :
    Enclosed b (fun c => c ∈ cells) := by
  refine ⟨hin, hfl, ?_⟩
  intro c hc d hd v hv hw
  rcases hcl c hc d (by simp; tauto) with h | h
  · rw [h] at hv
    cases hv
    exact absurd rfl hw
  · exact h

theorem room_enclosed : Enclosed room_board (fun c => c ∈ room_cells) := by
  apply enclosed_of_list
  · decide
  · intro c hc
    have : ∀ c ∈ room_cells, rd room_board.board (c : Int) = .ok 0 := by decide
    exact ⟨0, this c hc, by decide⟩
  · decide

theorem room_valid : ValidState room_board (fun c => c ∈ room_cells) room_state :=
  ⟨by decide, by decide, by decide, by decide, by decide⟩

theorem room_parse : parse_board 6 5 room_text = .ok (room_board, room_state) := by
  rfl

theorem wide_cell1 : cell1 wide_board wide_state 0 1 = 65535 := by
  decide

theorem wide_cell2 : cell2 wide_board wide_state 0 1 = 65536 := by
  decide

theorem wide_rd_board (i : Nat) (h : i < 65538) : rd wide_board.board (i : Int) = .ok 0 := by
  rw [rd_nat_ok]
  have e : wide_board.board = List.replicate 65538 0 := rfl
  rw [e, List.getElem?_replicate]
  simp [h]

theorem wide_rd_live_succ (i : Nat) (h : i < 65536) :
    rd wide_board.live ((i + 1 : Nat) : Int) = .ok 1 := by
  rw [rd_nat_ok]
  have e : wide_board.live = 0 :: (List.replicate 65536 1 ++ [0]) := rfl
  rw [e, List.getElem?_cons_succ,
    List.getElem?_append_left (by rw [List.length_replicate]; exact h),
    List.getElem?_replicate]
  simp [h]

theorem wide_rd_live_zero : rd wide_board.live ((0 : Nat) : Int) = .ok 0 := by
  rw [rd_nat_ok]
  have e : wide_board.live = 0 :: (List.replicate 65536 1 ++ [0]) := rfl
  rw [e, List.getElem?_cons_zero]

/-- On the wide row the push to cell 65536 stores the box at cell 0. -/
theorem wide_push : ∃ n, move_me wide_board wide_state 0 1 = .ok (some n) ∧
    boxes wide_board n = [0] := by
  have hcase := move_me_case wide_board wide_state 0 1 (by decide) (by decide)
  have hb : boxes wide_board wide_state = [65535] := by decide
  have h1 : rd wide_board.board (cell1 wide_board wide_state 0 1) = .ok 0 := by
    rw [wide_cell1]; exact wide_rd_board 65535 (by omega)
  have h2 : rd wide_board.board (cell2 wide_board wide_state 0 1) = .ok 0 := by
    rw [wide_cell2]; exact wide_rd_board 65536 (by omega)
  have h3 : rd wide_board.live (cell2 wide_board wide_state 0 1) = .ok 1 := by
    rw [wide_cell2]; exact wide_rd_live_succ 65535 (by omega)
  have hoff : ¬ off_grid wide_board wide_state 0 1 := by decide
  generalize move_me wide_board wide_state 0 1 = r at hcase
  cases hcase with
  | off h => exact absurd h hoff
  | c1_fault h h1' => rw [h1] at h1'; cases h1'
  | c1_wall h h1' => rw [h1] at h1'; cases h1'
  | walk v bs1 h h1' hv hfree hperm =>
    rw [hb] at hfree
    exact absurd (by rw [wide_cell1]; rfl) (hfree 65535 (by simp))
  | c2_fault v h h1' hv hbox h2' =>
    rcases h2' with h2' | ⟨v2, _, _, h3'⟩
    · rw [h2] at h2'; cases h2'
    · rw [h3] at h3'; cases h3'
  | blocked v h h1' hv hbox h2' =>
    rcases h2' with h2' | ⟨v2, _, _, h3' | ⟨l, _, _, x, hx, hx2⟩⟩
    · rw [h2] at h2'; cases h2'
    · rw [h3] at h3'; cases h3'
    · rw [hb] at hx
      simp at hx
      subst hx
      rw [wide_cell2] at hx2
      omega
  | push v v2 l j x bs1 h h1' hv hj hx hfirst h2' hv2 h3' hl hfree hperm =>
    refine ⟨_, rfl, ?_⟩
    rw [hb] at hj hperm
    have hj0 : j = 0 := by
      cases j with
      | zero => rfl
      | succ j => simp at hj
    subst hj0
    rw [wide_cell2] at hperm
    have e : to_cidx 65536 = 0 := by decide
    rw [e] at hperm
    simp at hperm
    subst hperm
    rfl

/-- On the wide row the step to cell 65536 stores the player at cell 0. -/
theorem wide_walk : ∃ n, move_me wide_board wide_walker 0 1 = .ok (some n) ∧
    cell0 n = 0 := by
  have hcase := move_me_case wide_board wide_walker 0 1 (by decide) (by decide)
  have hb : boxes wide_board wide_walker = [3] := by decide
  have hc1 : cell1 wide_board wide_walker 0 1 = 65536 := by decide
  have h1 : rd wide_board.board (cell1 wide_board wide_walker 0 1) = .ok 0 := by
    rw [hc1]; exact wide_rd_board 65536 (by omega)
  have hoff : ¬ off_grid wide_board wide_walker 0 1 := by decide
  generalize move_me wide_board wide_walker 0 1 = r at hcase
  cases hcase with
  | off h => exact absurd h hoff
  | c1_fault h h1' => rw [h1] at h1'; cases h1'
  | c1_wall h h1' => rw [h1] at h1'; cases h1'
  | walk v bs1 h h1' hv hfree hperm =>
    refine ⟨_, rfl, ?_⟩
    rw [hc1]
    have e : to_cidx 65536 = 0 := by decide
    rw [e]
    rfl
  | c2_fault v h h1' hv hbox h2' =>
    obtain ⟨x, hx, hx1⟩ := hbox
    rw [hb] at hx
    simp at hx
    subst hx
    rw [hc1] at hx1
    omega
  | blocked v h h1' hv hbox h2' =>
    obtain ⟨x, hx, hx1⟩ := hbox
    rw [hb] at hx
    simp at hx
    subst hx
    rw [hc1] at hx1
    omega
  | push v v2 l j x bs1 h h1' hv hj hx hfirst h2' hv2 h3' hl hfree hperm =>
    rw [hb] at hj
    have := List.mem_iff_getElem?.mpr ⟨_, hj⟩
    simp at this
    subst this
    rw [hc1] at hx
    omega

/-! ## The transposition table -/

theorem state_eta (s : state_t) : state_t.mk s.h s.prev s.c = s := by
  cases s
  rfl

theorem mask_lt {n : Nat} (h : 0 < n) : mask n < n := by
  unfold mask
  omega

theorem and_mask_lt {n : Nat} (h : 0 < n) (x : Nat) : x &&& mask n < n :=
  lt_of_le_of_lt Nat.and_le_right (mask_lt h)

theorem hash_loop_total (c : List Nat) :
    ∀ (k i ha : Nat), i + k ≤ c.length → ∃ v, hash_loop c k i ha = .ok v := by
  intro k
  induction k with
  | zero => intro i ha _; exact ⟨ha, rfl⟩
  | succ k ih =>
    intro i ha h
    unfold hash_loop
    rw [rd_of_lt c i (by omega)]
    exact ih (i + 1) _ (by omega)

/-- The call `hash(s)` leaves the hash of the slots in the field `h`. -/
theorem hash_spec {b : Board} {s : state_t} (hs : Hashable b s) :
    ∃ v, hash_loop s.c (b.n_boxes + 1) 0 0 = .ok v ∧ hash b s = .ok (.mk v s.prev s.c) := by
  obtain ⟨hlen, hh⟩ := hs
  obtain ⟨v, hv⟩ := hash_loop_total s.c (b.n_boxes + 1) 0 0 (by omega)
  refine ⟨v, hv, ?_⟩
  unfold hash
  by_cases h0 : s.h = 0
  · simp only [h0, if_true, hv]
  · simp only [h0, if_false]
    rcases hh with hh | hh
    · exact absurd hh h0
    · rw [hv] at hh
      cases hh
      rw [state_eta]

theorem inBucket_flatten {bk : List (List state_t)} {f : state_t} :
    f ∈ bk.flatten ↔ ∃ i, InBucket bk i f := by
  rw [List.mem_flatten]
  constructor
  · rintro ⟨chain, hc, hf⟩
    obtain ⟨i, hi⟩ := List.mem_iff_getElem?.mp hc
    exact ⟨i, chain, hi, hf⟩
  · rintro ⟨i, chain, hi, hf⟩
    exact ⟨chain, List.mem_iff_getElem?.mpr ⟨i, hi⟩, hf⟩

theorem inBucket_set {bk : List (List state_t)} {j : Nat} (hj : j < bk.length)
    (chain : List state_t) (i : Nat) (f : state_t) :
    InBucket (bk.set j chain) i f ↔ (i = j ∧ f ∈ chain) ∨ (i ≠ j ∧ InBucket bk i f) := by
  unfold InBucket
  by_cases hij : i = j
  · subst hij
    simp [List.getElem?_set_self hj]
  · have hne : j ≠ i := fun h => hij h.symm
    simp [List.getElem?_set_ne hne, hij]

/-- The chain walk of `lookup` finds a record with the slots of `s` exactly
when the chain has one. -/
theorem lookup_chain_spec {n : Nat} {s : state_t} (hs : s.c.length = n + 1) :
    ∀ chain : List state_t, (∀ f ∈ chain, f.c.length = n + 1) →
      (lookup_chain n s chain = .ok none ∧ ∀ f ∈ chain, f.c ≠ s.c) ∨
      (∃ f, lookup_chain n s chain = .ok (some f) ∧ f ∈ chain ∧ f.c = s.c) := by
  intro chain
  induction chain with
  | nil => intro _; left; exact ⟨rfl, by simp⟩
  | cons f next ih =>
    intro hall
    have hf : f.c.length = n + 1 := hall f (by simp)
    have hsame : same_cells n s f = .ok (decide (s.c = f.c)) := by
      unfold same_cells
      have h1 : ¬ (s.c.length < n + 1 ∨ f.c.length < n + 1) := by omega
      simp only [h1, if_false]
      rw [List.take_of_length_le (by omega), List.take_of_length_le (by omega)]
    unfold lookup_chain
    rw [hsame]
    by_cases heq : s.c = f.c
    · right
      simp only [heq, decide_True]
      exact ⟨f, rfl, by simp, rfl⟩
    · simp only [heq, decide_False]
      rcases ih (fun g hg => hall g (by simp [hg])) with ⟨h1, h2⟩ | ⟨g, h1, h2, h3⟩
      · left
        refine ⟨h1, ?_⟩
        intro g hg
        rcases List.mem_cons.mp hg with rfl | hg
        · exact fun h => heq h.symm
        · exact h2 g hg
      · right
        exact ⟨g, h1, by simp [h2], h3⟩

/-- The call `lookup(s)`: the record with its hash, and none found exactly
when the slots of `s` are not stored. -/
theorem lookup_spec {b : Board} {t : Table} {s : state_t}
    (hinv : TableInv b t) (hs : Hashable b s) :
    ∃ v, hash_loop s.c (b.n_boxes + 1) 0 0 = .ok v ∧
      ((lookup b t s = .ok (.mk v s.prev s.c, none) ∧ s.c ∉ t.keys) ∨
       (∃ f, lookup b t s = .ok (.mk v s.prev s.c, some f) ∧ s.c ∈ t.keys)) := by
  obtain ⟨v, hv, hh⟩ := hash_spec hs
  refine ⟨v, hv, ?_⟩
  have hidx : v &&& mask t.hash_size < t.buckets.length := by
    rw [hinv.len]; exact and_mask_lt hinv.size_pos v
  unfold lookup
  rw [hh]
  simp only [state_t.h]
  rw [rd_of_lt _ _ hidx]
  simp only
  have hchain : ∀ f ∈ t.buckets.get ⟨v &&& mask t.hash_size, hidx⟩, f.c.length = b.n_boxes + 1 := by
    intro f hf
    exact (hinv.placed _ f ⟨_, List.getElem?_eq_getElem hidx, hf⟩).1
  have hs1 : (state_t.mk v s.prev s.c).c.length = b.n_boxes + 1 := hs.1
  rcases lookup_chain_spec hs1 _ hchain with ⟨h1, h2⟩ | ⟨f, h1, h2, h3⟩
  · left
    rw [h1]
    refine ⟨rfl, ?_⟩
    intro hmem
    unfold Table.keys Table.states at hmem
    obtain ⟨f, hf, hfc⟩ := List.mem_map.mp hmem
    obtain ⟨i, hi⟩ := inBucket_flatten.mp hf
    obtain ⟨_, hfh, hfi⟩ := hinv.placed i f hi
    rw [hfc, hv] at hfh
    cases hfh
    obtain ⟨chain, hc1, hc2⟩ := hi
    rw [← hfi, List.getElem?_eq_getElem hidx] at hc1
    cases hc1
    exact h2 f hc2 hfc
  · right
    rw [h1]
    refine ⟨f, rfl, ?_⟩
    unfold Table.keys Table.states
    exact List.mem_map.mpr ⟨f, inBucket_flatten.mpr ⟨_, _, List.getElem?_eq_getElem hidx, h2⟩, h3⟩

/-- The inner loop of the rehash pushes every record of the chain on the
bucket of its hash. -/
theorem rehash_chain_spec {bits N : Nat} (hb : bits < N) :
    ∀ (chain : List state_t) (bk : List (List state_t)), bk.length = N →
      ∃ bk1, rehash_chain bits chain bk = .ok bk1 ∧ bk1.length = N ∧
        ∀ i f, InBucket bk1 i f ↔ InBucket bk i f ∨ (f ∈ chain ∧ f.h &&& bits = i) := by
  intro chain
  induction chain with
  | nil =>
    intro bk hlen
    exact ⟨bk, rfl, hlen, by simp⟩
  | cons head next ih =>
    intro bk hlen
    have hj : head.h &&& bits < bk.length := by
      rw [hlen]; exact lt_of_le_of_lt Nat.and_le_right hb
    unfold rehash_chain
    simp only
    rw [rd_of_lt _ _ hj]
    simp only
    obtain ⟨bk1, h1, h2, h3⟩ := ih (bk.set (head.h &&& bits)
      (head :: bk.get ⟨head.h &&& bits, hj⟩)) (by simp [hlen])
    refine ⟨bk1, h1, h2, ?_⟩
    intro i f
    rw [h3, inBucket_set hj]
    constructor
    · rintro ((⟨hi, hf⟩ | ⟨_, hf⟩) | ⟨hf, hfi⟩)
      · rcases List.mem_cons.mp hf with rfl | hf
        · right; exact ⟨by simp, hi.symm⟩
        · left; exact ⟨_, by rw [hi]; exact List.getElem?_eq_getElem hj, hf⟩
      · left; exact hf
      · right; exact ⟨by simp [hf], hfi⟩
    · rintro (hf | ⟨hf, hfi⟩)
      · by_cases hi : i = head.h &&& bits
        · left
          refine Or.inl ⟨hi, ?_⟩
          obtain ⟨chain, hc1, hc2⟩ := hf
          rw [hi, List.getElem?_eq_getElem hj] at hc1
          cases hc1
          simp [hc2]
        · left; exact Or.inr ⟨hi, hf⟩
      · rcases List.mem_cons.mp hf with rfl | hf
        · left; exact Or.inl ⟨hfi.symm, by simp⟩
        · right; exact ⟨hf, hfi⟩

/-- The outer loop of the rehash keeps the stored records and leaves every
record of a visited bucket in the bucket of its hash. -/
theorem rehash_loop_spec {bits N : Nat} (hb : bits < N) :
    ∀ (k i : Nat) (bk : List (List state_t)), bk.length = N → i + k ≤ N →
      ∃ bk1, rehash_loop bits k i bk = .ok bk1 ∧ bk1.length = N ∧
        (∀ f, (∃ idx, InBucket bk1 idx f) ↔ (∃ idx, InBucket bk idx f)) ∧
        (∀ idx f, InBucket bk1 idx f →
          f.h &&& bits = idx ∨ (InBucket bk idx f ∧ (idx < i ∨ i + k ≤ idx))) := by
  intro k
  induction k with
  | zero =>
    intro i bk hlen _
    refine ⟨bk, rfl, hlen, fun f => Iff.rfl, ?_⟩
    intro idx f hf
    right
    exact ⟨hf, by omega⟩
  | succ k ih =>
    intro i bk hlen hik
    have hi : i < bk.length := by omega
    unfold rehash_loop
    rw [rd_of_lt _ _ hi]
    simp only
    obtain ⟨bk2, h1, h2, h3⟩ := rehash_chain_spec hb (bk.get ⟨i, hi⟩) (bk.set i [])
      (by simp [hlen])
    rw [h1]
    simp only
    obtain ⟨bk3, g1, g2, g3, g4⟩ := ih (i + 1) bk2 h2 (by omega)
    refine ⟨bk3, g1, g2, ?_, ?_⟩
    · intro f
      rw [g3]
      constructor
      · rintro ⟨idx, hf⟩
        rcases (h3 idx f).mp hf with hf | ⟨hf, _⟩
        · rcases (inBucket_set hi [] idx f).mp hf with ⟨_, hf⟩ | ⟨_, hf⟩
          · simp at hf
          · exact ⟨idx, hf⟩
        · exact ⟨i, _, List.getElem?_eq_getElem hi, hf⟩
      · rintro ⟨idx, hf⟩
        by_cases hidx : idx = i
        · obtain ⟨chain, hc1, hc2⟩ := hf
          rw [hidx, List.getElem?_eq_getElem hi] at hc1
          cases hc1
          exact ⟨f.h &&& bits, (h3 _ f).mpr (Or.inr ⟨hc2, rfl⟩)⟩
        · exact ⟨idx, (h3 idx f).mpr (Or.inl ((inBucket_set hi [] idx f).mpr (Or.inr ⟨hidx, hf⟩)))⟩
    · intro idx f hf
      rcases g4 idx f hf with h | ⟨h, hrange⟩
      · exact Or.inl h
      · rcases (h3 idx f).mp h with h | ⟨_, h⟩
        · rcases (inBucket_set hi [] idx f).mp h with ⟨_, hf⟩ | ⟨hne, hf⟩
          · simp at hf
          · right
            exact ⟨hf, by omega⟩
        · exact Or.inl h

theorem inBucket_append_replicate {bk : List (List state_t)} (m : Nat) (i : Nat) (f : state_t) :
    InBucket (bk ++ List.replicate m []) i f ↔ InBucket bk i f := by
  unfold InBucket
  by_cases hi : i < bk.length
  · rw [List.getElem?_append_left hi]
  · have hi' : bk.length ≤ i := by omega
    rw [List.getElem?_append_right hi', List.getElem?_replicate]
    have : bk[i]? = none := List.getElem?_eq_none hi'
    rw [this]
    constructor
    · rintro ⟨chain, hc, hf⟩
      split at hc
      · cases hc
        simp at hf
      · cases hc
    · rintro ⟨chain, hc, _⟩
      cases hc

/-- The first call of `extend_table`: 1024 empty buckets. -/
theorem extend_table_first :
    extend_table Table.empty = .ok ⟨List.replicate 1024 [], 1024, 768, 0⟩ := by
  rfl

theorem tableInv_first (b : Board) : TableInv b ⟨List.replicate 1024 [], 1024, 768, 0⟩ := by
  refine ⟨by decide, by simp, ?_⟩
  rintro i f ⟨chain, hc, hf⟩
  rw [List.getElem?_replicate] at hc
  split at hc
  · cases hc
    simp at hf
  · cases hc

/-- Growth keeps the invariant and the stored records and doubles the sizes. -/
theorem extend_table_spec {b : Board} {t : Table} (hinv : TableInv b t) :
    ∃ t1, extend_table t = .ok t1 ∧ TableInv b t1 ∧ t1.hash_size = t.hash_size * 2 ∧
      t1.fill_limit = t.fill_limit * 2 ∧ t1.filled = t.filled ∧
      ∀ f, f ∈ t1.states ↔ f ∈ t.states := by
  have hpos := hinv.size_pos
  have hne : t.hash_size ≠ 0 := by omega
  have hN : 0 < t.hash_size * 2 := by omega
  have hlen0 : (List.take t.hash_size t.buckets ++
      List.replicate (t.hash_size * 2 - t.hash_size) []).length = t.hash_size * 2 := by
    simp [hinv.len]
    omega
  obtain ⟨bk1, h1, h2, h3, h4⟩ := rehash_loop_spec (mask_lt hN) t.hash_size 0 _ hlen0 (by omega)
  have htake : List.take t.hash_size t.buckets = t.buckets := by
    rw [← hinv.len]; exact List.take_length _
  refine ⟨⟨bk1, t.hash_size * 2, t.fill_limit * 2, t.filled⟩, ?_, ?_, rfl, rfl, rfl, ?_⟩
  · unfold extend_table
    simp only [hne, if_false]
    rw [h1]
  · refine ⟨hN, h2, ?_⟩
    intro i f hf
    have hex : ∃ idx, InBucket t.buckets idx f := by
      have := (h3 f).mp ⟨i, hf⟩
      rw [htake] at this
      obtain ⟨idx, hidx⟩ := this
      exact ⟨idx, (inBucket_append_replicate _ idx f).mp hidx⟩
    obtain ⟨idx, hidx⟩ := hex
    obtain ⟨p1, p2, _⟩ := hinv.placed idx f hidx
    refine ⟨p1, p2, ?_⟩
    rcases h4 i f hf with h | ⟨h, hrange⟩
    · exact h
    · rw [htake] at h
      have h' := (inBucket_append_replicate _ i f).mp h
      obtain ⟨chain, hc, _⟩ := h'
      have : i < t.buckets.length := by
        by_contra hcon
        rw [List.getElem?_eq_none (by omega)] at hc
        cases hc
      rw [hinv.len] at this
      omega
  · intro f
    unfold Table.states
    simp only
    rw [inBucket_flatten, inBucket_flatten, h3 f, htake]
    constructor
    · rintro ⟨idx, h⟩
      exact ⟨idx, (inBucket_append_replicate _ idx f).mp h⟩
    · rintro ⟨idx, h⟩
      exact ⟨idx, (inBucket_append_replicate _ idx f).mpr h⟩

/-- The call `add_to_table(s)` rejects `s` exactly when its slots are stored
already; otherwise it stores `s` and nothing else changes in the set of
stored records. -/
theorem add_to_table_spec {b : Board} {t : Table} {s : state_t}
    (hinv : TableInv b t) (hs : Hashable b s) :
    ∃ v, hash_loop s.c (b.n_boxes + 1) 0 0 = .ok v ∧
      ((s.c ∈ t.keys ∧ add_to_table b t s = .ok (false, .mk v s.prev s.c, t)) ∨
       (s.c ∉ t.keys ∧ ∃ t1, add_to_table b t s = .ok (true, .mk v s.prev s.c, t1) ∧
          TableInv b t1 ∧ ∀ f, f ∈ t1.states ↔ f = .mk v s.prev s.c ∨ f ∈ t.states)) := by
  obtain ⟨v, hv, hl⟩ := lookup_spec hinv hs
  refine ⟨v, hv, ?_⟩
  rcases hl with ⟨hl, hkey⟩ | ⟨f, hl, hkey⟩
  · right
    refine ⟨hkey, ?_⟩
    have hgrow : ∃ t1, (if t.filled ≥ t.fill_limit then
          extend_table { t with filled := t.filled + 1 }
        else Res.ok { t with filled := t.filled + 1 }) = .ok t1 ∧ TableInv b t1 ∧
        ∀ f, f ∈ t1.states ↔ f ∈ t.states := by
      have hinv' : TableInv b { t with filled := t.filled + 1 } :=
        ⟨hinv.size_pos, hinv.len, hinv.placed⟩
      by_cases hfull : t.filled ≥ t.fill_limit
      · simp only [hfull, if_true]
        obtain ⟨t1, e1, e2, _, _, _, e3⟩ := extend_table_spec hinv'
        exact ⟨t1, e1, e2, e3⟩
      · simp only [hfull, if_false]
        exact ⟨_, rfl, hinv', fun f => Iff.rfl⟩
    obtain ⟨t1, hg1, hg2, hg3⟩ := hgrow
    have hidx : v &&& mask t1.hash_size < t1.buckets.length := by
      rw [hg2.len]; exact and_mask_lt hg2.size_pos v
    refine ⟨⟨t1.buckets.set (v &&& mask t1.hash_size)
        (state_t.mk v s.prev s.c :: t1.buckets.get ⟨v &&& mask t1.hash_size, hidx⟩),
        t1.hash_size, t1.fill_limit, t1.filled⟩, ?_, ?_, ?_⟩
    · unfold add_to_table
      rw [hl]
      simp only
      rw [hg1]
      simp only [state_t.h]
      rw [rd_of_lt _ _ hidx]
    · refine ⟨hg2.size_pos, by simp [hg2.len], ?_⟩
      intro i f hf
      rcases (inBucket_set hidx _ i f).mp hf with ⟨hi, hmem⟩ | ⟨_, hmem⟩
      · rcases List.mem_cons.mp hmem with rfl | hmem
        · exact ⟨hs.1, hv, hi.symm⟩
        · exact hg2.placed i f ⟨_, by rw [hi]; exact List.getElem?_eq_getElem hidx, hmem⟩
      · exact hg2.placed i f hmem
    · intro f
      rw [← hg3 f]
      unfold Table.states
      simp only
      rw [inBucket_flatten, inBucket_flatten]
      constructor
      · rintro ⟨i, hf⟩
        rcases (inBucket_set hidx _ i f).mp hf with ⟨hi, hmem⟩ | ⟨_, hmem⟩
        · rcases List.mem_cons.mp hmem with rfl | hmem
          · exact Or.inl rfl
          · exact Or.inr ⟨i, _, by rw [hi]; exact List.getElem?_eq_getElem hidx, hmem⟩
        · exact Or.inr ⟨i, hmem⟩
      · rintro (rfl | ⟨i, hf⟩)
        · exact ⟨_, (inBucket_set hidx _ _ _).mpr (Or.inl ⟨rfl, by simp⟩)⟩
        · by_cases hi : i = v &&& mask t1.hash_size
          · refine ⟨i, (inBucket_set hidx _ i f).mpr (Or.inl ⟨hi, ?_⟩)⟩
            obtain ⟨chain, hc1, hc2⟩ := hf
            rw [hi, List.getElem?_eq_getElem hidx] at hc1
            cases hc1
            simp [hc2]
          · exact ⟨i, (inBucket_set hidx _ i f).mpr (Or.inr ⟨hi, hf⟩)⟩
  · left
    refine ⟨hkey, ?_⟩
    unfold add_to_table
    rw [hl]

/-- Keys after an accepted insertion. -/
theorem keys_of_states {t t1 : Table} {s1 : state_t}
    (h : ∀ f, f ∈ t1.states ↔ f = s1 ∨ f ∈ t.states) (k : List Nat) :
    k ∈ t1.keys ↔ k = s1.c ∨ k ∈ t.keys := by
  unfold Table.keys
  simp only [List.mem_map]
  constructor
  · rintro ⟨f, hf, rfl⟩
    rcases (h f).mp hf with rfl | hf
    · exact Or.inl rfl
    · exact Or.inr ⟨f, hf, rfl⟩
  · rintro (rfl | ⟨f, hf, rfl⟩)
    · exact ⟨s1, (h s1).mpr (Or.inl rfl), rfl⟩
    · exact ⟨f, (h f).mpr (Or.inr hf), rfl⟩

/-- A sequence of `add_to_table` calls: each call accepts its record exactly
when its slots are neither stored at the start nor offered earlier. -/
theorem offer_all_spec (b : Board) :
    ∀ (xs : List state_t) (t : Table), TableInv b t → (∀ s ∈ xs, Hashable b s) →
      ∃ rs t1, offer_all b t xs = .ok (rs, t1) ∧ rs.length = xs.length ∧ TableInv b t1 ∧
        ∀ (i : Nat) (s : state_t), xs[i]? = some s →
          (rs[i]? = some true ↔
            (s.c ∉ t.keys ∧ ∀ (j : Nat) (s2 : state_t), j < i → xs[j]? = some s2 → s2.c ≠ s.c)) ∧
          (rs[i]? = some false ↔
            ¬ (s.c ∉ t.keys ∧
              ∀ (j : Nat) (s2 : state_t), j < i → xs[j]? = some s2 → s2.c ≠ s.c)) := by
  intro xs
  induction xs with
  | nil =>
    intro t hinv _
    exact ⟨[], t, rfl, rfl, hinv, by simp⟩
  | cons x xs ih =>
    intro t hinv hall
    obtain ⟨v, hv, hcase⟩ := add_to_table_spec hinv (hall x (by simp))
    have hrest : ∀ s ∈ xs, Hashable b s := fun s hs => hall s (by simp [hs])
    rcases hcase with ⟨hkey, hadd⟩ | ⟨hkey, t1, hadd, hinv1, hst⟩
    · obtain ⟨rs, t2, h1, h2, h3, h4⟩ := ih t hinv hrest
      refine ⟨false :: rs, t2, ?_, by simp [h2], h3, ?_⟩
      · unfold offer_all
        rw [hadd]
        simp only
        rw [h1]
      · intro i s hi
        cases i with
        | zero =>
          simp at hi
          subst hi
          simp [hkey]
        | succ i =>
          simp at hi
          obtain ⟨g1, g2⟩ := h4 i s hi
          have key : (s.c ∉ t.keys ∧ ∀ (j : Nat) (s2 : state_t), j < i + 1 → (x :: xs)[j]? = some s2 → s2.c ≠ s.c) ↔
              (s.c ∉ t.keys ∧ ∀ (j : Nat) (s2 : state_t), j < i → xs[j]? = some s2 → s2.c ≠ s.c) := by
            constructor
            · rintro ⟨a1, a2⟩
              exact ⟨a1, fun j s2 hj hs2 => a2 (j + 1) s2 (by omega) (by simpa using hs2)⟩
            · rintro ⟨a1, a2⟩
              refine ⟨a1, ?_⟩
              intro j s2 hj hs2
              cases j with
              | zero =>
                simp at hs2
                subst hs2
                intro heq
                rw [heq] at hkey
                exact a1 hkey
              | succ j =>
                simp at hs2
                exact a2 j s2 (by omega) hs2
          simp only [List.getElem?_cons_succ]
          rw [key]
          exact ⟨g1, g2⟩
    · obtain ⟨rs, t2, h1, h2, h3, h4⟩ := ih t1 hinv1 hrest
      refine ⟨true :: rs, t2, ?_, by simp [h2], h3, ?_⟩
      · unfold offer_all
        rw [hadd]
        simp only
        rw [h1]
      · intro i s hi
        cases i with
        | zero =>
          simp at hi
          subst hi
          simp [hkey]
        | succ i =>
          simp at hi
          obtain ⟨g1, g2⟩ := h4 i s hi
          have hk := keys_of_states hst
          have key : (s.c ∉ t.keys ∧ ∀ (j : Nat) (s2 : state_t), j < i + 1 → (x :: xs)[j]? = some s2 → s2.c ≠ s.c) ↔
              (s.c ∉ t1.keys ∧ ∀ (j : Nat) (s2 : state_t), j < i → xs[j]? = some s2 → s2.c ≠ s.c) := by
            constructor
            · rintro ⟨a1, a2⟩
              refine ⟨?_, fun j s2 hj hs2 => a2 (j + 1) s2 (by omega) (by simpa using hs2)⟩
              intro hmem
              rcases (hk s.c).mp hmem with h | h
              · exact a2 0 x (by omega) (by simp) h.symm
              · exact a1 h
            · rintro ⟨a1, a2⟩
              refine ⟨fun h => a1 ((hk s.c).mpr (Or.inr h)), ?_⟩
              intro j s2 hj hs2
              cases j with
              | zero =>
                simp at hs2
                subst hs2
                intro heq
                exact a1 ((hk s.c).mpr (Or.inl heq.symm))
              | succ j =>
                simp at hs2
                exact a2 j s2 (by omega) hs2
          simp only [List.getElem?_cons_succ]
          rw [key]
          exact ⟨g1, g2⟩

/-! ## Letters of `show_moves` and the Sokoban rules -/

theorem has_box_append (v : Int) :
    ∀ (k : Nat) (pre rest : List Nat), k ≤ rest.length →
      has_box (pre ++ rest) v k pre.length = .ok (decide (∃ x ∈ rest.take k, (x : Int) = v)) := by
  intro k
  induction k with
  | zero => intro pre rest _; simp [has_box]
  | succ k ih =>
    intro pre rest hk
    cases rest with
    | nil => simp at hk
    | cons x rest =>
      simp only [List.length_cons, Nat.add_le_add_iff_right] at hk
      unfold has_box
      rw [rd_append_length]
      by_cases hx : (x : Int) = v
      · simp [hx]
      · simp only [hx, if_false]
        have h1 := ih (pre ++ [x]) rest hk
        have e1 : pre ++ [x] ++ rest = pre ++ x :: rest := by simp
        have e2 : (pre ++ [x]).length = pre.length + 1 := by simp
        rw [e1, e2] at h1
        rw [h1]
        simp [hx]

theorem has_box_state {b : Board} {s : state_t} (hlen : s.c.length = b.n_boxes + 1) (v : Int) :
    has_box s.c v b.n_boxes 1 = .ok (decide (∃ x ∈ boxes b s, (x : Int) = v)) := by
  cases hc : s.c with
  | nil => rw [hc] at hlen; simp at hlen
  | cons p0 bs =>
    rw [hc] at hlen
    have hn : bs.length = b.n_boxes := by simpa using hlen
    have := has_box_append v bs.length [p0] bs (le_refl _)
    rw [boxes_of_cons hc hn, ← hn]
    simpa using this

theorem map_replace_perm (a v : Nat) :
    ∀ l : List Nat, l.Nodup → a ∈ l →
      (l.map (fun c => if c = a then v else c)).Perm (v :: l.erase a) := by
  intro l
  induction l with
  | nil => intro _ h; simp at h
  | cons x xs ih =>
    intro hnd hmem
    obtain ⟨hx, hxs⟩ := List.nodup_cons.mp hnd
    by_cases hxa : x = a
    · subst hxa
      have : xs.map (fun c => if c = x then v else c) = xs := by
        conv_rhs => rw [← List.map_id xs]
        apply List.map_congr_left
        intro c hc
        have : c ≠ x := fun h => hx (h ▸ hc)
        simp [this]
      simp [this]
    · have hmem' : a ∈ xs := by
        rcases List.mem_cons.mp hmem with h | h
        · exact absurd h.symm hxa
        · exact h
      have h1 := ih hxs hmem'
      rw [List.map_cons, if_neg hxa, List.erase_cons_tail (by simpa using hxa)]
      exact (List.Perm.cons x h1).trans (List.Perm.swap _ _ _)

/-- The letter `show_moves` prints for a move of `move_me`: its direction is
the direction of the move and it is uppercase exactly when a box stood on
the destination. -/
theorem move_letter_of_move {b : Board} {R : Nat → Prop} {s : state_t} {dy dx : Int}
    (he : Enclosed b R) (hs : ValidState b R s) (hd : (dy, dx) ∈ dirs) :
    ∃ l, move_letter b s.c (cell1 b s dy dx) = .ok (some l) ∧
      letter_move l = some (dy, dx, decide (∃ x ∈ boxes b s, (x : Int) = cell1 b s dy dx)) := by
  have sf := step_facts he hs.player hd
  obtain ⟨i1, i2, i3, i4⟩ := he.inner _ hs.player
  have hw : 0 < b.w := by omega
  have hw0 : b.w ≠ 0 := by omega
  obtain ⟨p0, bs, hc⟩ : ∃ p0 bs, s.c = p0 :: bs := by
    cases hcs : s.c with
    | nil => have := hs.len; rw [hcs] at this; simp at this
    | cons p0 bs => exact ⟨p0, bs, rfl⟩
  have hrd0 : rd s.c 0 = .ok p0 := by
    rw [hc]; exact rd_nat_ok.mpr (by simp)
  have hc0 : cell0 s = (p0 : Int) := cell0_of_cons hc
  have hr : row1 b s dy = (p0 : Int) / b.w + dy := by rw [row1, hc0, tdiv_nat _ hw]
  have hcl : col1 b s dx = (p0 : Int) % b.w + dx := by rw [col1, hc0, tmod_nat _ hw]
  have hdm := div_mod_of_row_col (w := b.w) (y := row1 b s dy) sf.col_lo sf.col_hi
  have hc1 : row1 b s dy * b.w + col1 b s dx = cell1 b s dy dx := rfl
  rw [hc1] at hdm
  have hnx : Int.tmod (cell1 b s dy dx) b.w = (p0 : Int) % b.w + dx := by
    rw [Int.tmod_eq_emod sf.c1_lo (le_of_lt hw), hdm.2, hcl]
  have hny : Int.tdiv (cell1 b s dy dx) b.w = (p0 : Int) / b.w + dy := by
    rw [Int.tdiv_eq_ediv sf.c1_lo (le_of_lt hw), hdm.1, hr]
  have hcx : Int.tmod (p0 : Int) b.w = (p0 : Int) % b.w := tmod_nat _ hw
  have hcy : Int.tdiv (p0 : Int) b.w = (p0 : Int) / b.w := tdiv_nat _ hw
  unfold move_letter
  simp only [hw0, if_false, hrd0, has_box_state hs.len, hnx, hny, hcx, hcy]
  rcases dirs_cases hd with ⟨h1, h2⟩ | ⟨h1, h2⟩ | ⟨h1, h2⟩ | ⟨h1, h2⟩ <;> subst h1 <;> subst h2
  · have : (p0 : Int) % b.w < (p0 : Int) % b.w + 1 := by omega
    simp only [this, if_true]
    by_cases hb : ∃ x ∈ boxes b s, (x : Int) = cell1 b s 0 1
    · simp only [hb, decide_True, if_true]; exact ⟨_, rfl, rfl⟩
    · simp only [hb, decide_False]; exact ⟨_, rfl, rfl⟩
  · have h1 : ¬ ((p0 : Int) % b.w < (p0 : Int) % b.w + -1) := by omega
    have h2 : (p0 : Int) % b.w > (p0 : Int) % b.w + -1 := by omega
    simp only [h1, h2, if_true, if_false]
    by_cases hb : ∃ x ∈ boxes b s, (x : Int) = cell1 b s 0 (-1)
    · simp only [hb, decide_True, if_true]; exact ⟨_, rfl, rfl⟩
    · simp only [hb, decide_False]; exact ⟨_, rfl, rfl⟩
  · have h1 : ¬ ((p0 : Int) % b.w < (p0 : Int) % b.w + 0) := by omega
    have h2 : ¬ ((p0 : Int) % b.w > (p0 : Int) % b.w + 0) := by omega
    have h3 : ¬ ((p0 : Int) / b.w < (p0 : Int) / b.w + -1) := by omega
    have h4 : (p0 : Int) / b.w > (p0 : Int) / b.w + -1 := by omega
    simp only [h1, h2, h3, h4, if_true, if_false]
    by_cases hb : ∃ x ∈ boxes b s, (x : Int) = cell1 b s (-1) 0
    · simp only [hb, decide_True, if_true]; exact ⟨_, rfl, rfl⟩
    · simp only [hb, decide_False]; exact ⟨_, rfl, rfl⟩
  · have h1 : ¬ ((p0 : Int) % b.w < (p0 : Int) % b.w + 0) := by omega
    have h2 : ¬ ((p0 : Int) % b.w > (p0 : Int) % b.w + 0) := by omega
    have h3 : (p0 : Int) / b.w < (p0 : Int) / b.w + 1 := by omega
    simp only [h1, h2, h3, if_true, if_false]
    by_cases hb : ∃ x ∈ boxes b s, (x : Int) = cell1 b s 1 0
    · simp only [hb, decide_True, if_true]; exact ⟨_, rfl, rfl⟩
    · simp only [hb, decide_False]; exact ⟨_, rfl, rfl⟩

/-! ## Moves of `move_me` are moves of the rules, and back -/

theorem is_floor_iff (b : Board) (y x : Int) :
    is_floor b y x = true ↔
      (0 ≤ y ∧ y < b.h ∧ 0 ≤ x ∧ x < b.w) ∧ ∃ v, rd b.board (y * b.w + x) = .ok v ∧ v ≠ wall := by
  unfold is_floor
  rw [Bool.and_eq_true, decide_eq_true_iff]
  constructor
  · rintro ⟨h1, h2⟩
    refine ⟨h1, ?_⟩
    cases hr : rd b.board (y * b.w + x) with
    | ok v =>
      rw [hr] at h2
      exact ⟨v, rfl, by simpa using h2⟩
    | fault => rw [hr] at h2; cases h2
    | timeout => rw [hr] at h2; cases h2
  · rintro ⟨h1, v, hv, hne⟩
    refine ⟨h1, ?_⟩
    rw [hv]
    simpa using hne

theorem letter_move_dirs {l : Char} {dy dx : Int} {p : Bool}
    (h : letter_move l = some (dy, dx, p)) : (dy, dx) ∈ dirs := by
  unfold letter_move at h
  split_ifs at h <;> simp at h <;> obtain ⟨h1, h2, _⟩ := h <;> subst h1 <;> subst h2 <;>
    simp [dirs]

theorem cell2_eq (b : Board) (s : state_t) (dy dx : Int) :
    (row1 b s dy + dy) * b.w + (col1 b s dx + dx) = cell2 b s dy dx := by
  unfold cell2 cell1
  ring

/-- The rule step from the configuration of a record, in the terms of `move_me`. -/
theorem rule_step_eq {b : Board} {s : state_t} {cfg : Config} {l : Char} {dy dx : Int}
    {push : Bool} (hw : 0 < b.w) (hrep : Rep b s cfg)
    (hl : letter_move l = some (dy, dx, push)) :
    rule_step b cfg l =
      if is_floor b (row1 b s dy) (col1 b s dx) then
        if push then
          if (cell1 b s dy dx).toNat ∈ cfg.boxes ∧
              is_floor b (row1 b s dy + dy) (col1 b s dx + dx) = true ∧
              (cell2 b s dy dx).toNat ∉ cfg.boxes then
            some ⟨(cell1 b s dy dx).toNat,
              cfg.boxes.map (fun c => if c = (cell1 b s dy dx).toNat
                then (cell2 b s dy dx).toNat else c)⟩
          else none
        else if (cell1 b s dy dx).toNat ∈ cfg.boxes then none
        else some ⟨(cell1 b s dy dx).toNat, cfg.boxes⟩
      else none := by
  have hp : (cfg.player : Int) = cell0 s := by
    rw [hrep.1]; rfl
  have hr : (cfg.player : Int) / b.w + dy = row1 b s dy := by
    rw [row1, hp]
    unfold cell0
    rw [tdiv_nat _ hw]
  have hc : (cfg.player : Int) % b.w + dx = col1 b s dx := by
    rw [col1, hp]
    unfold cell0
    rw [tmod_nat _ hw]
  unfold rule_step
  rw [hl]
  simp only [hr, hc, cell2_eq]
  rfl

/-- A move of `move_me` on a valid state is the legal move of the rules
with the letter that `show_moves` prints. -/
theorem rule_step_of_move {b : Board} {R : Nat → Prop} {s n : state_t} {dy dx : Int}
    {cfg : Config} {l : Char}
    (he : Enclosed b R) (hcap : b.w * b.h ≤ 65536) (hs : ValidState b R s)
    (hd : (dy, dx) ∈ dirs) (hm : move_me b s dy dx = .ok (some n)) (hrep : Rep b s cfg)
    (hl : letter_move l = some (dy, dx, decide (∃ x ∈ boxes b s, (x : Int) = cell1 b s dy dx))) :
    ∃ cfg1, rule_step b cfg l = some cfg1 ∧ Rep b n cfg1 := by
  have sf := step_facts he hs.player hd
  obtain ⟨i1, i2, i3, i4⟩ := he.inner _ hs.player
  have hw : 0 < b.w := by omega
  obtain ⟨bs1, hn, hR1, hcase⟩ := move_me_succ he hcap hs hd hm
  have hbl := boxes_length hs.len
  have hfl1 : is_floor b (row1 b s dy) (col1 b s dx) = true := by
    rw [is_floor_iff]
    refine ⟨⟨sf.row_lo, sf.row_hi, sf.col_lo, sf.col_hi⟩, ?_⟩
    have := he.floor _ hR1
    rw [Int.toNat_of_nonneg sf.c1_lo] at this
    exact this
  rw [rule_step_eq hw hrep hl]
  simp only [hfl1, if_true]
  rcases hcase with ⟨hfree, hperm⟩ | ⟨hmem, hR2, hfree2, _, hperm⟩
  · have hnb : ¬ ∃ x ∈ boxes b s, (x : Int) = cell1 b s dy dx := by
      rintro ⟨x, hx, hx1⟩
      have : x = (cell1 b s dy dx).toNat := by omega
      exact hfree (this ▸ hx)
    have hnc : (cell1 b s dy dx).toNat ∉ cfg.boxes := fun h => hfree (hrep.2.mem_iff.mpr h)
    simp only [hnb, decide_False, hnc, if_false]
    refine ⟨_, rfl, ?_, ?_⟩
    · rw [hn]; rfl
    · rw [hn, boxes_mk _ _ _ _ (by rw [hperm.length_eq, hbl])]
      exact hperm.trans hrep.2
  · have hb : ∃ x ∈ boxes b s, (x : Int) = cell1 b s dy dx :=
      ⟨_, hmem, Int.toNat_of_nonneg sf.c1_lo⟩
    have hc1 : (cell1 b s dy dx).toNat ∈ cfg.boxes := hrep.2.mem_iff.mp hmem
    have hc2 : (cell2 b s dy dx).toNat ∉ cfg.boxes := fun h => hfree2 (hrep.2.mem_iff.mpr h)
    obtain ⟨j1, j2, j3, j4⟩ := he.inner _ hR1
    rw [Int.toNat_of_nonneg sf.c1_lo] at j1 j2 j3 j4
    have hdm := div_mod_of_row_col (w := b.w) (y := row1 b s dy) sf.col_lo sf.col_hi
    have hc1e : row1 b s dy * b.w + col1 b s dx = cell1 b s dy dx := rfl
    rw [hc1e] at hdm
    rw [hdm.1] at j1 j2
    rw [hdm.2] at j3 j4
    have h2lo : 0 ≤ cell2 b s dy dx := by
      have := he.floor _ hR2
      obtain ⟨v, hv, _⟩ := this
      by_contra hneg
      have hz : (cell2 b s dy dx).toNat = 0 := Int.toNat_eq_zero.mpr (by omega)
      have hR0 := he.inner _ hR2
      rw [hz] at hR0
      simp at hR0
    have hfl2 : is_floor b (row1 b s dy + dy) (col1 b s dx + dx) = true := by
      rw [is_floor_iff, cell2_eq]
      refine ⟨?_, ?_⟩
      · rcases dirs_cases hd with h | h | h | h <;> omega
      · have := he.floor _ hR2
        rw [Int.toNat_of_nonneg h2lo] at this
        exact this
    simp only [hb, decide_True, if_true, hc1, hfl2, hc2, not_false_eq_true, and_self]
    refine ⟨_, rfl, ?_, ?_⟩
    · rw [hn]; rfl
    · have hl1 : bs1.length = b.n_boxes := by
        rw [hperm.length_eq, List.length_cons, List.length_erase_of_mem hmem, hbl]
        have : 0 < (boxes b s).length := List.length_pos_of_mem hmem
        omega
      rw [hn, boxes_mk _ _ _ _ hl1]
      refine hperm.trans ?_
      have hnd : cfg.boxes.Nodup := hrep.2.nodup_iff.mp hs.nodup
      exact ((List.Perm.cons _ (hrep.2.erase _)).trans
        (map_replace_perm _ _ cfg.boxes hnd hc1).symm)

/-- A legal move of the rules from the configuration of a valid state that
leaves every box on a live cell is a move that `move_me` returns. -/
theorem move_of_rule_step {b : Board} {R : Nat → Prop} {s : state_t}
    {cfg cfg1 : Config} {l : Char}
    (he : Enclosed b R) (hcap : b.w * b.h ≤ 65536) (hs : ValidState b R s)
    (hrep : Rep b s cfg) (hstep : rule_step b cfg l = some cfg1)
    (hlive : ∀ c ∈ cfg1.boxes, ∃ lv, rd b.live (c : Int) = .ok lv ∧ lv ≠ 0) :
    ∃ dy dx n, (dy, dx) ∈ dirs ∧ move_me b s dy dx = .ok (some n) ∧ Rep b n cfg1 := by
  obtain ⟨i1, i2, i3, i4⟩ := he.inner _ hs.player
  have hw : 0 < b.w := by omega
  have hbl := boxes_length hs.len
  cases hlm : letter_move l with
  | none => unfold rule_step at hstep; rw [hlm] at hstep; cases hstep
  | some t =>
    obtain ⟨dy, dx, push⟩ := t
    have hd := letter_move_dirs hlm
    have sf := step_facts he hs.player hd
    rw [rule_step_eq hw hrep hlm] at hstep
    by_cases hfl1 : is_floor b (row1 b s dy) (col1 b s dx) = true
    swap
    · simp only [hfl1] at hstep
      cases hstep
    simp only [hfl1, if_true] at hstep
    have hfl := ((is_floor_iff b _ _).mp hfl1).2
    have hin := ((is_floor_iff b _ _).mp hfl1).1
    have hc1e : row1 b s dy * b.w + col1 b s dx = cell1 b s dy dx := rfl
    rw [hc1e] at hfl
    refine ⟨dy, dx, ?_⟩
    cases push with
    | false =>
      simp only [Bool.false_eq_true, if_false] at hstep
      by_cases hmem : (cell1 b s dy dx).toNat ∈ cfg.boxes
      · simp only [hmem, if_true] at hstep
        cases hstep
      simp only [hmem, if_false] at hstep
      cases hstep
      have hfree : ∀ x ∈ boxes b s, (x : Int) ≠ cell1 b s dy dx := by
        intro x hx hx1
        have : x = (cell1 b s dy dx).toNat := by omega
        exact hmem (hrep.2.mem_iff.mp (this ▸ hx))
      obtain ⟨bs1, hm, hperm⟩ := move_me_walk hw hcap hs.len hin hfl hfree
      refine ⟨_, hd, hm, rfl, ?_⟩
      rw [boxes_mk _ _ _ _ (by rw [hperm.length_eq, hbl])]
      exact hperm.trans hrep.2
    | true =>
      simp only [if_true] at hstep
      by_cases hcond : (cell1 b s dy dx).toNat ∈ cfg.boxes ∧
          is_floor b (row1 b s dy + dy) (col1 b s dx + dx) = true ∧
          (cell2 b s dy dx).toNat ∉ cfg.boxes
      swap
      · simp only [hcond, if_false] at hstep
        cases hstep
      simp only [hcond, and_self, if_true] at hstep
      cases hstep
      obtain ⟨hc1, hfl2, hc2⟩ := hcond
      have hmem : (cell1 b s dy dx).toNat ∈ boxes b s := hrep.2.mem_iff.mpr hc1
      have hbox : ∃ x ∈ boxes b s, (x : Int) = cell1 b s dy dx :=
        ⟨_, hmem, Int.toNat_of_nonneg sf.c1_lo⟩
      have h2 := (is_floor_iff b _ _).mp hfl2
      rw [cell2_eq] at h2
      obtain ⟨_, v2, hv2, hne2⟩ := h2
      have h2lo := (rd_lt hv2).1
      have hR1 := enclosed_cell1 he hs.player hd hfl.choose_spec.1 hfl.choose_spec.2
      have hR2 := enclosed_cell2 he hs.player hd hfl.choose_spec.1 hfl.choose_spec.2 hv2 hne2
      have h2hi : cell2 b s dy dx < b.w * b.h := by
        have := enclosed_lt he hR2
        rw [Int.toNat_of_nonneg h2lo] at this
        exact this
      have hnd : cfg.boxes.Nodup := hrep.2.nodup_iff.mp hs.nodup
      have hlv : ∃ lv, rd b.live (cell2 b s dy dx) = .ok lv ∧ lv ≠ 0 := by
        have := hlive (cell2 b s dy dx).toNat (by
          simp only [List.mem_map]
          exact ⟨_, hc1, by simp⟩)
        rw [Int.toNat_of_nonneg h2lo] at this
        exact this
      obtain ⟨lv, hlv1, hlv2⟩ := hlv
      rcases move_me_push hw hcap hs.len hin hfl hbox ⟨h2lo, h2hi⟩ ⟨v2, hv2⟩ ⟨lv, hlv1⟩ with
        ⟨hb, _⟩ | ⟨_, bs1, hm, hperm⟩
      · exfalso
        rcases hb with hb | hb | ⟨x, hx, hx2⟩
        · rw [hv2] at hb; cases hb; exact hne2 rfl
        · rw [hlv1] at hb; cases hb; exact hlv2 rfl
        · have : x = (cell2 b s dy dx).toNat := by omega
          exact hc2 (hrep.2.mem_iff.mp (this ▸ hx))
      · refine ⟨_, hd, hm, rfl, ?_⟩
        have hl1 : bs1.length = b.n_boxes := by
          rw [hperm.length_eq, List.length_cons, List.length_erase_of_mem hmem, hbl]
          have : 0 < (boxes b s).length := List.length_pos_of_mem hmem
          omega
        rw [boxes_mk _ _ _ _ hl1]
        refine hperm.trans ?_
        exact ((List.Perm.cons _ (hrep.2.erase _)).trans
          (map_replace_perm _ _ cfg.boxes hnd hc1).symm)

/-! ## Chains of records and what `show_moves` prints for them -/

@[simp] theorem c_mk (h : Nat) (p : Option state_t) (c : List Nat) : (state_t.mk h p c).c = c :=
  rfl

@[simp] theorem h_mk (h : Nat) (p : Option state_t) (c : List Nat) : (state_t.mk h p c).h = h :=
  rfl

@[simp] theorem prev_mk (h : Nat) (p : Option state_t) (c : List Nat) :
    (state_t.mk h p c).prev = p :=
  rfl

theorem validState_congr {b : Board} {R : Nat → Prop} {s t : state_t} (h : s.c = t.c)
    (hs : ValidState b R s) : ValidState b R t := by
  have hb : boxes b t = boxes b s := by unfold boxes; rw [h]
  exact ⟨h ▸ hs.len, h ▸ hs.player, hb ▸ hs.box, hb ▸ hs.nodup, by rw [hb, ← h]; exact hs.apart⟩

theorem rep_congr {b : Board} {s t : state_t} {cfg : Config} (h : s.c = t.c)
    (hs : Rep b s cfg) : Rep b t cfg := by
  have hb : boxes b t = boxes b s := by unfold boxes; rw [h]
  exact ⟨by rw [← h]; exact hs.1, by rw [hb]; exact hs.2⟩

theorem chain_rehash {b : Board} {c0 : List Nat} {h : Nat} {p : Option state_t} {c : List Nat}
    {k : Nat} (hc : Chain b c0 (.mk h p c) k) (h2 : Nat) : Chain b c0 (.mk h2 p c) k := by
  cases hc with
  | root _ => exact .root h2
  | step _ p n k dy dx hp hd hm => exact .step h2 p n k dy dx hp hd hm

/-- Every record of a chain from a valid root is valid. -/
theorem chain_valid {b : Board} {R : Nat → Prop} {c0 : List Nat} (he : Enclosed b R)
    (hcap : b.w * b.h ≤ 65536) (h0 : ValidState b R (.mk 0 none c0)) {s : state_t} {k : Nat}
    (hc : Chain b c0 s k) : ValidState b R s := by
  induction hc with
  | root h => exact validState_congr (s := .mk 0 none c0) rfl h0
  | step h p n k dy dx _ hd hm ih =>
    exact validState_congr (s := n) rfl (move_me_valid he hcap ih hd hm)

theorem replay_append (b : Board) :
    ∀ (ls ms : List Char) (cfg : Config),
      replay b cfg (ls ++ ms) = (replay b cfg ls).bind (fun c => replay b c ms) := by
  intro ls
  induction ls with
  | nil => intro ms cfg; rfl
  | cons l ls ih =>
    intro ms cfg
    simp only [List.cons_append, replay]
    cases rule_step b cfg l with
    | none => rfl
    | some cfg1 => exact ih ms cfg1

/-- For a chain of `k` links from a valid root `show_moves` prints `k`
letters; replayed under the rules from the configuration of the root they
are legal and lead to the configuration of the record. -/
theorem chain_shown {b : Board} {R : Nat → Prop} {c0 : List Nat} (he : Enclosed b R)
    (hcap : b.w * b.h ≤ 65536) (h0 : ValidState b R (.mk 0 none c0)) {s : state_t} {k : Nat}
    (hc : Chain b c0 s k) :
    ∃ letters cfg, letters.length = k ∧
      replay b (config_of b (.mk 0 none c0)) letters = some cfg ∧ Rep b s cfg ∧
      ∀ nextPos, show_moves b s nextPos = shown b letters s nextPos := by
  induction hc with
  | root h =>
    refine ⟨[], _, rfl, rfl, ⟨rfl, List.Perm.refl _⟩, ?_⟩
    intro nextPos
    unfold show_moves shown
    simp only [c_mk]
  | step h p n k dy dx hp hd hm ih =>
    obtain ⟨letters, cfg, hlen, hrun, hrep, hshow⟩ := ih
    have hvp := chain_valid he hcap h0 hp
    have sf := step_facts he hvp.player hd
    obtain ⟨bs1, hn, _, _⟩ := move_me_succ he hcap hvp hd hm
    obtain ⟨l, hl1, hl2⟩ := move_letter_of_move he hvp hd
    obtain ⟨cfg1, hstep, hrep1⟩ := rule_step_of_move he hcap hvp hd hm hrep hl2
    refine ⟨letters ++ [l], cfg1, by simp [hlen], ?_, rep_congr (s := n) rfl hrep1, ?_⟩
    · rw [replay_append, hrun]
      simp [replay, hstep]
    · intro nextPos
      have hnc : n.c = (cell1 b p dy dx).toNat :: bs1 := by rw [hn]; rfl
      have hrd : rd n.c 0 = .ok (cell1 b p dy dx).toNat := by
        rw [hnc]; exact rd_nat_ok.mpr (by simp)
      have habove : show_moves b p (((cell1 b p dy dx).toNat : Nat) : Int)
          = .ok (letters ++ [l], false) := by
        rw [hshow, Int.toNat_of_nonneg sf.c1_lo]
        unfold shown
        have : cell1 b p dy dx ≠ -1 := by have := sf.c1_lo; omega
        simp only [this, if_false, hl1]
      unfold show_moves shown
      simp only [hrd, habove, c_mk]

/-! ## The goal test -/

theorem success_loop_append (goals : List Nat) :
    ∀ (k : Nat) (pre rest : List Nat) (r : Bool), k ≤ rest.length →
      success_loop goals (pre ++ rest) k pre.length = .ok r →
      (r = true → ∀ x ∈ rest.take k, ∃ g, rd goals (x : Int) = .ok g ∧ g ≠ 0) ∧
      (r = false → ∃ x ∈ rest.take k, rd goals (x : Int) = .ok 0) := by
  intro k
  induction k with
  | zero =>
    intro pre rest r _ h
    unfold success_loop at h
    cases h
    simp
  | succ k ih =>
    intro pre rest r hk h
    cases rest with
    | nil => simp at hk
    | cons x rest =>
      simp only [List.length_cons, Nat.add_le_add_iff_right] at hk
      unfold success_loop at h
      rw [rd_append_length] at h
      simp only at h
      cases hg : rd goals (x : Int) with
      | fault => rw [hg] at h; cases h
      | timeout => rw [hg] at h; cases h
      | ok g =>
        rw [hg] at h
        simp only at h
        by_cases hg0 : g = 0
        · subst hg0
          simp only [if_true] at h
          cases h
          refine ⟨fun h => ?_, fun _ => ⟨x, ?_, hg⟩⟩
          · cases h
          · simp
        · simp only [hg0, if_false] at h
          have e1 : pre ++ [x] ++ rest = pre ++ x :: rest := by simp
          have e2 : (pre ++ [x]).length = pre.length + 1 := by simp
          have h1 := ih (pre ++ [x]) rest r hk (by rw [e1, e2]; exact h)
          refine ⟨fun hr y hy => ?_, fun hr => ?_⟩
          · simp only [List.take_succ_cons, List.mem_cons] at hy
            rcases hy with rfl | hy
            · exact ⟨g, hg, hg0⟩
            · exact h1.1 hr y hy
          · obtain ⟨y, hy, hy0⟩ := h1.2 hr
            exact ⟨y, by simp [hy], hy0⟩

/-- The goal test answers whether every box slot holds a goal cell. -/
theorem success_spec {b : Board} {s : state_t} {r : Bool} (hlen : s.c.length = b.n_boxes + 1)
    (h : success b s = .ok r) :
    (r = true → ∀ x ∈ boxes b s, ∃ g, rd b.goals (x : Int) = .ok g ∧ g ≠ 0) ∧
    (r = false → ∃ x ∈ boxes b s, rd b.goals (x : Int) = .ok 0) := by
  cases hc : s.c with
  | nil => rw [hc] at hlen; simp at hlen
  | cons p0 bs =>
    rw [hc] at hlen
    have hn : bs.length = b.n_boxes := by simpa using hlen
    unfold success at h
    rw [hc, ← hn] at h
    have := success_loop_append b.goals bs.length [p0] bs r (le_refl _) (by simpa using h)
    rw [boxes_of_cons hc hn]
    simpa using this

theorem success_congr {b : Board} {s t : state_t} (h : s.c = t.c) :
    success b s = success b t := by
  unfold success
  rw [h]

/-! ## One `queue_move` call -/

theorem globals_eta (g : Globals) : ({ g with tbl := g.tbl } : Globals) = g := by
  cases g
  rfl

/-- The three ways of a call `queue_move(n)` on a record fit for hashing. -/
theorem queue_move_spec {b : Board} {g : Globals} {n : state_t}
    (hinv : TableInv b g.tbl) (hn : Hashable b n) {res : Bool} {g1 : Globals}
    (hq : queue_move b g (some n) = .ok (res, g1)) :
    ∃ v, hash_loop n.c (b.n_boxes + 1) 0 0 = .ok v ∧
      ((n.c ∈ g.tbl.keys ∧ res = false ∧ g1 = g) ∨
       (n.c ∉ g.tbl.keys ∧ TableInv b g1.tbl ∧
         (∀ f, f ∈ g1.tbl.states ↔ f = .mk v n.prev n.c ∨ f ∈ g.tbl.states) ∧
         ((res = true ∧ success b (.mk v n.prev n.c) = .ok true ∧
             g1.next_level = g.next_level ∧ g1.done = some (.mk v n.prev n.c)) ∨
          (res = false ∧ success b (.mk v n.prev n.c) = .ok false ∧
             g1.next_level = .mk v n.prev n.c :: g.next_level ∧ g1.done = g.done)))) := by
  obtain ⟨v, hv, hcase⟩ := add_to_table_spec hinv hn
  refine ⟨v, hv, ?_⟩
  rcases hcase with ⟨hkey, hadd⟩ | ⟨hkey, t1, hadd, hinv1, hst⟩
  · left
    simp only [queue_move, hadd] at hq
    cases hq
    exact ⟨hkey, rfl, globals_eta g⟩
  · right
    simp only [queue_move, hadd] at hq
    cases hs : success b (.mk v n.prev n.c) with
    | fault => rw [hs] at hq; cases hq
    | timeout => rw [hs] at hq; cases hq
    | ok r =>
      rw [hs] at hq
      cases r with
      | true =>
        simp only at hq
        cases hq
        exact ⟨hkey, hinv1, hst, Or.inl ⟨rfl, rfl, rfl, rfl⟩⟩
      | false =>
        simp only at hq
        cases hq
        exact ⟨hkey, hinv1, hst, Or.inr ⟨rfl, rfl, rfl, rfl⟩⟩

/-! ## The invariant of a round -/

theorem mem_keys {t : Table} {s : state_t} (h : s ∈ t.states) : s.c ∈ t.keys :=
  List.mem_map.mpr ⟨s, h, rfl⟩

theorem mem_keys_iff {t : Table} {k : List Nat} : k ∈ t.keys ↔ ∃ s ∈ t.states, s.c = k := by
  unfold Table.keys
  simp only [List.mem_map]

/-- A successor of a record of depth `r`, offered to `queue_move` while
`done` is unset, keeps the invariant of the round and ends up stored. -/
theorem queue_move_inv {b : Board} {R : Nat → Prop} {c0 : List Nat} {r : Nat}
    {old rest : List state_t} {g g1 : Globals} {n p : state_t} {dy dx : Int} {res : Bool}
    (he : Enclosed b R) (hcap : b.w * b.h ≤ 65536) (h0 : ValidState b R (.mk 0 none c0))
    (hinv : RoundInv b c0 r old rest g) (hdone : g.done = none)
    (hp : Chain b c0 p r) (hd : (dy, dx) ∈ dirs) (hm : move_me b p dy dx = .ok (some n))
    (hq : queue_move b g (some n) = .ok (res, g1)) :
    RoundInv b c0 r old rest g1 ∧ n.c ∈ g1.tbl.keys ∧
      (∀ k ∈ g.tbl.keys, k ∈ g1.tbl.keys) ∧ (res = false → g1.done = none) := by
  have hvp := chain_valid he hcap h0 hp
  obtain ⟨bs1, hn, _, _⟩ := move_me_succ he hcap hvp hd hm
  have hvn := move_me_valid he hcap hvp hd hm
  have hnh : n.h = 0 := by rw [hn]; rfl
  have hnp : n.prev = some p := by rw [hn]; rfl
  have hhash : Hashable b n := ⟨hvn.len, Or.inl hnh⟩
  obtain ⟨v, hv, hcase⟩ := queue_move_spec hinv.tinv hhash hq
  rcases hcase with ⟨hkey, hres, hg⟩ | ⟨hkey, hinv1, hst, hcase2⟩
  · subst hg
    exact ⟨hinv, hkey, fun k hk => hk, fun _ => hdone⟩
  · rw [hnp] at hst hcase2
    have hchain : Chain b c0 (.mk v (some p) n.c) (r + 1) := .step v p n r dy dx hp hd hm
    have hkeys := keys_of_states hst
    have hkey2 : ∀ s ∈ g.tbl.states, s.c ≠ n.c := fun s hs hc => hkey (hc ▸ mem_keys hs)
    have hnew_old : state_t.mk v (some p) n.c ∉ old := fun h =>
      hkey2 _ (hinv.mono _ h) rfl
    have huniq : ∀ s ∈ g1.tbl.states, ∀ s2 ∈ g1.tbl.states, s.c = s2.c → s = s2 := by
      intro s hs s2 hs2 hc
      rcases (hst s).mp hs with rfl | hs
      · rcases (hst s2).mp hs2 with rfl | hs2
        · rfl
        · exact absurd hc.symm (hkey2 s2 hs2)
      · rcases (hst s2).mp hs2 with rfl | hs2
        · exact absurd hc (hkey2 s hs)
        · exact hinv.uniq s hs s2 hs2 hc
    have hchains : ∀ s ∈ g1.tbl.states, ∃ k, Chain b c0 s k := by
      intro s hs
      rcases (hst s).mp hs with rfl | hs
      · exact ⟨_, hchain⟩
      · exact hinv.chain s hs
    have hmono : ∀ s ∈ old, s ∈ g1.tbl.states := fun s hs => (hst s).mpr (Or.inr (hinv.mono s hs))
    refine ⟨?_, (hkeys n.c).mpr (Or.inl rfl), fun k hk => (hkeys k).mpr (Or.inr hk), ?_⟩
    · rcases hcase2 with ⟨_, hsucc, hnl, hdn⟩ | ⟨_, hsucc, hnl, hdn⟩
      · refine ⟨hinv1, huniq, hchains, hmono, ?_, ?_, ?_, ?_, ?_⟩
        · intro s hs hso
          rcases (hst s).mp hs with rfl | hs
          · exact Or.inr hdn
          · rcases hinv.fresh s hs hso with h | h
            · exact Or.inl (by rw [hnl]; exact h)
            · rw [hdone] at h; cases h
        · intro s hs
          rw [hnl] at hs
          obtain ⟨q1, q2, q3⟩ := hinv.queued s hs
          exact ⟨(hst s).mpr (Or.inr q1), q2, q3⟩
        · intro hd1
          rw [hdn] at hd1
          cases hd1
        · intro d hd1
          rw [hdn] at hd1
          cases hd1
          exact ⟨hchain, hsucc⟩
        · intro hd1
          rw [hdn] at hd1
          cases hd1
      · refine ⟨hinv1, huniq, hchains, hmono, ?_, ?_, ?_, ?_, ?_⟩
        · intro s hs hso
          rcases (hst s).mp hs with rfl | hs
          · exact Or.inl (by rw [hnl]; simp)
          · rcases hinv.fresh s hs hso with h | h
            · exact Or.inl (by rw [hnl]; simp [h])
            · rw [hdone] at h; cases h
        · intro s hs
          rw [hnl] at hs
          rcases List.mem_cons.mp hs with rfl | hs
          · exact ⟨(hst _).mpr (Or.inl rfl), hnew_old, hchain⟩
          · obtain ⟨q1, q2, q3⟩ := hinv.queued s hs
            exact ⟨(hst s).mpr (Or.inr q1), q2, q3⟩
        · intro _ s hs
          rcases (hst s).mp hs with rfl | hs
          · exact hsucc
          · exact hinv.nogoal hdone s hs
        · intro d hd1
          rw [hdn, hdone] at hd1
          cases hd1
        · intro _ s hs hrest dy2 dx2 n2 hd2 hm2
          exact (hkeys _).mpr (Or.inr (hinv.closed hdone s hs hrest dy2 dx2 n2 hd2 hm2))
    · intro hres
      rcases hcase2 with ⟨h, _⟩ | ⟨_, _, _, hdn⟩
      · rw [hres] at h; cases h
      · rw [hdn]; exact hdone

/-! ## Expansion of one state and of a whole frontier -/

theorem queue_moves_inv {b : Board} {R : Nat → Prop} {c0 : List Nat} {r : Nat}
    {old rest : List state_t} {p : state_t}
    (he : Enclosed b R) (hcap : b.w * b.h ≤ 65536) (h0 : ValidState b R (.mk 0 none c0))
    (hp : Chain b c0 p r) :
    ∀ (ns : List (Option state_t)) (g g1 : Globals) (res : Bool),
      (∀ n, some n ∈ ns → ∃ dy dx, (dy, dx) ∈ dirs ∧ move_me b p dy dx = .ok (some n)) →
      RoundInv b c0 r old rest g → g.done = none →
      queue_moves b ns g = .ok (res, g1) →
      RoundInv b c0 r old rest g1 ∧ (∀ k ∈ g.tbl.keys, k ∈ g1.tbl.keys) ∧
        (g1.done = none → ∀ n, some n ∈ ns → n.c ∈ g1.tbl.keys) := by
  intro ns
  induction ns with
  | nil =>
    intro g g1 res _ hinv _ hq
    unfold queue_moves at hq
    cases hq
    exact ⟨hinv, fun k hk => hk, fun _ n hn => by simp at hn⟩
  | cons o ns ih =>
    intro g g1 res hall hinv hdone hq
    unfold queue_moves at hq
    cases hqm : queue_move b g o with
    | fault => rw [hqm] at hq; cases hq
    | timeout => rw [hqm] at hq; cases hq
    | ok x =>
      obtain ⟨r1, g2⟩ := x
      rw [hqm] at hq
      have hstep : RoundInv b c0 r old rest g2 ∧ (∀ k ∈ g.tbl.keys, k ∈ g2.tbl.keys) ∧
          (r1 = false → g2.done = none) ∧ (∀ n, o = some n → n.c ∈ g2.tbl.keys) := by
        cases o with
        | none =>
          simp only [queue_move] at hqm
          cases hqm
          exact ⟨hinv, fun k hk => hk, fun _ => hdone, fun n hn => by cases hn⟩
        | some n =>
          obtain ⟨dy, dx, hd, hm⟩ := hall n (by simp)
          obtain ⟨a1, a2, a3, a4⟩ := queue_move_inv he hcap h0 hinv hdone hp hd hm hqm
          exact ⟨a1, a3, a4, fun n2 hn2 => by cases hn2; exact a2⟩
      obtain ⟨s1, s2, s3, s4⟩ := hstep
      cases r1 with
      | true =>
        simp only at hq
        cases hq
        refine ⟨s1, s2, ?_⟩
        intro hd1 n hn
        exfalso
        cases o with
        | none =>
          simp only [queue_move] at hqm
          cases hqm
        | some n0 =>
          obtain ⟨dy, dx, hd, hm⟩ := hall n0 (by simp)
          have hvp := chain_valid he hcap h0 hp
          have hvn := move_me_valid he hcap hvp hd hm
          obtain ⟨bs1, hn0, _, _⟩ := move_me_succ he hcap hvp hd hm
          have hhash : Hashable b n0 := ⟨hvn.len, Or.inl (by rw [hn0]; rfl)⟩
          obtain ⟨v, _, hcase⟩ := queue_move_spec hinv.tinv hhash hqm
          rcases hcase with ⟨_, h, _⟩ | ⟨_, _, _, ⟨_, _, _, h⟩ | ⟨h, _⟩⟩
          · cases h
          · rw [hd1] at h; cases h
          · cases h
      | false =>
        simp only at hq
        obtain ⟨t1, t2, t3⟩ := ih g2 g1 res (fun n hn => hall n (by simp [hn])) s1 (s3 rfl) hq
        refine ⟨t1, fun k hk => t2 k (s2 k hk), ?_⟩
        intro hd1 n hn
        rcases List.mem_cons.mp hn with h | h
        · exact t2 _ (s4 n h.symm)
        · exact t3 hd1 n h

theorem do_move_eq {b : Board} {g : Globals} {s : state_t} {x : Bool × Globals}
    (h : do_move b g s = .ok x) :
    ∃ n0 n1 n2 n3, move_me b s 0 1 = .ok n0 ∧ move_me b s 0 (-1) = .ok n1 ∧
      move_me b s (-1) 0 = .ok n2 ∧ move_me b s 1 0 = .ok n3 ∧
      queue_moves b [n0, n1, n2, n3] g = .ok x := by
  unfold do_move at h
  cases h0 : move_me b s 0 1 <;> cases h1 : move_me b s 0 (-1) <;>
    cases h2 : move_me b s (-1) 0 <;> cases h3 : move_me b s 1 0 <;>
    simp only [h0, h1, h2, h3] at h <;> first | cases h | exact ⟨_, _, _, _, rfl, rfl, rfl, rfl, h⟩

/-- Expansion of a record of depth `r`: the invariant is kept, and unless
`done` is set every successor is stored afterwards. -/
theorem do_move_inv {b : Board} {R : Nat → Prop} {c0 : List Nat} {r : Nat}
    {old rest : List state_t} {s : state_t} {g g1 : Globals} {res : Bool}
    (he : Enclosed b R) (hcap : b.w * b.h ≤ 65536) (h0 : ValidState b R (.mk 0 none c0))
    (hs : Chain b c0 s r) (hinv : RoundInv b c0 r old rest g) (hdone : g.done = none)
    (hq : do_move b g s = .ok (res, g1)) :
    RoundInv b c0 r old rest g1 ∧ (∀ k ∈ g.tbl.keys, k ∈ g1.tbl.keys) ∧
      (g1.done = none → ∀ (dy dx : Int) (n : state_t), (dy, dx) ∈ dirs →
        move_me b s dy dx = .ok (some n) → n.c ∈ g1.tbl.keys) := by
  obtain ⟨n0, n1, n2, n3, m0, m1, m2, m3, hqs⟩ := do_move_eq hq
  have hall : ∀ n, some n ∈ [n0, n1, n2, n3] →
      ∃ dy dx, (dy, dx) ∈ dirs ∧ move_me b s dy dx = .ok (some n) := by
    intro n hn
    simp only [List.mem_cons, List.mem_singleton, List.not_mem_nil, or_false] at hn
    rcases hn with h | h | h | h
    · exact ⟨0, 1, by simp [dirs], by rw [m0, h]⟩
    · exact ⟨0, -1, by simp [dirs], by rw [m1, h]⟩
    · exact ⟨-1, 0, by simp [dirs], by rw [m2, h]⟩
    · exact ⟨1, 0, by simp [dirs], by rw [m3, h]⟩
  obtain ⟨t1, t2, t3⟩ := queue_moves_inv he hcap h0 hs _ g g1 res hall hinv hdone hqs
  refine ⟨t1, t2, ?_⟩
  intro hd1 dy dx n hd hm
  apply t3 hd1
  rcases dirs_cases hd with ⟨e1, e2⟩ | ⟨e1, e2⟩ | ⟨e1, e2⟩ | ⟨e1, e2⟩ <;> subst e1 <;> subst e2
  · rw [m0] at hm; cases hm; simp
  · rw [m1] at hm; cases hm; simp
  · rw [m2] at hm; cases hm; simp
  · rw [m3] at hm; cases hm; simp

/-- A whole round over the frontier keeps the invariant; when it ends with
`done` unset every record stored before the round has its successors stored. -/
theorem round_inv {b : Board} {R : Nat → Prop} {c0 : List Nat} {r : Nat}
    {old : List state_t}
    (he : Enclosed b R) (hcap : b.w * b.h ≤ 65536) (h0 : ValidState b R (.mk 0 none c0)) :
    ∀ (rest : List state_t) (g g1 : Globals),
      (∀ s ∈ rest, s ∈ old ∧ Chain b c0 s r) → RoundInv b c0 r old rest g →
      round b rest g = .ok g1 → RoundInv b c0 r old [] g1 := by
  intro rest
  induction rest with
  | nil =>
    intro g g1 _ hinv hr
    unfold round at hr
    cases hr
    exact hinv
  | cons s rest ih =>
    intro g g1 hall hinv hr
    unfold round at hr
    cases hdone : g.done with
    | some d =>
      rw [hdone] at hr
      simp only at hr
      cases hr
      exact ⟨hinv.tinv, hinv.uniq, hinv.chain, hinv.mono, hinv.fresh, hinv.queued, hinv.nogoal,
        hinv.goal, fun h => by rw [hdone] at h; cases h⟩
    | none =>
      rw [hdone] at hr
      simp only at hr
      cases hdm : do_move b g s with
      | fault => rw [hdm] at hr; cases hr
      | timeout => rw [hdm] at hr; cases hr
      | ok x =>
        obtain ⟨res, g2⟩ := x
        rw [hdm] at hr
        simp only at hr
        obtain ⟨hs_old, hs_chain⟩ := hall s (by simp)
        obtain ⟨t1, _, t3⟩ := do_move_inv he hcap h0 hs_chain hinv hdone hdm
        apply ih g2 g1 (fun s2 hs2 => hall s2 (by simp [hs2])) _ hr
        refine ⟨t1.tinv, t1.uniq, t1.chain, t1.mono, t1.fresh, t1.queued, t1.nogoal, t1.goal, ?_⟩
        intro hd2 s2 hs2 hrest dy dx n hd hm
        by_cases hc : s2.c = s.c
        · have : s2 = s := t1.uniq s2 (t1.mono s2 hs2) s (t1.mono s hs_old) hc
          subst this
          exact t3 hd2 dy dx n hd hm
        · apply t1.closed hd2 s2 hs2 _ dy dx n hd hm
          simp only [List.map_cons, List.mem_cons, not_or]
          exact ⟨hc, hrest⟩

/-! ## From round to round -/

theorem roundInv_start {b : Board} {c0 : List Nat} {r : Nat} {g : Globals}
    (hl : LevelInv b c0 r g) (hdone : g.done = none) :
    RoundInv b c0 r g.tbl.states g.next_level { g with next_level := [] } := by
  refine ⟨hl.tinv, hl.uniq, hl.chain, fun s hs => hs, fun s hs hso => absurd hs hso, ?_,
    fun _ => hl.nogoal, ?_, fun _ => hl.closed⟩
  · intro s hs
    simp at hs
  · intro d hd
    simp only at hd
    rw [hdone] at hd
    cases hd

/-- A stored record that fails the goal test stands for no configuration
with every box on a goal. -/
theorem not_goal_of_rep {b : Board} {s : state_t} {cfg : Config}
    (hlen : s.c.length = b.n_boxes + 1) (hs : success b s = .ok false) (hrep : Rep b s cfg) :
    ¬ all_on_goals b cfg := by
  intro hall
  obtain ⟨x, hx, hx0⟩ := (success_spec hlen hs).2 rfl
  obtain ⟨g, hg, hg0⟩ := hall x (hrep.2.mem_iff.mp hx)
  rw [hx0] at hg
  cases hg
  exact hg0 rfl

/-- The invariant at the start of the next round, when a round ends with
`done` unset. -/
theorem levelInv_next {b : Board} {R : Nat → Prop} {c0 : List Nat} {r : Nat} {g g1 : Globals}
    (he : Enclosed b R) (hcap : b.w * b.h ≤ 65536) (h0 : ValidState b R (.mk 0 none c0))
    (hl : LevelInv b c0 r g) (hr : RoundInv b c0 r g.tbl.states [] g1)
    (hdone : g1.done = none) : LevelInv b c0 (r + 1) g1 := by
  refine ⟨hr.tinv, hr.uniq, hr.chain, fun s hs => ⟨(hr.queued s hs).1, (hr.queued s hs).2.2⟩,
    hr.nogoal hdone, ?_, ?_⟩
  · intro s hs hnl dy dx n hd hm
    by_cases hso : s ∈ g.tbl.states
    · exact hr.closed hdone s hso (by simp) dy dx n hd hm
    · rcases hr.fresh s hs hso with h | h
      · exact absurd (List.mem_map.mpr ⟨s, h, rfl⟩) hnl
      · rw [hdone] at h; cases h
  · intro letters cfg hlen hrun
    cases hrun with
    | nil =>
      obtain ⟨s, hs, hrep⟩ := hl.complete [] _ (by simp) .nil
      exact ⟨s, hr.mono s hs, hrep⟩
    | snoc ls l cfg1 _ hrun1 hstep hlive =>
      have hlen1 : ls.length ≤ r := by simp at hlen; omega
      obtain ⟨s, hs, hrep⟩ := hl.complete ls cfg1 hlen1 hrun1
      obtain ⟨k, hk⟩ := hl.chain s hs
      have hv := chain_valid he hcap h0 hk
      obtain ⟨dy, dx, n, hd, hm, hrepn⟩ := move_of_rule_step he hcap hv hrep hstep hlive
      have hkey := hr.closed hdone s hs (by simp) dy dx n hd hm
      obtain ⟨s3, hs3, hc3⟩ := mem_keys_iff.mp hkey
      exact ⟨s3, hs3, rep_congr (s := n) hc3.symm hrepn⟩

/-- The search loop: when it ends SOLVED, `done` is a record of some depth
`k` on a chain from the root that passes the goal test, `show_moves`
printed it, and no live run of fewer than `k` letters reaches a
configuration with every box on a goal. -/
theorem main_loop_solved {b : Board} {R : Nat → Prop} {c0 : List Nat} {out : List Char}
    (he : Enclosed b R) (hcap : b.w * b.h ≤ 65536) (h0 : ValidState b R (.mk 0 none c0)) :
    ∀ (fuel : Nat) (g : Globals) (r : Nat), LevelInv b c0 r g → g.done = none →
      main_loop b fuel g = .ok (.solved out) →
      ∃ k d, Chain b c0 d k ∧ success b d = .ok true ∧ show_moves b d (-1) = .ok (out, false) ∧
        ∀ (letters : List Char) (cfg : Config), letters.length < k →
          LiveRun b (config_of b (.mk 0 none c0)) letters cfg → ¬ all_on_goals b cfg := by
  intro fuel
  induction fuel with
  | zero =>
    intro g r _ _ h
    unfold main_loop at h
    cases h
  | succ fuel ih =>
    intro g r hl hdone h
    unfold main_loop at h
    rw [hdone] at h
    simp only at h
    have e : ({ g with next_level := [] } : Globals) = ⟨g.tbl, [], none⟩ := by rw [← hdone]
    cases hrd : round b g.next_level { g with next_level := [] } with
    | fault => rw [e] at hrd; rw [hrd] at h; cases h
    | timeout => rw [e] at hrd; rw [hrd] at h; cases h
    | ok g1 =>
      rw [← e, hrd] at h
      simp only at h
      have hr := round_inv he hcap h0 g.next_level _ g1 (fun s hs => hl.front s hs)
        (roundInv_start hl hdone) hrd
      cases hnl : g1.next_level with
      | nil => rw [hnl] at h; cases h
      | cons a rest =>
        rw [hnl] at h
        simp only at h
        cases hd1 : g1.done with
        | none => exact ih g1 (r + 1) (levelInv_next he hcap h0 hl hr hd1) hd1 h
        | some d =>
          obtain ⟨hchain, hsucc⟩ := hr.goal d hd1
          cases fuel with
          | zero => unfold main_loop at h; cases h
          | succ fuel =>
            unfold main_loop at h
            rw [hd1] at h
            simp only at h
            cases hsh : show_moves b d (-1) with
            | fault => rw [hsh] at h; cases h
            | timeout => rw [hsh] at h; cases h
            | ok x =>
              obtain ⟨o, e⟩ := x
              rw [hsh] at h
              cases e with
              | true => simp only at h; cases h
              | false =>
                simp only at h
                cases h
                refine ⟨r + 1, d, hchain, hsucc, hsh, ?_⟩
                intro letters cfg hlen hrun
                obtain ⟨s, hs, hrep⟩ := hl.complete letters cfg (by omega) hrun
                obtain ⟨k, hk⟩ := hl.chain s hs
                exact not_goal_of_rep (chain_valid he hcap h0 hk).len (hl.nogoal s hs) hrep

theorem liveRun_nil {b : Board} {cfg0 cfg : Config} {letters : List Char}
    (h : LiveRun b cfg0 letters cfg) (hl : letters.length ≤ 0) : cfg = cfg0 := by
  cases h with
  | nil => rfl
  | snoc ls l _ _ _ _ _ => simp at hl

/-- The search from a valid initial record: when it ends SOLVED, as for
`main_loop_solved`. -/
theorem main_search_solved {b : Board} {R : Nat → Prop} {c0 : List Nat} {out : List Char}
    {fuel : Nat}
    (he : Enclosed b R) (hcap : b.w * b.h ≤ 65536) (h0 : ValidState b R (.mk 0 none c0))
    (h : main_search b (.mk 0 none c0) fuel = .ok (.solved out)) :
    ∃ k d, Chain b c0 d k ∧ success b d = .ok true ∧ show_moves b d (-1) = .ok (out, false) ∧
      ∀ (letters : List Char) (cfg : Config), letters.length < k →
        LiveRun b (config_of b (.mk 0 none c0)) letters cfg → ¬ all_on_goals b cfg := by
  unfold main_search at h
  rw [extend_table_first] at h
  simp only at h
  cases hq : queue_move b ⟨⟨List.replicate 1024 [], 1024, 768, 0⟩, [], none⟩
      (some (.mk 0 none c0)) with
  | fault => rw [hq] at h; cases h
  | timeout => rw [hq] at h; cases h
  | ok x =>
    obtain ⟨res, g⟩ := x
    rw [hq] at h
    simp only at h
    have hhash : Hashable b (.mk 0 none c0) := ⟨h0.len, Or.inl rfl⟩
    obtain ⟨v, hv, hcase⟩ := queue_move_spec (g := ⟨⟨List.replicate 1024 [], 1024, 768, 0⟩, [], none⟩)
      (tableInv_first b) hhash hq
    have hempty : ∀ f, f ∉ (Table.mk (List.replicate 1024 []) 1024 768 0).states := by
      intro f hf
      obtain ⟨idx, chain, hc, hfc⟩ := inBucket_flatten.mp hf
      simp only at hc
      rw [List.getElem?_replicate] at hc
      split at hc
      · cases hc; simp at hfc
      · cases hc
    rcases hcase with ⟨hkey, _, _⟩ | ⟨_, hinv1, hst, hcase2⟩
    · obtain ⟨f, hf, _⟩ := mem_keys_iff.mp hkey
      exact absurd hf (hempty f)
    · simp only [prev_mk, c_mk] at hst hcase2
      have hst2 : ∀ f, f ∈ g.tbl.states ↔ f = .mk v none c0 := by
        intro f
        rw [hst f]
        constructor
        · rintro (h | h)
          · exact h
          · exact absurd h (hempty f)
        · exact fun h => Or.inl h
      rcases hcase2 with ⟨_, hsucc, hnl, hdn⟩ | ⟨_, hsucc, hnl, hdn⟩
      · cases fuel with
        | zero => unfold main_loop at h; cases h
        | succ fuel =>
          unfold main_loop at h
          rw [hdn] at h
          simp only at h
          cases hsh : show_moves b (.mk v none c0) (-1) with
          | fault => rw [hsh] at h; cases h
          | timeout => rw [hsh] at h; cases h
          | ok x =>
            obtain ⟨o, e⟩ := x
            rw [hsh] at h
            cases e with
            | true => simp only at h; cases h
            | false =>
              simp only at h
              cases h
              exact ⟨0, _, .root v, hsucc, hsh, fun letters cfg hlen => absurd hlen (by omega)⟩
      · have hl : LevelInv b c0 0 g := by
          refine ⟨hinv1, ?_, ?_, ?_, ?_, ?_, ?_⟩
          · intro s hs s2 hs2 _
            rw [(hst2 s).mp hs, (hst2 s2).mp hs2]
          · intro s hs
            rw [(hst2 s).mp hs]
            exact ⟨0, .root v⟩
          · intro s hs
            rw [hnl] at hs
            simp only [List.mem_singleton] at hs
            subst hs
            exact ⟨(hst2 _).mpr rfl, .root v⟩
          · intro s hs
            rw [(hst2 s).mp hs]
            exact hsucc
          · intro s hs hn
            exfalso
            apply hn
            rw [hnl, (hst2 s).mp hs]
            simp
          · intro letters cfg hlen hrun
            have := liveRun_nil hrun hlen
            subst this
            exact ⟨_, (hst2 _).mpr rfl, ⟨rfl, List.Perm.refl _⟩⟩
        exact main_loop_solved he hcap h0 fuel g 0 hl hdn h

/-! ## Dead cells stay dead: legal runs to a goal configuration are live runs -/

/-- The ways a rule step can succeed. -/
theorem rule_step_cases {b : Board} {cfg cfg1 : Config} {l : Char}
    (h : rule_step b cfg l = some cfg1) :
    ∃ (dy dx : Int) (push : Bool), letter_move l = some (dy, dx, push) ∧
      is_floor b ((cfg.player : Int) / b.w + dy) ((cfg.player : Int) % b.w + dx) = true ∧
      cfg1.player = ((((cfg.player : Int) / b.w + dy) * b.w +
        ((cfg.player : Int) % b.w + dx))).toNat ∧
      ((push = false ∧ cfg1.boxes = cfg.boxes) ∨
       (push = true ∧
        is_floor b ((cfg.player : Int) / b.w + dy + dy) ((cfg.player : Int) % b.w + dx + dx)
          = true ∧
        ((((cfg.player : Int) / b.w + dy) * b.w +
          ((cfg.player : Int) % b.w + dx))).toNat ∈ cfg.boxes ∧
        cfg1.boxes = cfg.boxes.map (fun c =>
          if c = ((((cfg.player : Int) / b.w + dy) * b.w +
            ((cfg.player : Int) % b.w + dx))).toNat
          then ((((cfg.player : Int) / b.w + dy + dy) * b.w +
            ((cfg.player : Int) % b.w + dx + dx))).toNat else c))) := by
  unfold rule_step at h
  cases hlm : letter_move l with
  | none => rw [hlm] at h; cases h
  | some t =>
    obtain ⟨dy, dx, push⟩ := t
    rw [hlm] at h
    simp only at h
    refine ⟨dy, dx, push, rfl, ?_⟩
    split_ifs at h with h1 h2 h3 h4
    · cases h
      exact ⟨h1, rfl, Or.inr ⟨h2, h3.2.1, h3.1, rfl⟩⟩
    · cases h
      exact ⟨h1, rfl, Or.inl ⟨by simpa using h2, rfl⟩⟩

theorem step_player_ok {b : Board} {cfg cfg1 : Config} {l : Char}
    (h : rule_step b cfg l = some cfg1) : player_ok b cfg1 := by
  obtain ⟨dy, dx, push, _, hfl, hp, _⟩ := rule_step_cases h
  have hf := (is_floor_iff b _ _).mp hfl
  obtain ⟨⟨a1, a2, a3, a4⟩, _⟩ := hf
  have hw : 0 < b.w := by omega
  unfold player_ok
  rw [hp, Int.toNat_of_nonneg (cell_nonneg a1 a3 hw)]
  have hdm := div_mod_of_row_col (w := b.w) (y := (cfg.player : Int) / b.w + dy) a3 a4
  rw [hdm.1, hdm.2]
  exact hfl

/-- A box pushed onto a live cell came from a live cell. -/
theorem step_back_live {b : Board} {cfg cfg1 : Config} {l : Char} (hlc : LiveClosed b)
    (hp : player_ok b cfg) (h : rule_step b cfg l = some cfg1) (hlive : boxes_live b cfg1) :
    boxes_live b cfg := by
  obtain ⟨dy, dx, push, hlm, hfl, _, hcase⟩ := rule_step_cases h
  rcases hcase with ⟨_, hb⟩ | ⟨_, hfl2, hmem, hb⟩
  · intro c hc
    exact hlive c (hb ▸ hc)
  · have hd := dirs_cases (letter_move_dirs hlm)
    obtain ⟨⟨p1, p2, p3, p4⟩, vp, hvp, hvpne⟩ := (is_floor_iff b _ _).mp hp
    obtain ⟨⟨a1, a2, a3, a4⟩, v1, hv1, hv1ne⟩ := (is_floor_iff b _ _).mp hfl
    obtain ⟨⟨b1, b2, b3, b4⟩, v2, hv2, hv2ne⟩ := (is_floor_iff b _ _).mp hfl2
    have hw : 0 < b.w := by omega
    have hsum : (cfg.player : Int) / b.w * b.w + (cfg.player : Int) % b.w = cfg.player :=
      Int.ediv_add_emod' _ _
    rw [hsum] at hvp
    have hc2lo := cell_nonneg b1 b3 hw
    have hc1lo := cell_nonneg a1 a3 hw
    have hdm2 := div_mod_of_row_col (w := b.w) (y := (cfg.player : Int) / b.w + dy + dy) b3 b4
    have hl2 : ∃ l2, rd b.live ((((cfg.player : Int) / b.w + dy + dy) * b.w +
        ((cfg.player : Int) % b.w + dx + dx))) = .ok l2 ∧ l2 ≠ 0 := by
      have := hlive ((((cfg.player : Int) / b.w + dy + dy) * b.w +
        ((cfg.player : Int) % b.w + dx + dx))).toNat (by
          rw [hb]
          exact List.mem_map.mpr ⟨_, hmem, by simp⟩)
      rw [Int.toNat_of_nonneg hc2lo] at this
      exact this
    obtain ⟨l2, hl2a, hl2b⟩ := hl2
    have hl1 : ∃ l1, rd b.live ((((cfg.player : Int) / b.w + dy) * b.w +
        ((cfg.player : Int) % b.w + dx))) = .ok l1 ∧ l1 ≠ 0 := by
      have htd := Int.tdiv_eq_ediv hc2lo (le_of_lt hw)
      have htm := Int.tmod_eq_emod hc2lo (le_of_lt hw)
      rw [hdm2.1] at htd
      rw [hdm2.2] at htm
      rcases hd with ⟨e1, e2⟩ | ⟨e1, e2⟩ | ⟨e1, e2⟩ | ⟨e1, e2⟩ <;> subst e1 <;> subst e2
      · have := (hlc.closed _ l2 hl2a hl2b).left (by rw [htm]; omega)
          ⟨v1, by rw [← hv1]; congr 1; ring, hv1ne⟩ ⟨vp, by rw [← hvp]; congr 1; linear_combination hsum, hvpne⟩
        obtain ⟨l1, g1, g2⟩ := this
        exact ⟨l1, by rw [← g1]; congr 1; ring, g2⟩
      · have := (hlc.closed _ l2 hl2a hl2b).right (by rw [htm]; omega)
          ⟨v1, by rw [← hv1]; congr 1; ring, hv1ne⟩ ⟨vp, by rw [← hvp]; congr 1; linear_combination hsum, hvpne⟩
        obtain ⟨l1, g1, g2⟩ := this
        exact ⟨l1, by rw [← g1]; congr 1; ring, g2⟩
      · have := (hlc.closed _ l2 hl2a hl2b).down (by rw [htd]; omega)
          ⟨v1, by rw [← hv1]; congr 1; ring, hv1ne⟩
          ⟨vp, by rw [← hvp]; congr 1; linear_combination hsum, hvpne⟩
        obtain ⟨l1, g1, g2⟩ := this
        exact ⟨l1, by rw [← g1]; congr 1; ring, g2⟩
      · have := (hlc.closed _ l2 hl2a hl2b).up (by rw [htd]; omega)
          ⟨v1, by rw [← hv1]; congr 1; ring, hv1ne⟩
          ⟨vp, by rw [← hvp]; congr 1; linear_combination hsum, hvpne⟩
        obtain ⟨l1, g1, g2⟩ := this
        exact ⟨l1, by rw [← g1]; congr 1; ring, g2⟩
    intro c hc
    by_cases hc1 : c = ((((cfg.player : Int) / b.w + dy) * b.w +
        ((cfg.player : Int) % b.w + dx))).toNat
    · rw [hc1, Int.toNat_of_nonneg hc1lo]
      exact hl1
    · apply hlive c
      rw [hb]
      exact List.mem_map.mpr ⟨c, hc, by simp [hc1]⟩

theorem replay_player_ok {b : Board} :
    ∀ (letters : List Char) (cfg0 cfg : Config), player_ok b cfg0 →
      replay b cfg0 letters = some cfg → player_ok b cfg := by
  intro letters
  induction letters with
  | nil =>
    intro cfg0 cfg hp h
    simp only [replay] at h
    cases h
    exact hp
  | cons l ls ih =>
    intro cfg0 cfg _ h
    simp only [replay] at h
    cases hs : rule_step b cfg0 l with
    | none => rw [hs] at h; cases h
    | some cfg1 =>
      rw [hs] at h
      exact ih cfg1 cfg (step_player_ok hs) h

/-- A legal run to a configuration with all boxes on live cells is a live run. -/
theorem liveRun_of_replay {b : Board} (hlc : LiveClosed b) :
    ∀ (letters : List Char) (cfg0 cfg : Config), player_ok b cfg0 →
      replay b cfg0 letters = some cfg → boxes_live b cfg → LiveRun b cfg0 letters cfg := by
  intro letters
  induction letters using List.reverseRecOn with
  | nil =>
    intro cfg0 cfg _ h _
    simp only [replay] at h
    cases h
    exact .nil
  | append_singleton ls l ih =>
    intro cfg0 cfg hp h hlive
    rw [replay_append] at h
    cases hr : replay b cfg0 ls with
    | none => rw [hr] at h; cases h
    | some cfg1 =>
      rw [hr] at h
      simp only [Option.bind, replay] at h
      cases hs : rule_step b cfg1 l with
      | none => rw [hs] at h; cases h
      | some cfg2 =>
        rw [hs] at h
        cases h
        have hp1 := replay_player_ok ls cfg0 cfg1 hp hr
        have hlive1 := step_back_live hlc hp1 hs hlive
        exact .snoc ls l cfg1 _ (ih cfg0 cfg1 hp hr hlive1) hs hlive

/-! ## The flood fill -/

/-- One level of `mark_live`, with its four conditional calls as `mark_branch`. -/
theorem mark_live_succ (fuel : Nat) (b : Board) (c : Int) :
    mark_live (fuel + 1) b c =
      if b.w = 0 then .fault else
      match rd b.live c with
      | .fault => .fault
      | .timeout => .timeout
      | .ok l =>
        if l ≠ 0 then .ok b else
        match wr b.live c 1 with
        | .fault => .fault
        | .timeout => .timeout
        | .ok live1 =>
          match mark_branch (mark_live fuel) (decide (Int.tdiv c b.w > 1)) (c - b.w)
              (c - b.w * 2) (c - b.w) { b with live := live1 } with
          | .fault => .fault
          | .timeout => .timeout
          | .ok b2 =>
            match mark_branch (mark_live fuel) (decide (Int.tdiv c b.w < b.h - 2)) (c + b.w)
                (c + b.w * 2) (c + b.w) b2 with
            | .fault => .fault
            | .timeout => .timeout
            | .ok b3 =>
              match mark_branch (mark_live fuel) (decide (Int.tmod c b.w > 1)) (c - 1)
                  (c - 2) (c - 1) b3 with
              | .fault => .fault
              | .timeout => .timeout
              | .ok b4 =>
                mark_branch (mark_live fuel) (decide (Int.tmod c b.w < b.w - 2)) (c + 1)
                  (c + 2) (c + 1) b4 := by
  rfl

theorem marked_refl (skip : Int → Prop) (b : Board) : Marked skip b b :=
  ⟨rfl, rfl, rfl, rfl, rfl, rfl, fun _ l h hl => ⟨l, h, hl⟩, fun i l1 h1 hl1 h0 _ => by
    rw [h0] at h1; cases h1; exact absurd rfl hl1⟩

theorem closedAt_mono {skip : Int → Prop} {b b1 : Board} (hm : Marked skip b b1) {c : Int}
    (hc : ClosedAt b c) : ClosedAt b1 c := by
  refine ⟨?_, ?_, ?_, ?_⟩
  · intro h1 h2 h3
    rw [hm.w_eq] at h1
    rw [hm.w_eq, hm.board_eq] at h2 h3
    obtain ⟨l, g1, g2⟩ := hc.up h1 h2 h3
    rw [hm.w_eq]
    exact hm.mono _ l g1 g2
  · intro h1 h2 h3
    rw [hm.w_eq, hm.h_eq] at h1
    rw [hm.w_eq, hm.board_eq] at h2 h3
    obtain ⟨l, g1, g2⟩ := hc.down h1 h2 h3
    rw [hm.w_eq]
    exact hm.mono _ l g1 g2
  · intro h1 h2 h3
    rw [hm.w_eq] at h1
    rw [hm.board_eq] at h2 h3
    obtain ⟨l, g1, g2⟩ := hc.left h1 h2 h3
    exact hm.mono _ l g1 g2
  · intro h1 h2 h3
    rw [hm.w_eq] at h1
    rw [hm.board_eq] at h2 h3
    obtain ⟨l, g1, g2⟩ := hc.right h1 h2 h3
    exact hm.mono _ l g1 g2

theorem rd_same_length {a a1 : List Nat} (h : a1.length = a.length) {i : Int} {v : Nat}
    (hr : rd a1 i = .ok v) : ∃ v0, rd a i = .ok v0 := by
  obtain ⟨h0, h1⟩ := rd_lt hr
  exact rd_sized (n := (a.length : Int)) rfl h0 (by omega)

theorem marked_trans {skip : Int → Prop} {b b1 b2 : Board} (h1 : Marked skip b b1)
    (h2 : Marked (fun _ => False) b1 b2) : Marked skip b b2 := by
  refine ⟨h2.w_eq.trans h1.w_eq, h2.h_eq.trans h1.h_eq, h2.n_eq.trans h1.n_eq,
    h2.board_eq.trans h1.board_eq, h2.goals_eq.trans h1.goals_eq, h2.len_eq.trans h1.len_eq,
    ?_, ?_⟩
  · intro i l hl hl0
    obtain ⟨l1, g1, g2⟩ := h1.mono i l hl hl0
    exact h2.mono i l1 g1 g2
  · intro i l2 hl2 hl20 h0 hskip
    obtain ⟨x, hx⟩ := rd_same_length h2.len_eq hl2
    by_cases hx0 : x = 0
    · subst hx0
      exact h2.fresh i l2 hl2 hl20 hx (fun h => h)
    · exact closedAt_mono h2 (h1.fresh i x hx hx0 h0 hskip)

/-- What a conditional call of `mark_live` does, given what the recursive
call does. -/
theorem mark_branch_spec {rec : Board → Int → Res Board}
    (hrec : ∀ (b b1 : Board) (c : Int), rec b c = .ok b1 →
      Marked (fun _ => False) b b1 ∧ ∃ l, rd b1.live c = .ok l ∧ l ≠ 0)
    {cond : Bool} {near far next : Int} {b b1 : Board}
    (h : mark_branch rec cond near far next b = .ok b1) :
    Marked (fun _ => False) b b1 ∧
      (cond = true → (∃ v, rd b.board near = .ok v ∧ v ≠ wall) →
        (∃ v, rd b.board far = .ok v ∧ v ≠ wall) → ∃ l, rd b1.live next = .ok l ∧ l ≠ 0) := by
  unfold mark_branch at h
  cases cond with
  | false =>
    simp only [Bool.false_eq_true, if_false] at h
    cases h
    exact ⟨marked_refl _ _, fun h => by cases h⟩
  | true =>
    simp only [if_true] at h
    cases hn : rd b.board near with
    | fault => rw [hn] at h; cases h
    | timeout => rw [hn] at h; cases h
    | ok v1 =>
      rw [hn] at h
      simp only at h
      by_cases hv1 : v1 = wall
      · simp only [hv1, if_true] at h
        cases h
        refine ⟨marked_refl _ _, ?_⟩
        rintro _ ⟨v, hv, hvne⟩ _
        cases hv
        exact absurd hv1 hvne
      · simp only [hv1, if_false] at h
        cases hf : rd b.board far with
        | fault => rw [hf] at h; cases h
        | timeout => rw [hf] at h; cases h
        | ok v2 =>
          rw [hf] at h
          simp only at h
          by_cases hv2 : v2 = wall
          · simp only [hv2, if_true] at h
            cases h
            refine ⟨marked_refl _ _, ?_⟩
            rintro _ _ ⟨v, hv, hvne⟩
            cases hv
            exact absurd hv2 hvne
          · simp only [hv2, if_false] at h
            obtain ⟨g1, g2⟩ := hrec b b1 next h
            exact ⟨g1, fun _ _ _ => g2⟩

theorem rd_set_self {a : List Nat} {i : Int} {v : Nat} (h0 : 0 ≤ i) (h1 : i.toNat < a.length) :
    rd (a.set i.toNat v) i = .ok v := by
  rw [rd_eq_ok]
  exact ⟨h0, by simp [List.getElem?_set_self h1]⟩

theorem rd_set_other {a : List Nat} {i j : Int} {v : Nat} (h0 : 0 ≤ i) (hij : j ≠ i) :
    rd (a.set i.toNat v) j = rd a j := by
  unfold rd
  by_cases hj : 0 ≤ j
  · simp only [hj, if_true]
    have : i.toNat ≠ j.toNat := by omega
    rw [List.getElem?_set_ne this]
  · simp only [hj, if_false]

/-- The flood fill from `c`: the board is kept, live cells stay live, `c` is
live, and every cell that became live has had its four steps taken. -/
theorem mark_live_spec :
    ∀ (fuel : Nat) (b b1 : Board) (c : Int), mark_live fuel b c = .ok b1 →
      Marked (fun _ => False) b b1 ∧ ∃ l, rd b1.live c = .ok l ∧ l ≠ 0 := by
  intro fuel
  induction fuel with
  | zero =>
    intro b b1 c h
    unfold mark_live at h
    cases h
  | succ fuel ih =>
    intro b b1 c h
    rw [mark_live_succ] at h
    by_cases hw : b.w = 0
    · simp only [hw, if_true] at h
      cases h
    simp only [hw, if_false] at h
    cases hl : rd b.live c with
    | fault => rw [hl] at h; cases h
    | timeout => rw [hl] at h; cases h
    | ok l =>
      rw [hl] at h
      simp only at h
      by_cases hl0 : l = 0
      swap
      · simp only [ne_eq, hl0, not_false_eq_true, if_true] at h
        cases h
        exact ⟨marked_refl _ _, l, hl, hl0⟩
      subst hl0
      simp only [ne_eq, not_true_eq_false, if_false] at h
      obtain ⟨hc0, hclt⟩ := rd_lt hl
      have hwr : wr b.live c 1 = .ok (b.live.set c.toNat 1) := by
        unfold wr
        have : 0 ≤ c ∧ c.toNat < b.live.length := ⟨hc0, by omega⟩
        simp only [this, and_self, if_true]
      rw [hwr] at h
      simp only at h
      have hm1 : Marked (fun i => i = c) b { b with live := b.live.set c.toNat 1 } := by
        refine ⟨rfl, rfl, rfl, rfl, rfl, by simp, ?_, ?_⟩
        · intro i x hx hx0
          by_cases hic : i = c
          · subst hic
            exact ⟨1, rd_set_self hc0 (by omega), by decide⟩
          · exact ⟨x, by simp only; rw [rd_set_other hc0 hic]; exact hx, hx0⟩
        · intro i x hx hx0 hb0 hskip
          exfalso
          simp only at hx
          rw [rd_set_other hc0 hskip, hb0] at hx
          cases hx
          exact hx0 rfl
      cases hb2 : mark_branch (mark_live fuel) (decide (Int.tdiv c b.w > 1)) (c - b.w)
          (c - b.w * 2) (c - b.w) { b with live := b.live.set c.toNat 1 } with
      | fault => rw [hb2] at h; cases h
      | timeout => rw [hb2] at h; cases h
      | ok b2 =>
        rw [hb2] at h
        simp only at h
        cases hb3 : mark_branch (mark_live fuel) (decide (Int.tdiv c b.w < b.h - 2)) (c + b.w)
            (c + b.w * 2) (c + b.w) b2 with
        | fault => rw [hb3] at h; cases h
        | timeout => rw [hb3] at h; cases h
        | ok b3 =>
          rw [hb3] at h
          simp only at h
          cases hb4 : mark_branch (mark_live fuel) (decide (Int.tmod c b.w > 1)) (c - 1)
              (c - 2) (c - 1) b3 with
          | fault => rw [hb4] at h; cases h
          | timeout => rw [hb4] at h; cases h
          | ok b4 =>
            rw [hb4] at h
            simp only at h
            obtain ⟨m2, g2⟩ := mark_branch_spec ih hb2
            obtain ⟨m3, g3⟩ := mark_branch_spec ih hb3
            obtain ⟨m4, g4⟩ := mark_branch_spec ih hb4
            obtain ⟨m5, g5⟩ := mark_branch_spec ih h
            have n2 := marked_trans hm1 m2
            have n3 := marked_trans n2 m3
            have n4 := marked_trans n3 m4
            have n5 := marked_trans n4 m5
            have hlive_c : ∃ l, rd b1.live c = .ok l ∧ l ≠ 0 := by
              have : rd ({ b with live := b.live.set c.toNat 1 } : Board).live c = .ok 1 :=
                rd_set_self hc0 (by omega)
              obtain ⟨l2, e1, e2⟩ := m2.mono c 1 this (by decide)
              obtain ⟨l3, e3, e4⟩ := m3.mono c l2 e1 e2
              obtain ⟨l4, e5, e6⟩ := m4.mono c l3 e3 e4
              exact m5.mono c l4 e5 e6
            refine ⟨⟨n5.w_eq, n5.h_eq, n5.n_eq, n5.board_eq, n5.goals_eq, n5.len_eq, n5.mono, ?_⟩,
              hlive_c⟩
            intro i l1 hl1 hl10 hb0 _
            by_cases hic : i = c
            swap
            · exact n5.fresh i l1 hl1 hl10 hb0 hic
            subst hic
            refine ⟨?_, ?_, ?_, ?_⟩
            · intro h1 h2 h3
              rw [n5.w_eq] at h1
              rw [n5.w_eq, n5.board_eq] at h2 h3
              rw [n5.w_eq]
              obtain ⟨l2, e1, e2⟩ := g2 (by simpa using h1) h2 h3
              obtain ⟨l3, e3, e4⟩ := m3.mono _ l2 e1 e2
              obtain ⟨l4, e5, e6⟩ := m4.mono _ l3 e3 e4
              exact m5.mono _ l4 e5 e6
            · intro h1 h2 h3
              rw [n5.w_eq, n5.h_eq] at h1
              rw [n5.w_eq, n5.board_eq, ← n2.board_eq] at h2 h3
              rw [n5.w_eq]
              obtain ⟨l3, e3, e4⟩ := g3 (by simpa using h1) h2 h3
              obtain ⟨l4, e5, e6⟩ := m4.mono _ l3 e3 e4
              exact m5.mono _ l4 e5 e6
            · intro h1 h2 h3
              rw [n5.w_eq] at h1
              rw [n5.board_eq, ← n3.board_eq] at h2 h3
              obtain ⟨l4, e5, e6⟩ := g4 (by simpa using h1) h2 h3
              exact m5.mono _ l4 e5 e6
            · intro h1 h2 h3
              rw [n5.w_eq] at h1
              rw [n5.board_eq, ← n4.board_eq] at h2 h3
              exact g5 (by simpa using h1) h2 h3

/-! ## The board that `parse_board` builds -/

theorem wr_length {a a1 : List Nat} {i : Int} {v : Nat} (h : wr a i v = .ok a1) :
    a1.length = a.length := by
  unfold wr at h
  split_ifs at h
  cases h
  simp

/-- The first loop of `parse_board` leaves `w`, `h`, `live` and the length
of `goals` as they are. -/
theorem parse_cells_keeps :
    ∀ (s : List Char) (i : Nat) (b b1 : Board), parse_cells s i b = .ok b1 →
      b1.w = b.w ∧ b1.h = b.h ∧ b1.live = b.live ∧ b1.goals.length = b.goals.length := by
  intro s
  induction s with
  | nil =>
    intro i b b1 h
    unfold parse_cells at h
    cases h
    exact ⟨rfl, rfl, rfl, rfl⟩
  | cons ch rest ih =>
    intro i b b1 h
    unfold parse_cells at h
    split_ifs at h
    · cases h
      exact ⟨rfl, rfl, rfl, rfl⟩
    · cases hw : wr b.board (i : Int) wall with
      | fault => rw [hw] at h; cases h
      | timeout => rw [hw] at h; cases h
      | ok bd =>
        rw [hw] at h
        simp only at h
        obtain ⟨a1, a2, a3, a4⟩ := ih _ _ _ h
        exact ⟨a1, a2, a3, a4⟩
    · cases hw : wr b.goals (i : Int) 1 with
      | fault => rw [hw] at h; cases h
      | timeout => rw [hw] at h; cases h
      | ok gl =>
        rw [hw] at h
        simp only at h
        obtain ⟨a1, a2, a3, a4⟩ := ih _ _ _ h
        exact ⟨a1, a2, a3, by rw [a4]; exact wr_length hw⟩
    · cases hw : wr b.goals (i : Int) 1 with
      | fault => rw [hw] at h; cases h
      | timeout => rw [hw] at h; cases h
      | ok gl =>
        rw [hw] at h
        simp only at h
        obtain ⟨a1, a2, a3, a4⟩ := ih _ _ _ h
        exact ⟨a1, a2, a3, by rw [a4]; exact wr_length hw⟩
    · obtain ⟨a1, a2, a3, a4⟩ := ih _ _ _ h
      exact ⟨a1, a2, a3, a4⟩
    · exact ih _ _ _ h

theorem allClosed_marked {b b1 : Board} (h : AllClosed b) (hm : Marked (fun _ => False) b b1) :
    AllClosed b1 := by
  intro c l hl hl0
  obtain ⟨x, hx⟩ := rd_same_length hm.len_eq hl
  by_cases hx0 : x = 0
  · subst hx0
    exact hm.fresh c l hl hl0 hx (fun h => h)
  · exact closedAt_mono hm (h c x hx hx0)

/-- The second loop of `parse_board` keeps the board, takes all steps of
every cell it makes live and makes every goal cell it passes live. -/
theorem place_loop_spec (s : List Char) (fuel : Nat) :
    ∀ (k i j : Nat) (b : Board) (c : List Nat) (b1 : Board) (c1 : List Nat),
      place_loop s fuel k i j b c = .ok (b1, c1) → AllClosed b →
      Marked (fun _ => False) b b1 ∧ AllClosed b1 ∧
        ∀ (m : Nat) (g : Nat), i ≤ m → m < i + k → rd b.goals (m : Int) = .ok g → g ≠ 0 →
          ∃ l, rd b1.live (m : Int) = .ok l ∧ l ≠ 0 := by
  intro k
  induction k with
  | zero =>
    intro i j b c b1 c1 h hc
    unfold place_loop at h
    cases h
    exact ⟨marked_refl _ _, hc, fun m g h1 h2 => by omega⟩
  | succ k ih =>
    intro i j b c b1 c1 h hc
    unfold place_loop at h
    cases hg : rd b.goals (i : Int) with
    | fault => rw [hg] at h; cases h
    | timeout => rw [hg] at h; cases h
    | ok g =>
      rw [hg] at h
      simp only at h
      cases hml : (if g ≠ 0 then mark_live fuel b (i : Int) else Res.ok b) with
      | fault => rw [hml] at h; cases h
      | timeout => rw [hml] at h; cases h
      | ok b2 =>
        rw [hml] at h
        simp only at h
        have hstep : Marked (fun _ => False) b b2 ∧
            (g ≠ 0 → ∃ l, rd b2.live (i : Int) = .ok l ∧ l ≠ 0) := by
          by_cases hg0 : g = 0
          · simp only [hg0, ne_eq, not_true_eq_false, if_false] at hml
            cases hml
            exact ⟨marked_refl _ _, fun h => absurd hg0 h⟩
          · simp only [ne_eq, hg0, not_false_eq_true, if_true] at hml
            obtain ⟨m1, m2⟩ := mark_live_spec fuel b b2 _ hml
            exact ⟨m1, fun _ => m2⟩
        obtain ⟨hm2, hlive2⟩ := hstep
        have hc2 := allClosed_marked hc hm2
        have hrest : ∃ j2 c2, place_loop s fuel k (i + 1) j2 b2 c2 = .ok (b1, c1) := by
          cases ht : rd_text s i with
          | fault => rw [ht] at h; cases h
          | timeout => rw [ht] at h; cases h
          | ok ch =>
            rw [ht] at h
            simp only at h
            split_ifs at h
            · cases hw : wr c ((j : Int) + 1) (to_cidx (i : Int)) with
              | fault => rw [hw] at h; cases h
              | timeout => rw [hw] at h; cases h
              | ok c2 => rw [hw] at h; exact ⟨_, _, h⟩
            · cases hw : wr c 0 (to_cidx (i : Int)) with
              | fault => rw [hw] at h; cases h
              | timeout => rw [hw] at h; cases h
              | ok c2 => rw [hw] at h; exact ⟨_, _, h⟩
            · exact ⟨_, _, h⟩
        obtain ⟨j2, c2, hpl⟩ := hrest
        obtain ⟨m3, hc3, hgoal3⟩ := ih (i + 1) j2 b2 c2 b1 c1 hpl hc2
        refine ⟨marked_trans hm2 m3, hc3, ?_⟩
        intro m g1 h1 h2 hgm hg1
        by_cases hmi : m = i
        · subst hmi
          rw [hg] at hgm
          cases hgm
          obtain ⟨l, e1, e2⟩ := hlive2 hg1
          exact m3.mono _ l e1 e2
        · exact hgoal3 m g1 (by omega) (by omega) (by rw [hm2.goals_eq]; exact hgm) hg1

theorem rd_replicate_zero {n : Nat} {c : Int} {l : Nat}
    (h : rd (List.replicate n 0) c = .ok l) : l = 0 := by
  rw [rd_eq_ok] at h
  obtain ⟨_, h⟩ := h
  rw [List.getElem?_replicate] at h
  split at h
  · cases h; rfl
  · cases h

/-- The board of `parse_board`: `live` holds every goal and is closed under
the steps of `mark_live`; the initial record is fresh and has no parent. -/
theorem parse_board_spec {w h : Int} {s : List Char} {b : Board} {s0 : state_t}
    (hp : parse_board w h s = .ok (b, s0)) :
    LiveClosed b ∧ s0 = .mk 0 none s0.c ∧ b.w = w ∧ b.h = h := by
  unfold parse_board at hp
  split_ifs at hp
  simp only at hp
  cases hpc : parse_cells s 0 ⟨w, h, 0, List.replicate (w * h).toNat 0,
      List.replicate (w * h).toNat 0, List.replicate (w * h).toNat 0⟩ with
  | fault => rw [hpc] at hp; cases hp
  | timeout => rw [hpc] at hp; cases hp
  | ok b1 =>
    rw [hpc] at hp
    simp only at hp
    cases hpl : place_loop s ((w * h).toNat + 1) (w * h).toNat 0 0 b1
        (List.replicate (b1.n_boxes + 1) 0) with
    | fault => rw [hpl] at hp; cases hp
    | timeout => rw [hpl] at hp; cases hp
    | ok x =>
      obtain ⟨b2, c⟩ := x
      rw [hpl] at hp
      simp only at hp
      cases hp
      obtain ⟨k1, k2, k3, k4⟩ := parse_cells_keeps s 0 _ b1 hpc
      simp only at k1 k2 k3 k4
      have hc1 : AllClosed b1 := by
        intro c l hl hl0
        rw [k3] at hl
        exact absurd (rd_replicate_zero hl) hl0
      obtain ⟨m, hc2, hgoals⟩ := place_loop_spec s _ _ 0 0 b1 _ b _ hpl hc1
      refine ⟨⟨?_, hc2⟩, rfl, by rw [m.w_eq, k1], by rw [m.h_eq, k2]⟩
      intro c g hg hg0
      rw [m.goals_eq] at hg
      have hlt := (rd_lt hg).2
      rw [k4, List.length_replicate] at hlt
      exact hgoals c g (by omega) (by omega) hg hg0

/-! ## Records made during the search -/

theorem move_me_len {b : Board} {s n : state_t} {dy dx : Int}
    (hlen : s.c.length = b.n_boxes + 1) (hm : move_me b s dy dx = .ok (some n)) :
    n.c.length = b.n_boxes + 1 := by
  have hw : b.w ≠ 0 := by
    intro h
    unfold move_me at hm
    simp [h] at hm
  have hcase := move_me_case b s dy dx hw hlen
  rw [hm] at hcase
  have hbl := boxes_length hlen
  cases hcase with
  | walk v bs1 h h1 hv hfree hperm => simp [hperm.length_eq, hbl]
  | push v v2 l j x bs1 h h1 hv hj hx hfirst h2 hv2 h3 hl hfree hperm =>
    simp [hperm.length_eq, hbl]

/-- Every record on a chain from a root with all boxes on live cells has
all boxes on live cells. -/
theorem chain_boxes_live {b : Board} {c0 : List Nat} (hcap : b.live.length ≤ 65536)
    (hlen : c0.length = b.n_boxes + 1) (hroot : BoxesLive b (.mk 0 none c0))
    {s : state_t} {k : Nat} (hc : Chain b c0 s k) :
    BoxesLive b s ∧ s.c.length = b.n_boxes + 1 := by
  induction hc with
  | root h => exact ⟨hroot, hlen⟩
  | step h p n k dy dx _ hd hm ih =>
    have h1 := move_me_boxes_live hcap ih.2 ih.1 hm
    have h2 := move_me_len ih.2 hm
    exact ⟨h1, h2⟩

theorem states_first_empty (f : state_t) :
    f ∉ (Table.mk (List.replicate 1024 []) 1024 768 0).states := by
  intro hf
  obtain ⟨idx, chain, hc, hfc⟩ := inBucket_flatten.mp hf
  simp only at hc
  rw [List.getElem?_replicate] at hc
  split at hc
  · cases hc; simp at hfc
  · cases hc

/-- After `queue_move` of the root on the fresh table every stored record
is the root, and the invariant of round 0 holds when `done` is unset. -/
theorem init_inv {b : Board} {R : Nat → Prop} {c0 : List Nat} {res : Bool} {g : Globals}
    (h0 : ValidState b R (.mk 0 none c0))
    (hq : queue_move b ⟨⟨List.replicate 1024 [], 1024, 768, 0⟩, [], none⟩
      (some (.mk 0 none c0)) = .ok (res, g)) :
    (∀ s ∈ g.tbl.states, ∃ k, Chain b c0 s k) ∧ (g.done = none → LevelInv b c0 0 g) := by
  have hhash : Hashable b (.mk 0 none c0) := ⟨h0.len, Or.inl rfl⟩
  obtain ⟨v, hv, hcase⟩ := queue_move_spec
    (g := ⟨⟨List.replicate 1024 [], 1024, 768, 0⟩, [], none⟩) (tableInv_first b) hhash hq
  rcases hcase with ⟨hkey, _, _⟩ | ⟨_, hinv1, hst, hcase2⟩
  · obtain ⟨f, hf, _⟩ := mem_keys_iff.mp hkey
    exact absurd hf (states_first_empty f)
  · simp only [prev_mk, c_mk] at hst hcase2
    have hst2 : ∀ f, f ∈ g.tbl.states ↔ f = .mk v none c0 := by
      intro f
      rw [hst f]
      constructor
      · rintro (h | h)
        · exact h
        · exact absurd h (states_first_empty f)
      · exact fun h => Or.inl h
    refine ⟨fun s hs => by rw [(hst2 s).mp hs]; exact ⟨0, .root v⟩, ?_⟩
    intro hdone
    rcases hcase2 with ⟨_, _, _, hdn⟩ | ⟨_, hsucc, hnl, _⟩
    · rw [hdn] at hdone; cases hdone
    · refine ⟨hinv1, ?_, ?_, ?_, ?_, ?_, ?_⟩
      · intro s hs s2 hs2 _
        rw [(hst2 s).mp hs, (hst2 s2).mp hs2]
      · intro s hs
        rw [(hst2 s).mp hs]
        exact ⟨0, .root v⟩
      · intro s hs
        rw [hnl] at hs
        simp only [List.mem_singleton] at hs
        subst hs
        exact ⟨(hst2 _).mpr rfl, .root v⟩
      · intro s hs
        rw [(hst2 s).mp hs]
        exact hsucc
      · intro s hs hn
        exfalso
        apply hn
        rw [hnl, (hst2 s).mp hs]
        simp
      · intro letters cfg hlen hrun
        have := liveRun_nil hrun hlen
        subst this
        exact ⟨_, (hst2 _).mpr rfl, ⟨rfl, List.Perm.refl _⟩⟩

/-- At every round boundary of the search every stored record is on a
chain from the root. -/
theorem reached_chain {b : Board} {R : Nat → Prop} {c0 : List Nat} {g : Globals}
    (he : Enclosed b R) (hcap : b.w * b.h ≤ 65536) (h0 : ValidState b R (.mk 0 none c0))
    (hg : Reached b (.mk 0 none c0) g) :
    (∀ s ∈ g.tbl.states, ∃ k, Chain b c0 s k) ∧ (g.done = none → ∃ r, LevelInv b c0 r g) := by
  induction hg with
  | init t res g ht hq =>
    rw [extend_table_first] at ht
    cases ht
    obtain ⟨a1, a2⟩ := init_inv h0 hq
    exact ⟨a1, fun h => ⟨0, a2 h⟩⟩
  | round g g1 _ hdone hr ih =>
    obtain ⟨r, hl⟩ := ih.2 hdone
    have hri := round_inv he hcap h0 g.next_level _ g1 (fun s hs => hl.front s hs)
      (roundInv_start hl hdone) hr
    exact ⟨hri.chain, fun h => ⟨r + 1, levelInv_next he hcap h0 hl hri h⟩⟩

/-- The player of a valid state stands on a floor cell of the grid. -/
theorem root_player_ok {b : Board} {R : Nat → Prop} {s : state_t} (he : Enclosed b R)
    (hs : ValidState b R s) : player_ok b (config_of b s) := by
  obtain ⟨i1, i2, i3, i4⟩ := he.inner _ hs.player
  unfold player_ok config_of
  simp only
  rw [is_floor_iff]
  refine ⟨⟨by omega, by omega, by omega, by omega⟩, ?_⟩
  rw [Int.ediv_add_emod']
  exact he.floor _ hs.player

theorem boxes_live_of_goals {b : Board} (hlc : LiveClosed b) {cfg : Config}
    (h : all_on_goals b cfg) : boxes_live b cfg := by
  intro c hc
  obtain ⟨g, hg, hg0⟩ := h c hc
  exact hlc.goals_live c g hg hg0

/-! ## Letters of `show_moves` along chains made by `move_me` -/

/-- The letter `show_moves` prints for a step in one of the four directions
to a destination whose column is a column of the grid. -/
theorem move_letter_step {b : Board} {s : state_t} {dy dx : Int}
    (hlen : s.c.length = b.n_boxes + 1) (hd : (dy, dx) ∈ dirs)
    (hcol0 : 0 ≤ col1 b s dx) (hcol : col1 b s dx < b.w) (hc1 : 0 ≤ cell1 b s dy dx) :
    move_letter b s.c (cell1 b s dy dx) = .ok (some (step_letter dy dx
      (decide (∃ x ∈ boxes b s, (x : Int) = cell1 b s dy dx)))) := by
  have hw : 0 < b.w := by omega
  have hw0 : b.w ≠ 0 := by omega
  obtain ⟨p0, bs, hc⟩ : ∃ p0 bs, s.c = p0 :: bs := by
    cases hcs : s.c with
    | nil => rw [hcs] at hlen; simp at hlen
    | cons p0 bs => exact ⟨p0, bs, rfl⟩
  have hrd0 : rd s.c 0 = .ok p0 := by
    rw [hc]; exact rd_nat_ok.mpr (by simp)
  have hc0 : cell0 s = (p0 : Int) := cell0_of_cons hc
  have hr : row1 b s dy = (p0 : Int) / b.w + dy := by rw [row1, hc0, tdiv_nat _ hw]
  have hcl : col1 b s dx = (p0 : Int) % b.w + dx := by rw [col1, hc0, tmod_nat _ hw]
  have hdm := div_mod_of_row_col (w := b.w) (y := row1 b s dy) hcol0 hcol
  have hc1e : row1 b s dy * b.w + col1 b s dx = cell1 b s dy dx := rfl
  rw [hc1e] at hdm
  have hnx : Int.tmod (cell1 b s dy dx) b.w = (p0 : Int) % b.w + dx := by
    rw [Int.tmod_eq_emod hc1 (le_of_lt hw), hdm.2, hcl]
  have hny : Int.tdiv (cell1 b s dy dx) b.w = (p0 : Int) / b.w + dy := by
    rw [Int.tdiv_eq_ediv hc1 (le_of_lt hw), hdm.1, hr]
  have hcx : Int.tmod (p0 : Int) b.w = (p0 : Int) % b.w := tmod_nat _ hw
  have hcy : Int.tdiv (p0 : Int) b.w = (p0 : Int) / b.w := tdiv_nat _ hw
  unfold move_letter
  simp only [hw0, if_false, hrd0, has_box_state hlen, hnx, hny, hcx, hcy]
  rcases dirs_cases hd with ⟨h1, h2⟩ | ⟨h1, h2⟩ | ⟨h1, h2⟩ | ⟨h1, h2⟩ <;> subst h1 <;> subst h2
  · have : (p0 : Int) % b.w < (p0 : Int) % b.w + 1 := by omega
    simp only [this, if_true]
    rfl
  · have h1 : ¬ ((p0 : Int) % b.w < (p0 : Int) % b.w + -1) := by omega
    have h2 : (p0 : Int) % b.w > (p0 : Int) % b.w + -1 := by omega
    simp only [h1, h2, if_true, if_false]
    rfl
  · have h1 : ¬ ((p0 : Int) % b.w < (p0 : Int) % b.w + 0) := by omega
    have h2 : ¬ ((p0 : Int) % b.w > (p0 : Int) % b.w + 0) := by omega
    have h3 : ¬ ((p0 : Int) / b.w < (p0 : Int) / b.w + -1) := by omega
    have h4 : (p0 : Int) / b.w > (p0 : Int) / b.w + -1 := by omega
    simp only [h1, h2, h3, h4, if_true, if_false]
    rfl
  · have h1 : ¬ ((p0 : Int) % b.w < (p0 : Int) % b.w + 0) := by omega
    have h2 : ¬ ((p0 : Int) % b.w > (p0 : Int) % b.w + 0) := by omega
    have h3 : (p0 : Int) / b.w < (p0 : Int) / b.w + 1 := by omega
    simp only [h1, h2, h3, if_true, if_false]
    rfl

/-- Shape of a successor on a board of at most 65536 cells: the player slot
is the destination `c1`, and the box multiset changed exactly when a box
stood at `c1`. -/
theorem move_me_shape {b : Board} {s n : state_t} {dy dx : Int}
    (hcap : b.board.length ≤ 65536) (hlen : s.c.length = b.n_boxes + 1)
    (hm : move_me b s dy dx = .ok (some n)) :
    ∃ bs1, n = .mk 0 (some s) ((cell1 b s dy dx).toNat :: bs1) ∧
      bs1.length = b.n_boxes ∧ 0 ≤ cell1 b s dy dx ∧ ¬ off_grid b s dy dx ∧
      pushed b s n = decide (∃ x ∈ boxes b s, (x : Int) = cell1 b s dy dx) := by
  have hw : b.w ≠ 0 := by
    intro h
    unfold move_me at hm
    simp [h] at hm
  have hcase := move_me_case b s dy dx hw hlen
  rw [hm] at hcase
  have hbl := boxes_length hlen
  have hcx : ∀ {c : Int} {v : Nat}, rd b.board c = .ok v → to_cidx c = c.toNat ∧ 0 ≤ c := by
    intro c v h
    obtain ⟨h0, h1⟩ := rd_lt h
    exact ⟨to_cidx_of_lt h0 (by omega), h0⟩
  cases hcase with
  | walk v bs1 h h1 hv hfree hperm =>
    have hl1 : bs1.length = b.n_boxes := by rw [hperm.length_eq, hbl]
    refine ⟨bs1, by rw [(hcx h1).1], hl1, (hcx h1).2, h, ?_⟩
    unfold pushed
    rw [boxes_mk _ _ _ _ hl1]
    have : ¬ ∃ x ∈ boxes b s, (x : Int) = cell1 b s dy dx := by
      rintro ⟨x, hx, hx1⟩
      exact hfree x hx hx1
    simp [this, hperm]
  | push v v2 l j x bs1 h h1 hv hj hx hfirst h2 hv2 h3 hl hfree hperm =>
    have hl1 : bs1.length = b.n_boxes := by
      rw [hperm.length_eq, List.length_set, hbl]
    refine ⟨bs1, by rw [(hcx h1).1], hl1, (hcx h1).2, h, ?_⟩
    unfold pushed
    rw [boxes_mk _ _ _ _ hl1]
    have hbox : ∃ x ∈ boxes b s, (x : Int) = cell1 b s dy dx :=
      ⟨x, List.mem_iff_getElem?.mpr ⟨_, hj⟩, hx⟩
    have hnp : ¬ bs1.Perm (boxes b s) := by
      intro hp
      have hjlt : j < (boxes b s).length := by
        by_contra hh
        rw [List.getElem?_eq_none (by omega)] at hj
        cases hj
      have hmem : to_cidx (cell2 b s dy dx) ∈ (boxes b s).set j (to_cidx (cell2 b s dy dx)) :=
        List.mem_iff_getElem?.mpr ⟨j, by rw [List.getElem?_set_self hjlt]⟩
      have hmem2 : to_cidx (cell2 b s dy dx) ∈ boxes b s := hp.subset (hperm.symm.subset hmem)
      have := hfree _ hmem2
      rw [(hcx h2).1, Int.toNat_of_nonneg (hcx h2).2] at this
      exact this rfl
    simp [hbox, hnp]

/-- For a chain in which every destination column is a column of the grid,
on a board of at most 65536 cells, `show_moves` prints the letters of the
specification. -/
theorem trail_shown {b : Board} (hcap : b.board.length ≤ 65536) {s : state_t} {k : Nat}
    {ls : List Char} (ht : Trail b (in_columns b) s k ls) :
    s.c.length = b.n_boxes + 1 ∧ ls.length = k ∧ depth s = k ∧
      ∀ nextPos, show_moves b s nextPos = shown b ls s nextPos := by
  induction ht with
  | root h c hc =>
    refine ⟨hc, rfl, rfl, ?_⟩
    intro nextPos
    unfold show_moves shown
    simp only [c_mk]
  | step h p n k ls dy dx hp hd hm hg ih =>
    obtain ⟨hlen, hk, hdep, hshow⟩ := ih
    obtain ⟨bs1, hn, hl1, hc1, hon, hpush⟩ := move_me_shape hcap hlen hm
    have hcol0 : 0 ≤ col1 b p dx := by
      unfold off_grid at hon
      omega
    have hl := move_letter_step hlen hd hcol0 hg hc1
    have hnc : n.c = (cell1 b p dy dx).toNat :: bs1 := by rw [hn, c_mk]
    refine ⟨by rw [c_mk, hnc]; simp [hl1], by simp [hk], by simp [depth, hdep], ?_⟩
    intro nextPos
    have hrd : rd n.c 0 = .ok (cell1 b p dy dx).toNat := by
      rw [hnc]; exact rd_nat_ok.mpr (by simp)
    have habove : show_moves b p (((cell1 b p dy dx).toNat : Nat) : Int)
        = .ok (ls ++ [step_letter dy dx (pushed b p n)], false) := by
      rw [hshow, Int.toNat_of_nonneg hc1]
      unfold shown
      have : cell1 b p dy dx ≠ -1 := by omega
      simp only [this, if_false, hl, hpush]
    unfold show_moves shown
    simp only [hrd, habove, c_mk]

/-- On the wide row the step to cell 65536 returns the record with the
slots 0 and 3. -/
theorem wide_walk_cells :
    ∃ n, move_me wide_board wide_walker 0 1 = .ok (some n) ∧ n.c = [0, 3] := by
  have hcase := move_me_case wide_board wide_walker 0 1 (by decide) (by decide)
  have hb : boxes wide_board wide_walker = [3] := by decide
  have hc1 : cell1 wide_board wide_walker 0 1 = 65536 := by decide
  have h1 : rd wide_board.board (cell1 wide_board wide_walker 0 1) = .ok 0 := by
    rw [hc1]; exact wide_rd_board 65536 (by omega)
  have hoff : ¬ off_grid wide_board wide_walker 0 1 := by decide
  generalize move_me wide_board wide_walker 0 1 = r at hcase
  cases hcase with
  | off h => exact absurd h hoff
  | c1_fault h h1' => rw [h1] at h1'; cases h1'
  | c1_wall h h1' => rw [h1] at h1'; cases h1'
  | walk v bs1 h h1' hv hfree hperm =>
    refine ⟨_, rfl, ?_⟩
    rw [hc1]
    have e : to_cidx 65536 = 0 := by decide
    rw [e, hb] at *
    rw [List.perm_singleton] at hperm
    rw [hperm]
    rfl
  | c2_fault v h h1' hv hbox h2' =>
    obtain ⟨x, hx, hx1⟩ := hbox
    rw [hb] at hx
    simp at hx
    subst hx
    rw [hc1] at hx1
    omega
  | blocked v h h1' hv hbox h2' =>
    obtain ⟨x, hx, hx1⟩ := hbox
    rw [hb] at hx
    simp at hx
    subst hx
    rw [hc1] at hx1
    omega
  | push v v2 l j x bs1 h h1' hv hj hx hfirst h2' hv2 h3' hl hfree hperm =>
    rw [hb] at hj
    have := List.mem_iff_getElem?.mpr ⟨_, hj⟩
    simp at this
    subst this
    rw [hc1] at hx
    omega

/-! ## The branch `Invalid move` of `show_moves` -/

/-- The comparison ladder finds no letter exactly when the two positions
are the same cell. -/
theorem ladder_none (w cur nxt : Int) (box : Bool) :
    ladder_letter w cur nxt box = none ↔ cur = nxt := by
  have e1 := Int.tmod_add_tdiv cur w
  have e2 := Int.tmod_add_tdiv nxt w
  unfold ladder_letter
  constructor
  · intro h
    by_cases h1 : Int.tmod cur w < Int.tmod nxt w
    · rw [if_pos h1] at h; cases h
    rw [if_neg h1] at h
    by_cases h2 : Int.tmod nxt w < Int.tmod cur w
    · rw [if_pos h2] at h; cases h
    rw [if_neg h2] at h
    by_cases h3 : Int.tdiv cur w < Int.tdiv nxt w
    · rw [if_pos h3] at h; cases h
    rw [if_neg h3] at h
    by_cases h4 : Int.tdiv nxt w < Int.tdiv cur w
    · rw [if_pos h4] at h; cases h
    have hx : Int.tmod cur w = Int.tmod nxt w := by omega
    have hy : Int.tdiv cur w = Int.tdiv nxt w := by omega
    rw [← e1, ← e2, hx, hy]
  · intro h
    subst h
    simp

/-- The letter `show_moves` prints for a record and a next position is the
letter of the comparison ladder, uppercase when a box slot of the record
holds the next position. -/
theorem move_letter_ladder {b : Board} (hw : b.w ≠ 0) (s : state_t)
    (hlen : s.c.length = b.n_boxes + 1) (nextPos : Int) :
    move_letter b s.c nextPos = .ok (ladder_letter b.w ((s.c.headD 0 : Nat) : Int) nextPos
      (decide (∃ x ∈ boxes b s, (x : Int) = nextPos))) := by
  obtain ⟨p0, bs, hc⟩ : ∃ p0 bs, s.c = p0 :: bs := by
    cases hcs : s.c with
    | nil => rw [hcs] at hlen; simp at hlen
    | cons p0 bs => exact ⟨p0, bs, rfl⟩
  have hrd0 : rd s.c 0 = .ok p0 := by
    rw [hc]; exact rd_nat_ok.mpr (by simp)
  have hbox := has_box_state hlen nextPos
  have hhd : s.c.headD 0 = p0 := by rw [hc]; rfl
  unfold move_letter ladder_letter
  simp only [hw, if_false, hrd0, hbox, hhd]
  by_cases h1 : Int.tmod (p0 : Int) b.w < Int.tmod nextPos b.w
  · simp only [h1, if_true]
  simp only [h1, if_false]
  by_cases h2 : Int.tmod nextPos b.w < Int.tmod (p0 : Int) b.w
  · simp only [gt_iff_lt, h2, if_true]
  simp only [gt_iff_lt, h2, if_false]
  by_cases h3 : Int.tdiv (p0 : Int) b.w < Int.tdiv nextPos b.w
  · simp only [h3, if_true]
  simp only [h3, if_false]
  by_cases h4 : Int.tdiv nextPos b.w < Int.tdiv (p0 : Int) b.w
  · simp only [h4, if_true]
  simp only [h4, if_false]

/-- The number of letters of a chain: one per link when no link repeats a
player cell, fewer otherwise. -/
theorem link_letters_length (b : Board) :
    ∀ (k : Nat) (s : state_t), depth s = k →
      (stalled s = false → (link_letters b s).length = k) ∧
        (stalled s = true → (link_letters b s).length < k) := by
  intro k
  induction k with
  | zero =>
    intro s hk
    cases s with
    | mk h prev c =>
      cases prev with
      | some p => simp [depth] at hk
      | none => exact ⟨(fun _ => rfl), (fun h => by cases h)⟩
  | succ k ih =>
    intro s hk
    cases s with
    | mk h prev c =>
      cases prev with
      | none => simp [depth] at hk
      | some p =>
        have hkp : depth p = k := by simpa [depth] using hk
        obtain ⟨ih0, ih1⟩ := ih p hkp
        have hst : stalled (.mk h (some p) c)
            = (stalled p || decide (c.headD 0 = p.c.headD 0)) := rfl
        rw [hst]
        cases hp : stalled p with
        | true =>
          have hl : link_letters b (.mk h (some p) c) = link_letters b p := by
            conv_lhs => unfold link_letters
            rw [if_pos hp]
          rw [hl]
          refine ⟨(fun h => by cases h), fun _ => ?_⟩
          have := ih1 hp
          omega
        | false =>
          have hl : link_letters b (.mk h (some p) c) = link_letters b p ++
              (ladder_letter b.w ((p.c.headD 0 : Nat) : Int) ((c.headD 0 : Nat) : Int)
                (decide (c.headD 0 ∈ boxes b p))).toList := by
            conv_lhs => unfold link_letters
            rw [if_neg (by rw [hp]; exact Bool.false_ne_true)]
          rw [hl, Bool.false_or, List.length_append, ih0 hp]
          constructor
          · intro hne
            have hne1 : ¬ ((p.c.headD 0 : Nat) : Int) = ((c.headD 0 : Nat) : Int) := by
              have := of_decide_eq_false hne
              omega
            cases ho : ladder_letter b.w ((p.c.headD 0 : Nat) : Int) ((c.headD 0 : Nat) : Int)
                (decide (c.headD 0 ∈ boxes b p)) with
            | none => exact absurd ((ladder_none _ _ _ _).mp ho) hne1
            | some l => rfl
          · intro heq
            have heq1 : ((p.c.headD 0 : Nat) : Int) = ((c.headD 0 : Nat) : Int) := by
              have := of_decide_eq_true heq
              omega
            rw [(ladder_none _ _ _ _).mpr heq1]
            simp

/-- What `show_moves(s, nextPos)` prints on a chain of records: the letters
of the links up to the first link that repeats a player cell, then the text
`Invalid move` if there is such a link, else the newline for `nextPos = -1`
and else the letter for `nextPos`, or `Invalid move` when `nextPos` is the
player cell of `s`. -/
theorem show_moves_letters {b : Board} (hw : b.w ≠ 0) :
    ∀ (k : Nat) (s : state_t) (nextPos : Int), depth s = k → sized_chain b s →
      show_moves b s nextPos = .ok
        (if stalled s = true then (link_letters b s ++ "Invalid move\n".toList, true)
         else if nextPos = -1 then (link_letters b s ++ ['\n'], false)
         else (ladder_letter b.w ((s.c.headD 0 : Nat) : Int) nextPos
            (decide (∃ x ∈ boxes b s, (x : Int) = nextPos))).elim
              (link_letters b s ++ "Invalid move\n".toList, true)
              (fun l => (link_letters b s ++ [l], false))) := by
  intro k
  induction k with
  | zero =>
    intro s nextPos hk hs
    cases s with
    | mk h prev c =>
      cases prev with
      | some p => simp [depth] at hk
      | none =>
        have hlen : (state_t.mk h none c).c.length = b.n_boxes + 1 := hs
        have ho := move_letter_ladder hw _ hlen nextPos
        rw [c_mk] at ho
        have hst : stalled (.mk h none c) = false := rfl
        have hl : link_letters b (.mk h none c) = [] := rfl
        rw [hst, hl, c_mk, if_neg Bool.false_ne_true]
        unfold show_moves
        simp only [ho]
        by_cases hn : nextPos = -1
        · simp only [hn, if_true]
        · simp only [hn, if_false]
          cases ladder_letter b.w ((c.headD 0 : Nat) : Int) nextPos
            (decide (∃ x ∈ boxes b (.mk h none c), (x : Int) = nextPos)) <;> rfl
  | succ k ih =>
    intro s nextPos hk hs
    cases s with
    | mk h prev c =>
      cases prev with
      | none => simp [depth] at hk
      | some p =>
        have hkp : depth p = k := by simpa [depth] using hk
        obtain ⟨hlen, hsp⟩ : (state_t.mk h (some p) c).c.length = b.n_boxes + 1 ∧
            sized_chain b p := hs
        have hlen0 : c.length = b.n_boxes + 1 := hlen
        obtain ⟨p0, bs, hc⟩ : ∃ p0 bs, c = p0 :: bs := by
          cases c with
          | nil => simp at hlen0
          | cons p0 bs => exact ⟨p0, bs, rfl⟩
        have hrd0 : rd c 0 = .ok p0 := by
          rw [hc]; exact rd_nat_ok.mpr (by simp)
        have hhd : c.headD 0 = p0 := by rw [hc]; rfl
        have h1 := ih p (p0 : Int) hkp hsp
        have hp0 : ¬ (p0 : Int) = -1 := by omega
        rw [if_neg hp0] at h1
        have hbox : decide (∃ x ∈ boxes b p, (x : Int) = (p0 : Int))
            = decide (p0 ∈ boxes b p) := by
          by_cases hh : p0 ∈ boxes b p
          · rw [decide_eq_true hh, decide_eq_true ⟨p0, hh, rfl⟩]
          · rw [decide_eq_false hh]
            refine decide_eq_false ?_
            rintro ⟨x, hx, hxe⟩
            have : x = p0 := by omega
            exact hh (this ▸ hx)
        rw [hbox] at h1
        have ho := move_letter_ladder hw _ hlen nextPos
        rw [c_mk, hhd] at ho
        have hst : stalled (.mk h (some p) c)
            = (stalled p || decide (p0 = p.c.headD 0)) := by
          rw [← hhd]; rfl
        rw [hst, c_mk, hhd]
        cases hp : stalled p with
        | true =>
          have hl : link_letters b (.mk h (some p) c) = link_letters b p := by
            conv_lhs => unfold link_letters
            rw [if_pos hp]
          rw [hl, Bool.true_or, if_pos rfl]
          rw [hp, if_pos rfl] at h1
          unfold show_moves
          simp only [hrd0, h1]
        | false =>
          have hl : link_letters b (.mk h (some p) c) = link_letters b p ++
              (ladder_letter b.w ((p.c.headD 0 : Nat) : Int) (p0 : Int)
                (decide (p0 ∈ boxes b p))).toList := by
            conv_lhs => unfold link_letters
            rw [if_neg (by rw [hp]; exact Bool.false_ne_true), hhd]
          rw [hp, if_neg Bool.false_ne_true] at h1
          rw [hl, Bool.false_or]
          cases hlad : ladder_letter b.w ((p.c.headD 0 : Nat) : Int) (p0 : Int)
              (decide (p0 ∈ boxes b p)) with
          | none =>
            have heq : p0 = p.c.headD 0 := by
              have := (ladder_none _ _ _ _).mp hlad
              omega
            rw [hlad] at h1
            rw [decide_eq_true heq, if_pos rfl]
            unfold show_moves
            simp only [hrd0, h1]
            simp [Option.elim]
          | some l =>
            have hne : ¬ p0 = p.c.headD 0 := by
              intro heq
              have := (ladder_none b.w ((p.c.headD 0 : Nat) : Int) (p0 : Int)
                (decide (p0 ∈ boxes b p))).mpr (by omega)
              rw [this] at hlad
              cases hlad
            rw [hlad] at h1
            rw [decide_eq_false hne, if_neg Bool.false_ne_true]
            unfold show_moves
            simp only [hrd0, h1, Option.elim, ho]
            by_cases hn : nextPos = -1
            · simp only [hn, if_true, Option.toList]
            · simp only [hn, if_false, Option.toList]
              cases ladder_letter b.w (p0 : Int) nextPos
                (decide (∃ x ∈ boxes b (.mk h (some p) c), (x : Int) = nextPos)) <;> rfl

/-- The push down in the room, as a chain of one link with its letter. -/
theorem room_trail :
    Trail room_board (in_columns room_board) (.mk 0 (some room_state) [14, 20]) 1 ['D'] := by
  have hm : move_me room_board room_state 1 0
      = .ok (some (.mk 0 (some room_state) [14, 20])) := rfl
  have h := Trail.step (G := in_columns room_board) 0 room_state _ 0 [] 1 0
    (Trail.root (b := room_board) 0 [8, 14] rfl) (by decide) hm (by decide)
  have hp : pushed room_board room_state (.mk 0 (some room_state) [14, 20]) = true := by
    decide
  rw [hp] at h
  exact h

/-- The step on the wide row to cell 65536, as a chain of one link with the
letter of the specification. -/
theorem wide_trail :
    Trail wide_board (fun _ _ _ => True) (.mk 0 (some wide_walker) [0, 3]) 1 ['r'] := by
  obtain ⟨n, hm, hc⟩ := wide_walk_cells
  have h := Trail.step (G := fun _ _ _ => True) 0 wide_walker n 0 [] 0 1
    (Trail.root (b := wide_board) 0 [65535, 3] rfl) (by decide) hm trivial
  have hp : pushed wide_board wide_walker n = false := by
    unfold pushed boxes
    rw [hc]
    decide
  rw [hp, hc] at h
  exact h

/-- Two steps to the right on the board of `ragged_text`, from cell 2 to
cell 3 and on to cell 4, as a chain with the letters of the specification. -/
theorem ragged_trail :
    Trail ragged_board (fun _ _ _ => True)
      (.mk 0 (some (.mk 0 (some (.mk 0 none [2])) [3])) [4]) 2 ['r', 'r'] := by
  have hm1 : move_me ragged_board (.mk 0 none [2]) 0 1
      = .ok (some (.mk 0 (some (.mk 0 none [2])) [3])) := rfl
  have h1 := Trail.step (G := fun _ _ _ => True) 0 (.mk 0 none [2]) _ 0 [] 0 1
    (Trail.root (b := ragged_board) 0 [2] rfl) (by decide) hm1 trivial
  have hp1 : pushed ragged_board (.mk 0 none [2]) (.mk 0 (some (.mk 0 none [2])) [3]) = false := by
    decide
  simp only [c_mk] at h1
  rw [hp1] at h1
  have hm2 : move_me ragged_board (.mk 0 (some (.mk 0 none [2])) [3]) 0 1
      = .ok (some (.mk 0 (some (.mk 0 (some (.mk 0 none [2])) [3])) [4])) := rfl
  have h2 := Trail.step (G := fun _ _ _ => True) 0 _ _ 1 _ 0 1 h1 (by decide) hm2 trivial
  have hp2 : pushed ragged_board (.mk 0 (some (.mk 0 none [2])) [3])
      (.mk 0 (some (.mk 0 (some (.mk 0 none [2])) [3])) [4]) = false := by
    decide
  simp only [c_mk] at h2
  rw [hp2] at h2
  exact h2

/-! ## The flood fill returns, within the arrays -/

theorem count_set_zero :
    ∀ (l : List Nat) (i : Nat), l[i]? = some 0 → (l.set i 1).count 0 + 1 = l.count 0 := by
  intro l
  induction l with
  | nil => intro i h; simp at h
  | cons x xs ih =>
    intro i h
    cases i with
    | zero =>
      simp only [List.getElem?_cons_zero, Option.some.injEq] at h
      subst h
      simp [List.count_cons]
    | succ i =>
      simp only [List.getElem?_cons_succ] at h
      have := ih i h
      simp only [List.set_cons_succ, List.count_cons]
      omega

/-- Row and column of a cell of the grid. -/
theorem grid_coords {W H c : Int} (hW : 0 < W) (h0 : 0 ≤ c) (h1 : c < W * H) :
    0 ≤ c / W ∧ c / W < H ∧ 0 ≤ c % W ∧ c % W < W ∧ W * (c / W) + c % W = c ∧
      0 ≤ W * (c / W) ∧ W * (c / W) + W ≤ W * H := by
  have hy0 : 0 ≤ c / W := Int.ediv_nonneg h0 (le_of_lt hW)
  have hyH : c / W < H := Int.ediv_lt_of_lt_mul hW (by rw [mul_comm]; exact h1)
  have e := Int.ediv_add_emod c W
  have h3 : W * (c / W + 1) ≤ W * H := mul_le_mul_of_nonneg_left (by omega) (le_of_lt hW)
  have e3 : W * (c / W + 1) = W * (c / W) + W := by ring
  exact ⟨hy0, hyH, Int.emod_nonneg c (ne_of_gt hW), Int.emod_lt_of_pos c hW, e,
    mul_nonneg (le_of_lt hW) hy0, by omega⟩

theorem filled_refl {W H : Int} {BD : List Nat} {P : Int → Prop} {Q : Nat → Prop}
    {b : Board} (h : Fill W H BD P Q b) : Filled W H BD P Q b b :=
  ⟨h, le_refl _, rfl, rfl⟩

theorem filled_trans {W H : Int} {BD : List Nat} {P : Int → Prop} {Q : Nat → Prop}
    {b b1 b2 : Board} (h1 : Filled W H BD P Q b b1) (h2 : Filled W H BD P Q b1 b2) :
    Filled W H BD P Q b b2 :=
  ⟨h2.fill, le_trans h2.count_le h1.count_le, h2.goals_eq.trans h1.goals_eq,
    h2.n_eq.trans h1.n_eq⟩

/-- A conditional call of `mark_live` returns when its reads fall inside the
arrays and the recursive call returns. -/
theorem mark_branch_fill (rec : Board → Int → Res Board) {W H : Int} {BD : List Nat}
    {P : Int → Prop} {Q : Nat → Prop} (hBD : (BD.length : Int) = W * H) {b : Board}
    (hF : Fill W H BD P Q b)
    (cond : Bool) (near far next : Int)
    (hnear : cond = true → 0 ≤ near ∧ near < W * H)
    (hfar : cond = true → 0 ≤ far ∧ far < W * H)
    (hnext : cond = true → open_at BD near → open_at BD far →
      P next ∧ 0 ≤ next ∧ next < W * H)
    (hrec : ∀ c, P c → 0 ≤ c → c < W * H → ∃ b1, rec b c = .ok b1 ∧ Filled W H BD P Q b b1) :
    ∃ b1, mark_branch rec cond near far next b = .ok b1 ∧ Filled W H BD P Q b b1 := by
  unfold mark_branch
  cases cond with
  | false => exact ⟨b, by simp, filled_refl hF⟩
  | true =>
    simp only [if_true]
    obtain ⟨n0, n1⟩ := hnear rfl
    obtain ⟨f0, f1⟩ := hfar rfl
    obtain ⟨v1, hv1⟩ := rd_sized hBD n0 n1
    obtain ⟨v2, hv2⟩ := rd_sized hBD f0 f1
    rw [hF.board_eq, hv1]
    simp only
    by_cases hw1 : v1 = wall
    · simp only [hw1, if_true]
      exact ⟨b, rfl, filled_refl hF⟩
    · simp only [hw1, if_false, hv2]
      by_cases hw2 : v2 = wall
      · simp only [hw2, if_true]
        exact ⟨b, rfl, filled_refl hF⟩
      · simp only [hw2, if_false]
        obtain ⟨p1, p2, p3⟩ := hnext rfl ⟨v1, hv1, hw1⟩ ⟨v2, hv2, hw2⟩
        exact hrec next p1 p2 p3

/-- The flood fill from a cell of the grid returns when it is given more
nested calls than there are cells with `live = 0`; it keeps every live cell
inside a set that holds the start cell and is kept by its four steps. -/
theorem mark_live_fill {W H : Int} {BD : List Nat} {P : Int → Prop} {Q : Nat → Prop}
    (hW : 0 < W) (hBD : (BD.length : Int) = W * H) (hP : StepClosed W H BD P) (hQ : Q 1) :
    ∀ (fuel : Nat) (b : Board) (c : Int), Fill W H BD P Q b → 0 ≤ c → c < W * H → P c →
      b.live.count 0 < fuel → ∃ b1, mark_live fuel b c = .ok b1 ∧ Filled W H BD P Q b b1 := by
  intro fuel
  induction fuel with
  | zero => intro b c _ _ _ _ h; omega
  | succ fuel ih =>
    intro b c hF hc0 hc1 hPc hcnt
    rw [mark_live_succ]
    have hw : b.w ≠ 0 := by rw [hF.w_eq]; omega
    simp only [hw, if_false]
    obtain ⟨l, hl⟩ := rd_sized hF.live_len hc0 hc1
    rw [hl]
    simp only
    by_cases hl0 : l = 0
    swap
    · simp only [ne_eq, hl0, not_false_eq_true, if_true]
      exact ⟨b, rfl, filled_refl hF⟩
    subst hl0
    simp only [ne_eq, not_true_eq_false, if_false]
    have hclt : c.toNat < b.live.length := by
      have := hF.live_len
      omega
    have hwr : wr b.live c 1 = .ok (b.live.set c.toNat 1) := by
      unfold wr
      have : 0 ≤ c ∧ c.toNat < b.live.length := ⟨hc0, hclt⟩
      simp only [this, and_self, if_true]
    rw [hwr]
    simp only
    have hcount : (b.live.set c.toNat 1).count 0 + 1 = b.live.count 0 :=
      count_set_zero _ _ ((rd_eq_ok.mp hl).2)
    have hF1 : Fill W H BD P Q ⟨W, H, b.n_boxes, b.board, b.goals, b.live.set c.toNat 1⟩ := by
      refine ⟨rfl, rfl, hF.board_eq, ?_, ?_, ?_⟩
      · simp only [List.length_set]
        exact hF.live_len
      · intro i x hx hx0
        by_cases hic : i = c
        · rw [hic]; exact hPc
        · simp only at hx
          rw [rd_set_other hc0 hic] at hx
          exact hF.sound i x hx hx0
      · intro i x hx hx0
        by_cases hic : i = c
        · simp only at hx
          rw [hic, rd_set_self hc0 hclt] at hx
          cases hx
          exact hQ
        · simp only at hx
          rw [rd_set_other hc0 hic] at hx
          exact hF.bit i x hx hx0
    have hG1 : Filled W H BD P Q b ⟨W, H, b.n_boxes, b.board, b.goals, b.live.set c.toNat 1⟩ :=
      ⟨hF1, by simp only; omega, rfl, rfl⟩
    obtain ⟨g1, g2, g3, g4, g5, g6, g7⟩ := grid_coords hW hc0 hc1
    have hty : Int.tdiv c b.w = c / W := by
      rw [hF.w_eq]; exact Int.tdiv_eq_ediv hc0 (le_of_lt hW)
    have htx : Int.tmod c b.w = c % W := by
      rw [hF.w_eq]; exact Int.tmod_eq_emod hc0 (le_of_lt hW)
    rw [hty, htx, hF.w_eq, hF.h_eq]
    -- up
    have hrec : ∀ (b2 : Board), Filled W H BD P Q b b2 → b2.live.count 0 < fuel →
        ∀ c2, P c2 → 0 ≤ c2 → c2 < W * H →
          ∃ b3, mark_live fuel b2 c2 = .ok b3 ∧ Filled W H BD P Q b2 b3 :=
      fun b2 h2 hc2 c2 p1 p2 p3 => ih b2 c2 h2.fill p2 p3 p1 hc2
    have hc1' : (⟨W, H, b.n_boxes, b.board, b.goals, b.live.set c.toNat 1⟩ : Board).live.count 0
        < fuel := by
      simp only; omega
    have h2W : c / W > 1 → W * 2 ≤ W * (c / W) := fun h =>
      mul_le_mul_of_nonneg_left (by omega) (le_of_lt hW)
    have h3W : c / W < H - 2 → W * (c / W) + W * 3 ≤ W * H := fun h => by
      have : W * (c / W + 3) ≤ W * H := mul_le_mul_of_nonneg_left (by omega) (le_of_lt hW)
      have e : W * (c / W + 3) = W * (c / W) + W * 3 := by ring
      omega
    obtain ⟨b2, hb2, hG2⟩ := mark_branch_fill (mark_live fuel) hBD hF1
      (decide (c / W > 1)) (c - W) (c - W * 2) (c - W)
      (fun h => by
        have := h2W (of_decide_eq_true h)
        omega)
      (fun h => by
        have := h2W (of_decide_eq_true h)
        omega)
      (fun h o1 o2 => by
        have := h2W (of_decide_eq_true h)
        exact ⟨hP.up c hPc hc0 hc1 (of_decide_eq_true h) o1 o2, by omega, by omega⟩)
      (hrec _ hG1 hc1')
    rw [hb2]
    simp only
    have hG2' := filled_trans hG1 hG2
    have hcnt2 : b2.live.count 0 < fuel := lt_of_le_of_lt hG2.count_le hc1'
    obtain ⟨b3, hb3, hG3⟩ := mark_branch_fill (mark_live fuel) hBD hG2.fill
      (decide (c / W < H - 2)) (c + W) (c + W * 2) (c + W)
      (fun h => by
        have := h3W (of_decide_eq_true h)
        omega)
      (fun h => by
        have := h3W (of_decide_eq_true h)
        omega)
      (fun h o1 o2 => by
        have := h3W (of_decide_eq_true h)
        exact ⟨hP.down c hPc hc0 hc1 (of_decide_eq_true h) o1 o2, by omega, by omega⟩)
      (hrec _ hG2' hcnt2)
    rw [hb3]
    simp only
    have hG3' := filled_trans hG2' hG3
    have hcnt3 : b3.live.count 0 < fuel := lt_of_le_of_lt hG3.count_le hcnt2
    obtain ⟨b4, hb4, hG4⟩ := mark_branch_fill (mark_live fuel) hBD hG3.fill
      (decide (c % W > 1)) (c - 1) (c - 2) (c - 1)
      (fun h => by
        have := of_decide_eq_true h
        omega)
      (fun h => by
        have := of_decide_eq_true h
        omega)
      (fun h o1 o2 => by
        have := of_decide_eq_true h
        exact ⟨hP.left c hPc hc0 hc1 (of_decide_eq_true h) o1 o2, by omega, by omega⟩)
      (hrec _ hG3' hcnt3)
    rw [hb4]
    simp only
    have hG4' := filled_trans hG3' hG4
    have hcnt4 : b4.live.count 0 < fuel := lt_of_le_of_lt hG4.count_le hcnt3
    obtain ⟨b5, hb5, hG5⟩ := mark_branch_fill (mark_live fuel) hBD hG4.fill
      (decide (c % W < W - 2)) (c + 1) (c + 2) (c + 1)
      (fun h => by
        have := of_decide_eq_true h
        omega)
      (fun h => by
        have := of_decide_eq_true h
        omega)
      (fun h o1 o2 => by
        have := of_decide_eq_true h
        exact ⟨hP.right c hPc hc0 hc1 (of_decide_eq_true h) o1 o2, by omega, by omega⟩)
      (hrec _ hG4' hcnt4)
    refine ⟨b5, hb5, ?_⟩
    exact filled_trans hG4' hG5

/-! ## The live cells after `parse_board` -/

/-- The second loop of `parse_board` keeps the state of the flood fill. -/
theorem place_loop_fill {W H : Int} {BD : List Nat} {P : Int → Prop} {Q : Nat → Prop}
    (hW : 0 < W) (hBD : (BD.length : Int) = W * H) (hP : StepClosed W H BD P) (hQ : Q 1)
    (s : List Char) (fuel : Nat) :
    ∀ (k i j : Nat) (b : Board) (c : List Nat) (b1 : Board) (c1 : List Nat),
      place_loop s fuel k i j b c = .ok (b1, c1) → Fill W H BD P Q b →
      (∀ (m : Int) (g : Nat), rd b.goals m = .ok g → g ≠ 0 → P m) →
      ((i + k : Nat) : Int) ≤ W * H → b.live.count 0 < fuel → Filled W H BD P Q b b1 := by
  intro k
  induction k with
  | zero =>
    intro i j b c b1 c1 h hF _ _ _
    unfold place_loop at h
    cases h
    exact filled_refl hF
  | succ k ih =>
    intro i j b c b1 c1 h hF hgoal hik hcnt
    unfold place_loop at h
    cases hg : rd b.goals (i : Int) with
    | fault => rw [hg] at h; cases h
    | timeout => rw [hg] at h; cases h
    | ok g =>
      rw [hg] at h
      simp only at h
      cases hml : (if g ≠ 0 then mark_live fuel b (i : Int) else Res.ok b) with
      | fault => rw [hml] at h; cases h
      | timeout => rw [hml] at h; cases h
      | ok b2 =>
        rw [hml] at h
        simp only at h
        have hstep : Filled W H BD P Q b b2 := by
          by_cases hg0 : g = 0
          · simp only [hg0, ne_eq, not_true_eq_false, if_false] at hml
            cases hml
            exact filled_refl hF
          · simp only [ne_eq, hg0, not_false_eq_true, if_true] at hml
            obtain ⟨b3, e3, f3⟩ := mark_live_fill hW hBD hP hQ fuel b (i : Int) hF
              (by omega) (by push_cast at hik; omega) (hgoal _ g hg hg0) hcnt
            rw [hml] at e3
            cases e3
            exact f3
        have hrest : ∃ j2 c2, place_loop s fuel k (i + 1) j2 b2 c2 = .ok (b1, c1) := by
          cases ht : rd_text s i with
          | fault => rw [ht] at h; cases h
          | timeout => rw [ht] at h; cases h
          | ok ch =>
            rw [ht] at h
            simp only at h
            split_ifs at h
            · cases hw : wr c ((j : Int) + 1) (to_cidx (i : Int)) with
              | fault => rw [hw] at h; cases h
              | timeout => rw [hw] at h; cases h
              | ok c2 => rw [hw] at h; exact ⟨_, _, h⟩
            · cases hw : wr c 0 (to_cidx (i : Int)) with
              | fault => rw [hw] at h; cases h
              | timeout => rw [hw] at h; cases h
              | ok c2 => rw [hw] at h; exact ⟨_, _, h⟩
            · exact ⟨_, _, h⟩
        obtain ⟨j2, c2, hpl⟩ := hrest
        have := ih (i + 1) j2 b2 c2 b1 c1 hpl hstep.fill
          (by rw [hstep.goals_eq]; exact hgoal) (by push_cast at hik ⊢; omega)
          (lt_of_le_of_lt hstep.count_le hcnt)
        exact filled_trans hstep this

/-- The first loop of `parse_board` keeps the length of `board`. -/
theorem parse_cells_board_len :
    ∀ (s : List Char) (i : Nat) (b b1 : Board), parse_cells s i b = .ok b1 →
      b1.board.length = b.board.length := by
  intro s
  induction s with
  | nil =>
    intro i b b1 h
    unfold parse_cells at h
    cases h
    rfl
  | cons ch rest ih =>
    intro i b b1 h
    unfold parse_cells at h
    split_ifs at h
    · cases h
      rfl
    · cases hw : wr b.board (i : Int) wall with
      | fault => rw [hw] at h; cases h
      | timeout => rw [hw] at h; cases h
      | ok bd =>
        rw [hw] at h
        simp only at h
        rw [ih _ _ _ h]
        exact wr_length hw
    · cases hw : wr b.goals (i : Int) 1 with
      | fault => rw [hw] at h; cases h
      | timeout => rw [hw] at h; cases h
      | ok gl =>
        rw [hw] at h
        simp only at h
        exact (ih _ _ _ h).trans rfl
    · cases hw : wr b.goals (i : Int) 1 with
      | fault => rw [hw] at h; cases h
      | timeout => rw [hw] at h; cases h
      | ok gl =>
        rw [hw] at h
        simp only at h
        exact (ih _ _ _ h).trans rfl
    · exact (ih _ _ _ h).trans rfl
    · exact ih _ _ _ h

theorem count_replicate_zero_le (n : Nat) : (List.replicate n 0).count 0 < n + 1 := by
  have := List.count_le_length 0 (List.replicate n 0)
  simp only [List.length_replicate] at this
  omega

/-- After `parse_board` the array `live` has `w * h` cells, and every live
cell lies in each set that holds the goal cells and is kept by the four
steps of `mark_live`, and holds the value 1. -/
theorem parse_board_fill {w h : Int} {s : List Char} {b : Board} {s0 : state_t} (hw : 0 < w)
    (hp : parse_board w h s = .ok (b, s0)) {P : Int → Prop}
    (hP : StepClosed w h b.board P)
    (hgoal : ∀ (m : Int) (g : Nat), rd b.goals m = .ok g → g ≠ 0 → P m) :
    Fill w h b.board P (fun l => l = 1) b ∧ (b.board.length : Int) = w * h := by
  unfold parse_board at hp
  split_ifs at hp with hneg
  simp only at hp
  cases hpc : parse_cells s 0 ⟨w, h, 0, List.replicate (w * h).toNat 0,
      List.replicate (w * h).toNat 0, List.replicate (w * h).toNat 0⟩ with
  | fault => rw [hpc] at hp; cases hp
  | timeout => rw [hpc] at hp; cases hp
  | ok b1 =>
    rw [hpc] at hp
    simp only at hp
    cases hpl : place_loop s ((w * h).toNat + 1) (w * h).toNat 0 0 b1
        (List.replicate (b1.n_boxes + 1) 0) with
    | fault => rw [hpl] at hp; cases hp
    | timeout => rw [hpl] at hp; cases hp
    | ok x =>
      obtain ⟨b2, c⟩ := x
      rw [hpl] at hp
      simp only at hp
      cases hp
      obtain ⟨k1, k2, k3, k4⟩ := parse_cells_keeps s 0 _ b1 hpc
      have k5 := parse_cells_board_len s 0 _ b1 hpc
      simp only [List.length_replicate] at k1 k2 k3 k4 k5
      obtain ⟨m, _, _⟩ := place_loop_spec s _ _ 0 0 b1 _ b _ hpl (by
        intro c l hl hl0
        rw [k3] at hl
        exact absurd (rd_replicate_zero hl) hl0)
      have hn : (((w * h).toNat : Nat) : Int) = w * h := Int.toNat_of_nonneg (by omega)
      have hBD : (b.board.length : Int) = w * h := by rw [m.board_eq, k5, hn]
      have hF1 : Fill w h b.board P (fun l => l = 1) b1 := by
        refine ⟨k1, k2, m.board_eq.symm, by rw [k3, List.length_replicate, hn], ?_, ?_⟩
        · intro i l hl hl0
          rw [k3] at hl
          exact absurd (rd_replicate_zero hl) hl0
        · intro i l hl hl0
          rw [k3] at hl
          exact absurd (rd_replicate_zero hl) hl0
      have hcnt : b1.live.count 0 < (w * h).toNat + 1 := by
        rw [k3]; exact count_replicate_zero_le _
      have := place_loop_fill (Q := fun l => l = 1) hw hBD hP rfl s _ _ 0 0 b1 _ b _ hpl hF1
        (by rw [← m.goals_eq]; exact hgoal) (by rw [Nat.zero_add, hn]) hcnt
      exact ⟨this.fill, hBD⟩

/-- The cells reached by the backward push closure from the goal cells are
kept by the four steps of `mark_live`. -/
theorem pushBack_closed (b : Board) :
    StepClosed b.w b.h b.board
      (fun c => ∃ g, (∃ v, rd b.goals g = .ok v ∧ v ≠ 0) ∧ PushBack b g c) := by
  refine ⟨?_, ?_, ?_, ?_⟩
  · rintro c ⟨g, hg, hc⟩ _ _ hy o1 o2
    have e1 : c + -b.w = c - b.w := by ring
    have e2 : c + 2 * -b.w = c - b.w * 2 := by ring
    have := PushBack.step c (-b.w) hc
      ⟨Or.inl ⟨rfl, by omega⟩, by rw [e1]; exact o1, by rw [e2]; exact o2⟩
    rw [e1] at this
    exact ⟨g, hg, this⟩
  · rintro c ⟨g, hg, hc⟩ _ _ hy o1 o2
    have e2 : c + 2 * b.w = c + b.w * 2 := by ring
    have := PushBack.step c b.w hc
      ⟨Or.inr (Or.inl ⟨rfl, by omega⟩), o1, by rw [e2]; exact o2⟩
    exact ⟨g, hg, this⟩
  · rintro c ⟨g, hg, hc⟩ _ _ hy o1 o2
    have e1 : c + -1 = c - 1 := by ring
    have e2 : c + 2 * -1 = c - 2 := by ring
    have := PushBack.step c (-1) hc
      ⟨Or.inr (Or.inr (Or.inl ⟨rfl, by omega⟩)), by rw [e1]; exact o1, by rw [e2]; exact o2⟩
    rw [e1] at this
    exact ⟨g, hg, this⟩
  · rintro c ⟨g, hg, hc⟩ _ _ hy o1 o2
    have e2 : c + 2 * 1 = c + 2 := by ring
    have := PushBack.step c 1 hc
      ⟨Or.inr (Or.inr (Or.inr ⟨rfl, by omega⟩)), o1, by rw [e2]; exact o2⟩
    exact ⟨g, hg, this⟩

/-- Every cell of the backward push closure of a goal cell is live when
`live` holds the goals and is closed under the steps of `mark_live`. -/
theorem pushBack_live {b : Board} (hw : 0 < b.w) (hlc : LiveClosed b) {g c : Int}
    (hg : ∃ v, rd b.goals g = .ok v ∧ v ≠ 0) (hc : PushBack b g c) :
    ∃ l, rd b.live c = .ok l ∧ l ≠ 0 := by
  induction hc with
  | refl =>
    obtain ⟨v, hv, hv0⟩ := hg
    have h0 := (rd_lt hv).1
    have := hlc.goals_live g.toNat v (by rw [Int.toNat_of_nonneg h0]; exact hv) hv0
    rw [Int.toNat_of_nonneg h0] at this
    exact this
  | step c d _ hs ih =>
    obtain ⟨l, hl, hl0⟩ := ih
    have hcl := hlc.closed c l hl hl0
    have hc0 := (rd_lt hl).1
    have hty : Int.tdiv c b.w = c / b.w := Int.tdiv_eq_ediv hc0 (le_of_lt hw)
    have htx : Int.tmod c b.w = c % b.w := Int.tmod_eq_emod hc0 (le_of_lt hw)
    obtain ⟨hd, o1, o2⟩ := hs
    rcases hd with ⟨hd, hy⟩ | ⟨hd, hy⟩ | ⟨hd, hy⟩ | ⟨hd, hy⟩
    · subst hd
      have e1 : c + -b.w = c - b.w := by ring
      have e2 : c + 2 * -b.w = c - b.w * 2 := by ring
      rw [e1] at o1 ⊢
      rw [e2] at o2
      exact hcl.up (by rw [hty]; omega) o1 o2
    · subst hd
      have e2 : c + 2 * b.w = c + b.w * 2 := by ring
      rw [e2] at o2
      exact hcl.down (by rw [hty]; omega) o1 o2
    · subst hd
      have e1 : c + -1 = c - 1 := by ring
      have e2 : c + 2 * -1 = c - 2 := by ring
      rw [e1] at o1 ⊢
      rw [e2] at o2
      exact hcl.left (by rw [htx]; omega) o1 o2
    · subst hd
      have e2 : c + 2 * 1 = c + 2 := by ring
      rw [e2] at o2
      exact hcl.right (by rw [htx]; omega) o1 o2

/-! ## The value of the hash -/

/-- The loop of `hash` over `k` slots from index `i` computes the
polynomial in 31 of the slots on top of the value `ha`, modulo `2 ^ 32`. -/
theorem hash_loop_poly (c : List Nat) :
    ∀ (k i ha : Nat), i + k ≤ c.length → ha < 4294967296 →
      hash_loop c k i ha = .ok ((ha * 31 ^ k +
        ((List.range k).map (fun j => c.getD (i + j) 0 * 31 ^ (k - 1 - j))).sum) % 4294967296) := by
  intro k
  induction k with
  | zero =>
    intro i ha _ hha
    unfold hash_loop
    simp [Nat.mod_eq_of_lt hha]
  | succ k ih =>
    intro i ha h hha
    unfold hash_loop
    rw [rd_of_lt c i (by omega)]
    simp only
    rw [ih (i + 1) _ (by omega) (Nat.mod_lt _ (by decide))]
    congr 1
    have hv : c.get ⟨i, by omega⟩ = c.getD i 0 := by
      simp [List.getD_eq_getElem?_getD, List.getElem?_eq_getElem (show i < c.length by omega)]
    have hsum : ((List.range (k + 1)).map
          (fun j => c.getD (i + j) 0 * 31 ^ (k + 1 - 1 - j))).sum
        = c.getD i 0 * 31 ^ k +
          ((List.range k).map (fun j => c.getD (i + 1 + j) 0 * 31 ^ (k - 1 - j))).sum := by
      rw [List.range_succ_eq_map, List.map_cons, List.sum_cons, List.map_map]
      congr 1
      congr 1
      apply List.map_congr_left
      intro j _
      simp only [Function.comp]
      have e1 : i + (j + 1) = i + 1 + j := by omega
      have e2 : k + 1 - 1 - (j + 1) = k - 1 - j := by omega
      rw [e1, e2]
    rw [hsum, hv]
    have hmod : ((c.getD i 0 + 31 * ha) % 4294967296) * 31 ^ k +
          ((List.range k).map (fun j => c.getD (i + 1 + j) 0 * 31 ^ (k - 1 - j))).sum
        ≡ (c.getD i 0 + 31 * ha) * 31 ^ k +
          ((List.range k).map (fun j => c.getD (i + 1 + j) 0 * 31 ^ (k - 1 - j))).sum
        [MOD 4294967296] :=
      ((Nat.mod_modEq _ _).mul_right _).add_right _
    rw [hmod]
    congr 1
    ring

/-- The value `hash` computes is the polynomial of the specification. -/
theorem hash_loop_eq_poly {c : List Nat} {n : Nat} (h : n + 1 ≤ c.length) :
    hash_loop c (n + 1) 0 0 = .ok (poly_hash c n) := by
  rw [hash_loop_poly c (n + 1) 0 0 (by omega) (by decide)]
  unfold poly_hash
  simp

/-- After `hash(s)` the field `h` of a record as `newstate` and `hash` leave
it holds the polynomial of its slots. -/
theorem hash_of_hashable {b : Board} {s : state_t} (hs : Hashable b s) :
    ∃ s1, hash b s = .ok s1 ∧ s1.h = poly_hash s.c b.n_boxes := by
  obtain ⟨hlen, hh⟩ := hs
  have hp := hash_loop_eq_poly (c := s.c) (n := b.n_boxes) (by omega)
  unfold hash
  by_cases h0 : s.h = 0
  · simp only [h0, if_true, hp]
    exact ⟨_, rfl, rfl⟩
  · simp only [h0, if_false]
    rcases hh with hh | hh
    · exact absurd hh h0
    · rw [hp] at hh
      injection hh with hh
      exact ⟨_, rfl, hh.symm⟩

/-! ## The records stored across growth -/

theorem flatten_set_perm :
    ∀ (bk : List (List state_t)) (j : Nat) (old new : List state_t), bk[j]? = some old →
      ((bk.set j new).flatten ++ old).Perm (new ++ bk.flatten) := by
  intro bk
  induction bk with
  | nil => intro j old new h; simp at h
  | cons b0 rest ih =>
    intro j old new h
    cases j with
    | zero =>
      simp only [List.getElem?_cons_zero, Option.some.injEq] at h
      subst h
      simp only [List.set_cons_zero, List.flatten_cons, List.append_assoc]
      exact List.Perm.append_left new List.perm_append_comm
    | succ j =>
      simp only [List.getElem?_cons_succ] at h
      have := ih j old new h
      simp only [List.set_cons_succ, List.flatten_cons, List.append_assoc]
      refine (List.Perm.append_left b0 this).trans ?_
      rw [← List.append_assoc, ← List.append_assoc]
      exact List.Perm.append_right _ List.perm_append_comm

/-- The inner loop of the rehash moves the records of the chain into the
buckets, each once. -/
theorem rehash_chain_perm (bits : Nat) :
    ∀ (chain : List state_t) (bk bk1 : List (List state_t)),
      rehash_chain bits chain bk = .ok bk1 → bk1.flatten.Perm (chain ++ bk.flatten) := by
  intro chain
  induction chain with
  | nil =>
    intro bk bk1 h
    unfold rehash_chain at h
    cases h
    exact List.Perm.refl _
  | cons head next ih =>
    intro bk bk1 h
    unfold rehash_chain at h
    simp only at h
    cases hr : rd bk ((head.h &&& bits : Nat) : Int) with
    | fault => rw [hr] at h; cases h
    | timeout => rw [hr] at h; cases h
    | ok old =>
      rw [hr] at h
      simp only at h
      have h1 := ih _ _ h
      have h2 := flatten_set_perm bk _ old (head :: old) (rd_nat_ok.mp hr)
      have h3 : (bk.set (head.h &&& bits) (head :: old)).flatten.Perm (head :: bk.flatten) := by
        have e : (head :: old ++ bk.flatten).Perm ((head :: bk.flatten) ++ old) := by
          simp only [List.cons_append]
          exact List.Perm.cons head List.perm_append_comm
        exact (List.perm_append_right_iff old).mp (h2.trans e)
      refine h1.trans ?_
      refine (List.Perm.append_left next h3).trans ?_
      simp only [List.cons_append]
      exact List.perm_middle

/-- The outer loop of the rehash keeps the stored records, each once. -/
theorem rehash_loop_perm (bits : Nat) :
    ∀ (k i : Nat) (bk bk1 : List (List state_t)),
      rehash_loop bits k i bk = .ok bk1 → bk1.flatten.Perm bk.flatten := by
  intro k
  induction k with
  | zero =>
    intro i bk bk1 h
    unfold rehash_loop at h
    cases h
    exact List.Perm.refl _
  | succ k ih =>
    intro i bk bk1 h
    unfold rehash_loop at h
    cases hr : rd bk (i : Int) with
    | fault => rw [hr] at h; cases h
    | timeout => rw [hr] at h; cases h
    | ok head =>
      rw [hr] at h
      simp only at h
      cases hc : rehash_chain bits head (bk.set i []) with
      | fault => rw [hc] at h; cases h
      | timeout => rw [hc] at h; cases h
      | ok bk2 =>
        rw [hc] at h
        simp only at h
        have h1 := ih _ _ _ h
        have h2 := rehash_chain_perm bits _ _ _ hc
        have h3 := flatten_set_perm bk i head [] (rd_nat_ok.mp hr)
        simp only [List.nil_append] at h3
        exact h1.trans (h2.trans (List.perm_append_comm.trans h3))

/-- Growth keeps the stored records, each once. -/
theorem extend_table_perm {t t1 : Table} (hlen : t.buckets.length = t.hash_size)
    (h : extend_table t = .ok t1) : t1.states.Perm t.states := by
  unfold extend_table at h
  simp only at h
  cases hr : rehash_loop (mask (if t.hash_size = 0 then 1024 else t.hash_size * 2))
      t.hash_size 0 (List.take t.hash_size t.buckets ++
        List.replicate ((if t.hash_size = 0 then 1024 else t.hash_size * 2) - t.hash_size) []) with
  | fault => rw [hr] at h; cases h
  | timeout => rw [hr] at h; cases h
  | ok bk1 =>
    rw [hr] at h
    simp only at h
    cases h
    have := rehash_loop_perm _ _ _ _ _ hr
    unfold Table.states
    simp only
    refine this.trans ?_
    rw [← hlen, List.take_length]
    simp [List.flatten_append]

/-- The call `lookup(s)`: the record found has the slots of `s`. -/
theorem lookup_found {b : Board} {t : Table} {s : state_t}
    (hinv : TableInv b t) (hs : Hashable b s) :
    ∃ v, hash_loop s.c (b.n_boxes + 1) 0 0 = .ok v ∧
      ((lookup b t s = .ok (.mk v s.prev s.c, none) ∧ s.c ∉ t.keys) ∨
       (∃ f, lookup b t s = .ok (.mk v s.prev s.c, some f) ∧ f ∈ t.states ∧ f.c = s.c)) := by
  obtain ⟨v, hv, hl⟩ := lookup_spec hinv hs
  refine ⟨v, hv, ?_⟩
  rcases hl with h | ⟨f, hf, hkey⟩
  · exact Or.inl h
  · right
    refine ⟨f, hf, ?_⟩
    obtain ⟨_, _, hh⟩ := hash_spec hs
    have hidx : v &&& mask t.hash_size < t.buckets.length := by
      rw [hinv.len]; exact and_mask_lt hinv.size_pos v
    obtain ⟨v2, hv2, hh2⟩ := hash_spec hs
    rw [hv] at hv2
    cases hv2
    unfold lookup at hf
    rw [hh2] at hf
    simp only [state_t.h] at hf
    rw [rd_of_lt _ _ hidx] at hf
    simp only at hf
    have hchain : ∀ f ∈ t.buckets.get ⟨v &&& mask t.hash_size, hidx⟩,
        f.c.length = b.n_boxes + 1 := by
      intro f hf
      exact (hinv.placed _ f ⟨_, List.getElem?_eq_getElem hidx, hf⟩).1
    have hs1 : (state_t.mk v s.prev s.c).c.length = b.n_boxes + 1 := hs.1
    rcases lookup_chain_spec hs1 _ hchain with ⟨h1, _⟩ | ⟨g, h1, h2, h3⟩
    · rw [h1] at hf
      cases hf
    · rw [h1] at hf
      cases hf
      exact ⟨inBucket_flatten.mpr ⟨_, _, List.getElem?_eq_getElem hidx, h2⟩, h3⟩

/-- The first table satisfies the counter invariant with no doubling. -/
theorem flatten_replicate_empty (n : Nat) :
    (List.replicate n ([] : List state_t)).flatten = [] := by
  induction n with
  | zero => rfl
  | succ n ih => rw [List.replicate_succ, List.flatten_cons, ih]; rfl

theorem growthInv_first : GrowthInv ⟨List.replicate 1024 [], 1024, 768, 0⟩ 0 := by
  refine ⟨rfl, rfl, ?_, by decide⟩
  unfold Table.states
  rw [flatten_replicate_empty]
  rfl

theorem states_set_perm {bk : List (List state_t)} {j : Nat} (hj : j < bk.length)
    (x : state_t) :
    (bk.set j (x :: bk.get ⟨j, hj⟩)).flatten.Perm (x :: bk.flatten) := by
  have h2 := flatten_set_perm bk j (bk.get ⟨j, hj⟩) (x :: bk.get ⟨j, hj⟩)
    (List.getElem?_eq_getElem hj)
  have e : (x :: bk.get ⟨j, hj⟩ ++ bk.flatten).Perm ((x :: bk.flatten) ++ bk.get ⟨j, hj⟩) := by
    simp only [List.cons_append]
    exact List.Perm.cons x List.perm_append_comm
  exact (List.perm_append_right_iff _).mp (h2.trans e)

/-- One call `add_to_table(s)` and the counters: a rejected record changes
nothing; an accepted record is stored, `filled` grows by one, and the sizes
double exactly when `filled` had reached `fill_limit`. -/
theorem add_to_table_growth {b : Board} {t : Table} {s : state_t} {k : Nat}
    (hinv : TableInv b t) (hg : GrowthInv t k) (hs : Hashable b s) :
    ∃ r s1 t1, add_to_table b t s = .ok (r, s1, t1) ∧ TableInv b t1 ∧
      ((r = false ∧ t1 = t) ∨
       (r = true ∧ t.filled < t.fill_limit ∧ GrowthInv t1 k ∧
          t1.hash_size = t.hash_size ∧ t1.fill_limit = t.fill_limit ∧
          t1.states.Perm (s1 :: t.states)) ∨
       (r = true ∧ t.filled = t.fill_limit ∧ GrowthInv t1 (k + 1) ∧
          t1.hash_size = 2 * t.hash_size ∧ t1.fill_limit = 2 * t.fill_limit ∧
          t1.states.Perm (s1 :: t.states))) := by
  obtain ⟨v, hv, hl⟩ := lookup_spec hinv hs
  obtain ⟨v2, hv2, hspec⟩ := add_to_table_spec hinv hs
  rw [hv] at hv2
  cases hv2
  rcases hl with ⟨hl, hkey⟩ | ⟨f, hl, hkey⟩
  swap
  · refine ⟨false, .mk v s.prev s.c, t, ?_, hinv, Or.inl ⟨rfl, rfl⟩⟩
    unfold add_to_table
    rw [hl]
  rcases hspec with ⟨hk2, _⟩ | ⟨_, t1s, hadd, hinv1, _⟩
  · exact absurd hk2 hkey
  have hinv' : TableInv b { t with filled := t.filled + 1 } :=
    ⟨hinv.size_pos, hinv.len, hinv.placed⟩
  have hpow : 1 ≤ 2 ^ k := Nat.one_le_two_pow
  by_cases hfull : t.filled ≥ t.fill_limit
  · obtain ⟨t2, e1, e2, e3, e4, e5, _⟩ := extend_table_spec hinv'
    have e6 := extend_table_perm (t := { t with filled := t.filled + 1 }) hinv.len e1
    have hidx : v &&& mask t2.hash_size < t2.buckets.length := by
      rw [e2.len]; exact and_mask_lt e2.size_pos v
    have heq : add_to_table b t s = .ok (true, .mk v s.prev s.c,
        ⟨t2.buckets.set (v &&& mask t2.hash_size)
          (state_t.mk v s.prev s.c :: t2.buckets.get ⟨v &&& mask t2.hash_size, hidx⟩),
          t2.hash_size, t2.fill_limit, t2.filled⟩) := by
      unfold add_to_table
      rw [hl]
      simp only [hfull, if_true]
      rw [e1]
      simp only [state_t.h]
      rw [rd_of_lt _ _ hidx]
    rw [heq] at hadd
    injection hadd with hadd
    injection hadd with _ hadd
    injection hadd with _ hadd
    subst hadd
    have hperm : (Table.mk (t2.buckets.set (v &&& mask t2.hash_size)
          (state_t.mk v s.prev s.c :: t2.buckets.get ⟨v &&& mask t2.hash_size, hidx⟩))
          t2.hash_size t2.fill_limit t2.filled).states.Perm
        (state_t.mk v s.prev s.c :: t.states) := by
      unfold Table.states
      simp only
      exact (states_set_perm hidx _).trans (List.Perm.cons _ e6)
    have hfl := hg.filled_le
    have hlim := hg.limit_eq
    have hsz := hg.size_eq
    have hfe := hg.filled_eq
    simp only at e3 e4 e5
    refine ⟨true, _, _, heq, hinv1, Or.inr (Or.inr ⟨rfl, by omega, ?_, ?_, ?_, hperm⟩)⟩
    · refine ⟨?_, ?_, ?_, ?_⟩
      · simp only [e3, hsz, pow_succ]; ring
      · simp only [e4, hlim, pow_succ]; ring
      · exact e5.trans (by rw [hperm.length_eq, List.length_cons, hfe])
      · simp only [e5, e4]
        omega
    · simp only [e3]; ring
    · simp only [e4]; ring
  · have hidx : v &&& mask t.hash_size < t.buckets.length := by
      rw [hinv.len]; exact and_mask_lt hinv.size_pos v
    have heq : add_to_table b t s = .ok (true, .mk v s.prev s.c,
        ⟨t.buckets.set (v &&& mask t.hash_size)
          (state_t.mk v s.prev s.c :: t.buckets.get ⟨v &&& mask t.hash_size, hidx⟩),
          t.hash_size, t.fill_limit, t.filled + 1⟩) := by
      unfold add_to_table
      rw [hl]
      simp only [hfull, if_false]
      simp only [state_t.h]
      rw [rd_of_lt _ _ hidx]
    rw [heq] at hadd
    injection hadd with hadd
    injection hadd with _ hadd
    injection hadd with _ hadd
    subst hadd
    have hperm : (Table.mk (t.buckets.set (v &&& mask t.hash_size)
          (state_t.mk v s.prev s.c :: t.buckets.get ⟨v &&& mask t.hash_size, hidx⟩))
          t.hash_size t.fill_limit (t.filled + 1)).states.Perm
        (state_t.mk v s.prev s.c :: t.states) := by
      unfold Table.states
      simp only
      exact states_set_perm hidx _
    have hfe := hg.filled_eq
    refine ⟨true, _, _, heq, hinv1, Or.inr (Or.inl ⟨rfl, by omega, ?_, rfl, rfl, hperm⟩)⟩
    refine ⟨hg.size_eq, hg.limit_eq, ?_, ?_⟩
    · show t.filled + 1 = _
      rw [hperm.length_eq, List.length_cons, hfe]
    · simp only
      omega

/-- A sequence of `add_to_table` calls keeps the invariants of the table
and of its counters. -/
theorem offer_all_growth (b : Board) :
    ∀ (xs : List state_t) (t : Table) (k : Nat), TableInv b t → GrowthInv t k →
      (∀ s ∈ xs, Hashable b s) →
      ∃ rs t1 k1, offer_all b t xs = .ok (rs, t1) ∧ TableInv b t1 ∧ GrowthInv t1 k1 := by
  intro xs
  induction xs with
  | nil =>
    intro t k hinv hg _
    exact ⟨[], t, k, rfl, hinv, hg⟩
  | cons x xs ih =>
    intro t k hinv hg hall
    obtain ⟨r, s1, t1, hadd, hinv1, hcase⟩ :=
      add_to_table_growth hinv hg (hall x (by simp))
    have hg1 : ∃ k1, GrowthInv t1 k1 := by
      rcases hcase with ⟨_, h⟩ | ⟨_, _, h, _⟩ | ⟨_, _, h, _⟩
      · rw [h]; exact ⟨k, hg⟩
      · exact ⟨k, h⟩
      · exact ⟨k + 1, h⟩
    obtain ⟨k1, hg1⟩ := hg1
    obtain ⟨rs, t2, k2, hoff, hinv2, hg2⟩ := ih t1 k1 hinv1 hg1
      (fun s hs => hall s (by simp [hs]))
    refine ⟨r :: rs, t2, k2, ?_, hinv2, hg2⟩
    unfold offer_all
    rw [hadd]
    simp only
    rw [hoff]

theorem one_table_inv : TableInv room_board one_table := by
  refine ⟨by decide, by unfold one_table; rw [List.length_set, List.length_replicate], ?_⟩
  intro i f hf
  have hlen : 262 < (List.replicate 1024 ([] : List state_t)).length := by
    rw [List.length_replicate]; decide
  rcases (inBucket_set hlen _ i f).mp hf with ⟨hi, hmem⟩ | ⟨_, ⟨chain, hc, hfc⟩⟩
  · simp only [List.mem_singleton] at hmem
    subst hmem
    subst hi
    exact ⟨by decide, by decide, by decide⟩
  · rw [List.getElem?_replicate] at hc
    split at hc
    · cases hc
      simp at hfc
    · cases hc

/-! ## The sort loop on sorted slots -/

/-- The inner loop swaps nothing when every pair it compares is in order. -/
theorem sort_inner_sorted :
    ∀ (k j : Nat) (p : List Nat) (t : Nat), j + k < p.length →
      (∀ m a a1, j ≤ m → m < j + k → p[m]? = some a → p[m + 1]? = some a1 → a ≤ a1) →
      sort_inner k j p t = .ok (p, t) := by
  intro k
  induction k with
  | zero => intro j p t _ _; rfl
  | succ k ih =>
    intro j p t hlen hs
    have hj0 : j < p.length := by omega
    have hj1 : j + 1 < p.length := by omega
    unfold sort_inner
    have e : ((j : Int) + 1) = ((j + 1 : Nat) : Int) := by simp
    rw [e, rd_of_lt p j hj0, rd_of_lt p (j + 1) hj1]
    simp only
    have hle : p.get ⟨j, hj0⟩ ≤ p.get ⟨j + 1, hj1⟩ :=
      hs j _ _ (le_refl _) (by omega) (by simp [List.getElem?_eq_getElem hj0])
        (by simp [List.getElem?_eq_getElem hj1])
    have hng : ¬ (p.get ⟨j, hj0⟩ > p.get ⟨j + 1, hj1⟩) := by omega
    simp only [hng, if_false]
    exact ih (j + 1) p t (by omega) (fun m a a1 h1 h2 => hs m a a1 (by omega) (by omega))

/-- The sort loop of `move_me` returns its argument when the slots 1 to `n`
are in ascending order. -/
theorem sort_outer_sorted (n : Nat) (p : List Nat) (hlen : n + 1 ≤ p.length)
    (hs : ((p.drop 1).take n).Sorted (· ≤ ·)) : sort_outer n p = .ok p := by
  match n with
  | 0 => rfl
  | 1 => rfl
  | i + 2 =>
    unfold sort_outer
    have hin : sort_inner i 1 p 0 = .ok (p, 0) := by
      apply sort_inner_sorted i 1 p 0 (by omega)
      intro m a a1 h1 h2 ha ha1
      have hm : m - 1 < ((p.drop 1).take (i + 2)).length := by
        simp only [List.length_take, List.length_drop]
        omega
      have hm1 : m - 1 + 1 < ((p.drop 1).take (i + 2)).length := by
        simp only [List.length_take, List.length_drop]
        omega
      have hrel := List.pairwise_iff_getElem.mp hs (m - 1) (m - 1 + 1) hm hm1 (by omega)
      have g0 : ((p.drop 1).take (i + 2))[m - 1]? = some a := by
        rw [List.getElem?_take_of_lt (by omega), List.getElem?_drop]
        have : 1 + (m - 1) = m := by omega
        rw [this]
        exact ha
      have g1 : ((p.drop 1).take (i + 2))[m - 1 + 1]? = some a1 := by
        rw [List.getElem?_take_of_lt (by omega), List.getElem?_drop]
        have : 1 + (m - 1 + 1) = m + 1 := by omega
        rw [this]
        exact ha1
      rw [List.getElem?_eq_getElem hm] at g0
      rw [List.getElem?_eq_getElem hm1] at g1
      cases g0
      cases g1
      exact hrel
    rw [hin]
    simp

/-- A call of `move_me` that finds no box on the destination returns the
destination followed by the box slots as the sort loop leaves them. -/
theorem move_me_walk_eq {b : Board} {s : state_t} {dy dx : Int} {v : Nat}
    (hw : b.w ≠ 0) (hlen : s.c.length = b.n_boxes + 1) (hoff : ¬ off_grid b s dy dx)
    (h1 : rd b.board (cell1 b s dy dx) = .ok v) (hv : v ≠ wall)
    (hfree : ∀ x ∈ boxes b s, (x : Int) ≠ cell1 b s dy dx) {p : List Nat}
    (hp : sort_outer b.n_boxes (to_cidx (cell1 b s dy dx) :: boxes b s) = .ok p) :
    move_me b s dy dx = .ok (some (newstate (some s) p)) := by
  obtain ⟨p0, bs, hc, hn⟩ : ∃ p0 bs, s.c = p0 :: bs ∧ bs.length = b.n_boxes := by
    cases hcs : s.c with
    | nil => rw [hcs] at hlen; simp at hlen
    | cons p0 bs => rw [hcs] at hlen; exact ⟨p0, bs, rfl, by simpa using hlen⟩
  have hbx : boxes b s = bs := boxes_of_cons hc hn
  have hc0 : cell0 s = (p0 : Int) := cell0_of_cons hc
  have hrd0 : rd s.c 0 = .ok p0 := by
    rw [hc]; exact rd_nat_ok.mpr (by simp)
  have hy1 : Int.tdiv (p0 : Int) b.w + dy = row1 b s dy := by simp [row1, hc0]
  have hx1 : Int.tmod (p0 : Int) b.w + dx = col1 b s dx := by simp [col1, hc0]
  unfold move_me
  simp only [hw, if_false, hrd0, hy1, hx1]
  have hg : (row1 b s dy < 0 ∨ row1 b s dy > b.h ∨ col1 b s dx < 0 ∨ col1 b s dx > b.w)
      = off_grid b s dy dx := rfl
  have hcell1 : row1 b s dy * b.w + col1 b s dx = cell1 b s dy dx := rfl
  simp only [hg, hcell1, hoff, if_false, h1, hv]
  have hlt : ¬ (s.c.length < b.n_boxes + 1) := by omega
  have hbs : List.take b.n_boxes (List.drop 1 s.c) = bs := hbx
  simp only [hlt, if_false, hbs]
  obtain ⟨r, hr, hcase⟩ := find_box_cons p0 (cell1 b s dy dx) bs
  rw [← hc, hn] at hr
  simp only [hr]
  rcases hcase with ⟨h0, _⟩ | ⟨j, x, _, hjx, hxv, _⟩
  · subst h0
    rw [hbx] at hp
    simp only [ne_eq, not_true_eq_false, if_false, hp]
  · exact absurd hxv (hfree x (by rw [hbx]; exact List.mem_iff_getElem?.mpr ⟨_, hjx⟩))

/-- A move that finds no box on the destination, from a record with its box
slots in ascending order, returns a record with these box slots. -/
theorem move_me_keeps_sorted {b : Board} {s n : state_t} {dy dx : Int}
    (hlen : s.c.length = b.n_boxes + 1) (hs : (boxes b s).Sorted (· ≤ ·))
    (hfree : ∀ x ∈ boxes b s, (x : Int) ≠ cell1 b s dy dx)
    (hm : move_me b s dy dx = .ok (some n)) :
    n = .mk 0 (some s) (to_cidx (cell1 b s dy dx) :: boxes b s) := by
  have hw : b.w ≠ 0 := by
    intro h
    unfold move_me at hm
    simp [h] at hm
  have hcase := move_me_case b s dy dx hw hlen
  rw [hm] at hcase
  have hbl := boxes_length hlen
  have key : ∀ {v : Nat}, ¬ off_grid b s dy dx → rd b.board (cell1 b s dy dx) = .ok v →
      v ≠ wall → n = .mk 0 (some s) (to_cidx (cell1 b s dy dx) :: boxes b s) := by
    intro v hoff h1 hv
    have hso : sort_outer b.n_boxes (to_cidx (cell1 b s dy dx) :: boxes b s)
        = .ok (to_cidx (cell1 b s dy dx) :: boxes b s) := by
      apply sort_outer_sorted
      · simp [hbl]
      · simp only [List.drop_succ_cons, List.drop_zero]
        rw [List.take_of_length_le (by omega)]
        exact hs
    have e := move_me_walk_eq hw hlen hoff h1 hv hfree hso
    simp only [newstate] at e
    rw [hm] at e
    cases e
    rfl
  cases hcase with
  | walk v bs1 h h1 hv _ _ => exact key h h1 hv
  | push v v2 l j x bs1 h h1 hv hj hx hfirst h2 hv2 h3 hl hfree2 hperm =>
    exact absurd hx (hfree x (List.mem_iff_getElem?.mpr ⟨_, hj⟩))

/-! ## The first loop of `parse_board` on a whole text -/

theorem to_cidx_nat (i : Nat) : to_cidx (i : Int) = i % 65536 := by
  unfold to_cidx
  omega

theorem text_at_lt {s : List Char} {i : Nat} (h : i < s.length) :
    s[i]? = some (text_at s i) := by
  unfold text_at
  simp [List.getD_eq_getElem?_getD, List.getElem?_eq_getElem h]

theorem text_at_ge {s : List Char} {i : Nat} (h : s.length ≤ i) :
    text_at s i = Char.ofNat 0 := by
  unfold text_at
  simp [List.getD_eq_getElem?_getD, List.getElem?_eq_none h]

theorem rd_text_eq {s : List Char} {i : Nat} (h : i ≤ s.length) :
    rd_text s i = .ok (text_at s i) := by
  unfold rd_text
  by_cases hlt : i < s.length
  · simp only [hlt, if_true]
    exact rd_nat_ok.mpr (text_at_lt hlt)
  · have : i = s.length := by omega
    subst this
    simp [text_at_ge (le_refl _)]

theorem positions_succ (p : Char → Bool) (s : List Char) (k : Nat) :
    positions p s (k + 1) = positions p s k ++ (if p (text_at s k) = true then [k] else []) := by
  unfold positions
  rw [List.range_succ, List.filter_append]
  by_cases h : p (text_at s k) = true
  · simp [h]
  · simp [h]

theorem positions_le (p : Char → Bool) (s : List Char) :
    ∀ (d k : Nat), (positions p s k).length ≤ (positions p s (k + d)).length := by
  intro d
  induction d with
  | zero => intro k; exact le_refl _
  | succ d ih =>
    intro k
    have := ih k
    rw [← Nat.add_assoc, positions_succ, List.length_append]
    omega

/-- Beyond the end of the text no position is added when the terminator
does not satisfy `p`. -/
theorem positions_end (p : Char → Bool) (s : List Char) (hp : p (Char.ofNat 0) = false) :
    ∀ (d : Nat), positions p s (s.length + d) = positions p s s.length := by
  intro d
  induction d with
  | zero => rfl
  | succ d ih =>
    rw [← Nat.add_assoc, positions_succ, ih, text_at_ge (by omega), hp]
    simp

theorem drop_cons_text {s : List Char} {i : Nat} {ch : Char} {rest : List Char}
    (h : s.drop i = ch :: rest) : text_at s i = ch ∧ s.drop (i + 1) = rest ∧ i < s.length := by
  have hlt : i < s.length := by
    by_contra hge
    rw [List.drop_eq_nil_of_le (by omega)] at h
    cases h
  have h1 := List.drop_eq_getElem_cons hlt
  rw [h] at h1
  injection h1 with h2 h3
  refine ⟨?_, h3.symm, hlt⟩
  have := text_at_lt hlt
  rw [List.getElem?_eq_getElem hlt] at this
  injection this with this
  rw [← this, ← h2]

/-- One iteration of the first loop, as `cell_step`. -/
theorem parse_cells_cons {ch : Char} {rest : List Char} {i : Nat} {b : Board}
    (hch : ch ≠ Char.ofNat 0) (hb : i < b.board.length) (hg : i < b.goals.length) :
    parse_cells (ch :: rest) i b = parse_cells rest (i + 1) (cell_step ch i b) := by
  have hwb : ∀ v, wr b.board (i : Int) v = .ok (b.board.set i v) := by
    intro v
    simp [wr, hb]
  have hwg : ∀ v, wr b.goals (i : Int) v = .ok (b.goals.set i v) := by
    intro v
    simp [wr, hg]
  conv_lhs => unfold parse_cells
  unfold cell_step
  simp only [hch, if_false, hwb, hwg]
  by_cases h1 : ch = '#'
  · subst h1
    simp [is_box_char, is_goal_char]
  simp only [h1, if_false]
  by_cases h2 : ch = '.' ∨ ch = '+'
  · simp only [h2, if_true]
    rcases h2 with h2 | h2 <;> subst h2 <;> simp [is_box_char, is_goal_char]
  simp only [h2, if_false]
  have h2a : ch ≠ '.' := fun h => h2 (Or.inl h)
  have h2b : ch ≠ '+' := fun h => h2 (Or.inr h)
  by_cases h3 : ch = '*'
  · subst h3
    simp [is_box_char, is_goal_char]
  simp only [h3, if_false]
  by_cases h4 : ch = '$'
  · subst h4
    simp [is_box_char, is_goal_char]
  simp only [h4, if_false]
  simp [is_box_char, is_goal_char, h2a, h2b, h3, h4]

/-- One iteration of the first loop keeps its invariant. -/
theorem cellsAt_step {w h : Int} {n : Nat} {s : List Char} {i : Nat} {b : Board}
    (hc : CellsAt w h n s i b) (hi : i < n) :
    CellsAt w h n s (i + 1) (cell_step (text_at s i) i b) := by
  refine ⟨hc.w_eq, hc.h_eq, hc.live_eq, ?_, ?_, ?_, ?_, ?_⟩
  · unfold cell_step
    simp only
    split <;> simp [hc.board_len]
  · unfold cell_step
    simp only
    split <;> simp [hc.goals_len]
  · intro m hm
    unfold cell_step
    simp only
    by_cases hmi : m = i
    · subst hmi
      by_cases hw : text_at s m = '#'
      · simp only [hw, if_true]
        rw [List.getElem?_set_self (by rw [hc.board_len]; exact hm)]
        simp
      · simp only [hw, if_false, and_false]
        have := hc.board_at m hm
        simpa using this
    · have e : (m < i + 1 ∧ text_at s m = '#') ↔ (m < i ∧ text_at s m = '#') := by
        constructor
        · rintro ⟨h1, h2⟩; exact ⟨by omega, h2⟩
        · rintro ⟨h1, h2⟩; exact ⟨by omega, h2⟩
      simp only [e]
      split
      · rw [List.getElem?_set_ne (fun h => hmi h.symm)]
        exact hc.board_at m hm
      · exact hc.board_at m hm
  · intro m hm
    unfold cell_step
    simp only
    by_cases hmi : m = i
    · subst hmi
      by_cases hw : is_goal_char (text_at s m) = true
      · simp only [hw, if_true]
        rw [List.getElem?_set_self (by rw [hc.goals_len]; exact hm)]
        simp
      · simp only [hw, if_false, and_false]
        have := hc.goals_at m hm
        simpa using this
    · have e : (m < i + 1 ∧ is_goal_char (text_at s m) = true) ↔
          (m < i ∧ is_goal_char (text_at s m) = true) := by
        constructor
        · rintro ⟨h1, h2⟩; exact ⟨by omega, h2⟩
        · rintro ⟨h1, h2⟩; exact ⟨by omega, h2⟩
      simp only [e]
      split
      · rw [List.getElem?_set_ne (fun h => hmi h.symm)]
        exact hc.goals_at m hm
      · exact hc.goals_at m hm
  · unfold cell_step
    simp only
    rw [positions_succ, List.length_append, ← hc.boxes_eq]
    split <;> simp

/-- The first loop of `parse_board` on a text without NUL that fits the
arrays runs to the end of the text. -/
theorem parse_cells_total {w h : Int} {n : Nat} {s : List Char} :
    ∀ (rest : List Char) (i : Nat) (b : Board), s.drop i = rest → Char.ofNat 0 ∉ rest →
      i + rest.length ≤ n → CellsAt w h n s i b →
      ∃ b1, parse_cells rest i b = .ok b1 ∧ CellsAt w h n s (i + rest.length) b1 := by
  intro rest
  induction rest with
  | nil =>
    intro i b _ _ _ hc
    exact ⟨b, rfl, hc⟩
  | cons ch rest ih =>
    intro i b hd hnul hlen hc
    obtain ⟨h1, h2, _⟩ := drop_cons_text hd
    have hch : ch ≠ Char.ofNat 0 := fun h => hnul (by rw [h]; simp)
    simp only [List.length_cons] at hlen
    rw [parse_cells_cons hch (by rw [hc.board_len]; omega) (by rw [hc.goals_len]; omega)]
    have hstep := cellsAt_step hc (show i < n by omega)
    rw [h1] at hstep
    obtain ⟨b1, e1, e2⟩ := ih (i + 1) _ h2 (fun h => hnul (by simp [h])) (by omega) hstep
    refine ⟨b1, e1, ?_⟩
    have : i + (ch :: rest).length = i + 1 + rest.length := by simp; omega
    rw [this]
    exact e2

/-! ## The second loop of `parse_board` on a whole text -/

theorem is_box_iff (ch : Char) : (ch = '$' ∨ ch = '*') ↔ is_box_char ch = true := by
  simp [is_box_char]

theorem is_player_iff (ch : Char) : (ch = '@' ∨ ch = '+') ↔ is_player_char ch = true := by
  simp [is_player_char]

theorem box_not_player {ch : Char} (h : is_box_char ch = true) : is_player_char ch = false := by
  rcases (is_box_iff ch).mpr h with h | h <;> subst h <;> decide

theorem stepClosed_true (W H : Int) (BD : List Nat) : StepClosed W H BD (fun _ => True) :=
  ⟨fun _ _ _ _ _ _ _ => trivial, fun _ _ _ _ _ _ _ => trivial, fun _ _ _ _ _ _ _ => trivial,
    fun _ _ _ _ _ _ _ => trivial⟩

/-- One iteration of the second loop keeps the invariant of the record
under construction. -/
theorem placeAt_step {s : List Char} {nb i j : Nat} {slots : List Nat}
    (hnb : nb = (positions is_box_char s s.length).length) (hp : PlaceAt s nb i j slots)
    (hi : i ≤ s.length) :
    ∃ j1 slots1,
      (if text_at s i = '$' ∨ text_at s i = '*' then
        (wr slots ((j : Int) + 1) (to_cidx (i : Int)) = .ok slots1 ∧ j1 = j + 1)
      else if text_at s i = '@' ∨ text_at s i = '+' then
        (wr slots 0 (to_cidx (i : Int)) = .ok slots1 ∧ j1 = j)
      else (slots1 = slots ∧ j1 = j)) ∧ PlaceAt s nb (i + 1) j1 slots1 := by
  have hlen := hp.len
  by_cases hb : text_at s i = '$' ∨ text_at s i = '*'
  · have hbc := (is_box_iff _).mp hb
    have hpl := box_not_player hbc
    have hlt : i < s.length := by
      by_contra hge
      rw [text_at_ge (by omega)] at hbc
      revert hbc
      decide
    have hpos : positions is_box_char s (i + 1) = positions is_box_char s i ++ [i] := by
      rw [positions_succ, hbc]; rfl
    have hppl : positions is_player_char s (i + 1) = positions is_player_char s i := by
      rw [positions_succ, hpl]; simp
    have hj : j + 1 ≤ nb := by
      have := positions_le is_box_char s (s.length - (i + 1)) (i + 1)
      rw [hpos, List.length_append, ← hp.count] at this
      have e : i + 1 + (s.length - (i + 1)) = s.length := by omega
      rw [e, ← hnb] at this
      simpa using this
    refine ⟨j + 1, slots.set (j + 1) (i % 65536), ?_, ?_⟩
    · rw [if_pos hb]
      refine ⟨?_, rfl⟩
      rw [to_cidx_nat]
      have h0 : (0 : Int) ≤ (j : Int) + 1 := by omega
      have ht : ((j : Int) + 1).toNat = j + 1 := by omega
      unfold wr
      rw [if_pos ⟨h0, by rw [ht]; omega⟩, ht]
    · refine ⟨by simp [hlen], by rw [hpos, List.length_append, ← hp.count]; rfl, ?_, ?_⟩
      · intro m q hq
        rw [hpos] at hq
        by_cases hm : m < j
        · rw [List.getElem?_append_left (by rw [← hp.count]; exact hm)] at hq
          rw [List.getElem?_set_ne (by omega)]
          exact hp.boxes_at m q hq
        · by_cases hmj : m = j
          · subst hmj
            rw [List.getElem?_append_right (by rw [← hp.count])] at hq
            rw [← hp.count] at hq
            simp at hq
            subst hq
            rw [List.getElem?_set_self (by omega)]
          · rw [List.getElem?_eq_none (by
              rw [List.length_append, ← hp.count]; simp; omega)] at hq
            cases hq
      · intro q hq
        rw [hppl] at hq
        rw [List.getElem?_set_ne (by omega)]
        exact hp.player_at q hq
  · have hbc : is_box_char (text_at s i) = false := by
      cases h : is_box_char (text_at s i) with
      | false => rfl
      | true => exact absurd ((is_box_iff _).mpr h) hb
    have hpos : positions is_box_char s (i + 1) = positions is_box_char s i := by
      rw [positions_succ, hbc]; simp
    by_cases hpc : text_at s i = '@' ∨ text_at s i = '+'
    · have hpl := (is_player_iff _).mp hpc
      have hppl : positions is_player_char s (i + 1) = positions is_player_char s i ++ [i] := by
        rw [positions_succ, hpl]; rfl
      refine ⟨j, slots.set 0 (i % 65536), ?_, ?_⟩
      · rw [if_neg hb, if_pos hpc]
        refine ⟨?_, rfl⟩
        rw [to_cidx_nat]
        have : 0 < slots.length := by omega
        simp [wr, this]
      · refine ⟨by simp [hlen], by rw [hpos]; exact hp.count, ?_, ?_⟩
        · intro m q hq
          rw [hpos] at hq
          rw [List.getElem?_set_ne (by omega)]
          exact hp.boxes_at m q hq
        · intro q hq
          rw [hppl, List.getLast?_concat] at hq
          cases hq
          rw [List.getElem?_set_self (by omega)]
    · have hpl : is_player_char (text_at s i) = false := by
        cases h : is_player_char (text_at s i) with
        | false => rfl
        | true => exact absurd ((is_player_iff _).mpr h) hpc
      have hppl : positions is_player_char s (i + 1) = positions is_player_char s i := by
        rw [positions_succ, hpl]; simp
      refine ⟨j, slots, ?_, ?_⟩
      · rw [if_neg hb, if_neg hpc]
        exact ⟨rfl, rfl⟩
      · refine ⟨hlen, by rw [hpos]; exact hp.count, ?_, ?_⟩
        · intro m q hq
          rw [hpos] at hq
          exact hp.boxes_at m q hq
        · intro q hq
          rw [hppl] at hq
          exact hp.player_at q hq

/-- The second loop of `parse_board` runs through the cells when every
index it reads lies in the text or on its terminator. -/
theorem place_loop_total {W H : Int} {BD : List Nat} (hW : 0 < W)
    (hBD : (BD.length : Int) = W * H) (s : List Char) (nb fuel : Nat)
    (hnb : nb = (positions is_box_char s s.length).length) :
    ∀ (k i j : Nat) (b : Board) (slots : List Nat),
      Fill W H BD (fun _ => True) (fun _ => True) b → (b.goals.length : Int) = W * H →
      ((i + k : Nat) : Int) ≤ W * H → i + k ≤ s.length + 1 → b.live.count 0 < fuel →
      PlaceAt s nb i j slots →
      ∃ b1 slots1 j1, place_loop s fuel k i j b slots = .ok (b1, slots1) ∧
        Filled W H BD (fun _ => True) (fun _ => True) b b1 ∧ PlaceAt s nb (i + k) j1 slots1 := by
  intro k
  induction k with
  | zero =>
    intro i j b slots hF _ _ _ _ hp
    exact ⟨b, slots, j, rfl, filled_refl hF, hp⟩
  | succ k ih =>
    intro i j b slots hF hgl hik hik2 hcnt hp
    unfold place_loop
    obtain ⟨g, hg⟩ := rd_sized (a := b.goals) hgl (c := (i : Int)) (by omega)
      (by push_cast at hik; omega)
    rw [hg]
    simp only
    have hml : ∃ b2, (if g ≠ 0 then mark_live fuel b (i : Int) else Res.ok b) = .ok b2 ∧
        Filled W H BD (fun _ => True) (fun _ => True) b b2 := by
      by_cases hg0 : g = 0
      · simp only [hg0, ne_eq, not_true_eq_false, if_false]
        exact ⟨b, rfl, filled_refl hF⟩
      · simp only [ne_eq, hg0, not_false_eq_true, if_true]
        exact mark_live_fill hW hBD (stepClosed_true W H BD) trivial fuel b (i : Int) hF
          (by omega) (by push_cast at hik; omega) trivial hcnt
    obtain ⟨b2, hb2, hf2⟩ := hml
    rw [hb2]
    simp only
    rw [rd_text_eq (by omega)]
    simp only
    obtain ⟨j1, slots1, hstep, hp1⟩ := placeAt_step hnb hp (by omega)
    have hgl2 : (b2.goals.length : Int) = W * H := by rw [hf2.goals_eq]; exact hgl
    have hrec := ih (i + 1) j1 b2 slots1 hf2.fill hgl2 (by push_cast at hik ⊢; omega)
      (by omega) (lt_of_le_of_lt hf2.count_le hcnt) hp1
    obtain ⟨b3, slots3, j3, e3, f3, p3⟩ := hrec
    have hidx : i + 1 + k = i + (k + 1) := by omega
    rw [hidx] at p3
    refine ⟨b3, slots3, j3, ?_, filled_trans hf2 f3, p3⟩
    by_cases hb : text_at s i = '$' ∨ text_at s i = '*'
    · rw [if_pos hb] at hstep ⊢
      obtain ⟨hw, hj⟩ := hstep
      rw [hw]
      simp only
      rw [← hj]
      exact e3
    · rw [if_neg hb] at hstep ⊢
      by_cases hpc : text_at s i = '@' ∨ text_at s i = '+'
      · rw [if_pos hpc] at hstep ⊢
        obtain ⟨hw, hj⟩ := hstep
        rw [hw]
        simp only
        rw [← hj]
        exact e3
      · rw [if_neg hpc] at hstep ⊢
        obtain ⟨hw, hj⟩ := hstep
        rw [← hw, ← hj]
        exact e3

/-- The arrays with `n` zero cells satisfy the invariant of the first loop
at index 0. -/
theorem cellsAt_init (w h : Int) (n : Nat) (s : List Char) :
    CellsAt w h n s 0 ⟨w, h, 0, List.replicate n 0, List.replicate n 0, List.replicate n 0⟩ := by
  refine ⟨rfl, rfl, rfl, by simp, by simp, ?_, ?_, rfl⟩
  · intro m hm
    simp [List.getElem?_replicate, hm, space]
  · intro m hm
    simp [List.getElem?_replicate, hm]

/-- The board and the initial record that `parse_board` builds from a text
without NUL of `w * h` or `w * h - 1` characters. -/
theorem parse_board_total {w h : Int} {s : List Char} (hw : 0 < w) (hh : 0 < h)
    (hnul : Char.ofNat 0 ∉ s) (hlo : (w * h).toNat ≤ s.length + 1)
    (hhi : s.length ≤ (w * h).toNat) :
    ∃ b p, parse_board w h s =
        .ok (b, .mk 0 none (p :: (positions is_box_char s s.length).map (fun q => q % 65536))) ∧
      b.w = w ∧ b.h = h ∧ b.n_boxes = (positions is_box_char s s.length).length ∧
      b.board = (List.range (w * h).toNat).map
        (fun i => if text_at s i = '#' then wall else space) ∧
      b.goals = (List.range (w * h).toNat).map
        (fun i => if is_goal_char (text_at s i) = true then 1 else 0) ∧
      (∀ q, (positions is_player_char s s.length).getLast? = some q → p = q % 65536) := by
  have hpos : 0 < w * h := mul_pos hw hh
  have hn : (((w * h).toNat : Nat) : Int) = w * h := Int.toNat_of_nonneg (le_of_lt hpos)
  obtain ⟨b1, hb1, hc1⟩ := parse_cells_total (w := w) (h := h) (n := (w * h).toNat) (s := s)
    s 0 _ rfl hnul (by omega) (cellsAt_init w h _ s)
  rw [Nat.zero_add] at hc1
  have hF1 : Fill w h b1.board (fun _ => True) (fun _ => True) b1 :=
    ⟨hc1.w_eq, hc1.h_eq, rfl, by rw [hc1.live_eq, List.length_replicate, hn],
      fun _ _ _ _ => trivial, fun _ _ _ _ => trivial⟩
  have hBD : (b1.board.length : Int) = w * h := by rw [hc1.board_len, hn]
  have hp0 : PlaceAt s b1.n_boxes 0 0 (List.replicate (b1.n_boxes + 1) 0) := by
    refine ⟨by simp, rfl, ?_, ?_⟩
    · intro m q hq
      simp [positions] at hq
    · intro q hq
      simp [positions] at hq
  have hcnt : b1.live.count 0 < (w * h).toNat + 1 := by
    rw [hc1.live_eq]; exact count_replicate_zero_le _
  obtain ⟨b2, slots, j, hpl, hf2, hp2⟩ := place_loop_total hw hBD s b1.n_boxes
    ((w * h).toNat + 1) hc1.boxes_eq (w * h).toNat 0 0 b1 _ hF1
    (by rw [hc1.goals_len, hn]) (by rw [Nat.zero_add, hn]) (by omega) hcnt hp0
  rw [Nat.zero_add] at hp2
  have hend : ∀ (p : Char → Bool), p (Char.ofNat 0) = false →
      positions p s (w * h).toNat = positions p s s.length := by
    intro p hp
    have e : (w * h).toNat = s.length + ((w * h).toNat - s.length) := by omega
    rw [e]
    exact positions_end p s hp _
  have hbx := hend is_box_char (by decide)
  have hpy := hend is_player_char (by decide)
  obtain ⟨p, tl, hslots⟩ : ∃ p tl, slots = p :: tl := by
    cases hs : slots with
    | nil => have := hp2.len; rw [hs] at this; simp at this
    | cons p tl => exact ⟨p, tl, rfl⟩
  have htl : tl = (positions is_box_char s s.length).map (fun q => q % 65536) := by
    apply List.ext_getElem?
    intro m
    have hlen : tl.length = (positions is_box_char s s.length).length := by
      have := hp2.len
      rw [hslots] at this
      simp only [List.length_cons] at this
      rw [← hc1.boxes_eq]
      omega
    by_cases hm : m < (positions is_box_char s s.length).length
    · have hq := List.getElem?_eq_getElem hm
      have := hp2.boxes_at m _ (by rw [hbx]; exact hq)
      rw [hslots, List.getElem?_cons_succ] at this
      rw [this, List.getElem?_map, hq]
      rfl
    · rw [List.getElem?_eq_none (by omega), List.getElem?_eq_none (by simp; omega)]
  refine ⟨b2, p, ?_, ?_, ?_, ?_, ?_, ?_, ?_⟩
  · unfold parse_board
    have hneg : ¬ (w * h < 0) := by omega
    simp only [hneg, if_false, hb1, hpl, newstate, hslots, htl]
  · rw [hf2.fill.w_eq]
  · rw [hf2.fill.h_eq]
  · rw [hf2.n_eq]; exact hc1.boxes_eq
  · rw [hf2.fill.board_eq]
    apply List.ext_getElem?
    intro m
    by_cases hm : m < (w * h).toNat
    · rw [hc1.board_at m hm, List.getElem?_map, List.getElem?_range hm]
      simp only [Option.map_some']
      by_cases hms : m < s.length
      · simp [hms]
      · have : text_at s m ≠ '#' := by
          rw [text_at_ge (by omega)]
          decide
        simp [this]
    · rw [List.getElem?_eq_none (by rw [hc1.board_len]; omega),
        List.getElem?_eq_none (by simp; omega)]
  · rw [hf2.goals_eq]
    apply List.ext_getElem?
    intro m
    by_cases hm : m < (w * h).toNat
    · rw [hc1.goals_at m hm, List.getElem?_map, List.getElem?_range hm]
      simp only [Option.map_some']
      by_cases hms : m < s.length
      · simp [hms]
      · have : is_goal_char (text_at s m) = false := by
          rw [text_at_ge (by omega)]
          decide
        simp [this]
    · rw [List.getElem?_eq_none (by rw [hc1.goals_len]; omega),
        List.getElem?_eq_none (by simp; omega)]
  · intro q hq
    have := hp2.player_at q (by rw [hpy]; exact hq)
    rw [hslots] at this
    simpa using this

/-! ## Goal cells are not walls -/

theorem wr_eq_set {a a1 : List Nat} {i : Int} {v : Nat} (h : wr a i v = .ok a1) :
    0 ≤ i ∧ i.toNat < a.length ∧ a1 = a.set i.toNat v := by
  unfold wr at h
  split_ifs at h with hc
  cases h
  exact ⟨hc.1, hc.2, rfl⟩

/-- The first loop of `parse_board`, on arrays that are zero from the index
`i` on, never leaves a goal flag on a wall cell. -/
theorem parse_cells_apart :
    ∀ (s : List Char) (i : Nat) (b b1 : Board), parse_cells s i b = .ok b1 →
      (∀ (m : Int) (v : Nat), (i : Int) ≤ m → rd b.board m = .ok v → v = 0) →
      (∀ (m : Int) (g : Nat), (i : Int) ≤ m → rd b.goals m = .ok g → g = 0) →
      (∀ (m : Int) (v g : Nat), rd b.board m = .ok v → rd b.goals m = .ok g → g ≠ 0 → v ≠ wall) →
      ∀ (m : Int) (v g : Nat), rd b1.board m = .ok v → rd b1.goals m = .ok g → g ≠ 0 →
        v ≠ wall := by
  intro s
  induction s with
  | nil =>
    intro i b b1 h _ _ hap
    unfold parse_cells at h
    cases h
    exact hap
  | cons ch rest ih =>
    intro i b b1 h hzb hzg hap
    unfold parse_cells at h
    have hset_goal : ∀ (gl : List Nat) (nb : Nat), wr b.goals (i : Int) 1 = .ok gl →
        parse_cells rest (i + 1) ⟨b.w, b.h, nb, b.board, gl, b.live⟩ = .ok b1 →
        ∀ (m : Int) (v g : Nat), rd b1.board m = .ok v → rd b1.goals m = .ok g → g ≠ 0 →
          v ≠ wall := by
      intro gl nb hw hrest
      obtain ⟨w0, _, wset⟩ := wr_eq_set hw
      subst wset
      apply ih (i + 1) _ b1 hrest
      · intro m v hm hv
        exact hzb m v (by push_cast at hm; omega) hv
      · intro m g hm hg
        simp only at hg
        rw [rd_set_other w0 (by push_cast at hm; omega)] at hg
        exact hzg m g (by push_cast at hm; omega) hg
      · intro m v g hv hg hg0
        simp only at hv hg
        by_cases hmi : m = (i : Int)
        · rw [hmi] at hv
          have := hzb _ v (le_refl _) hv
          rw [this]
          decide
        · rw [rd_set_other w0 hmi] at hg
          exact hap m v g hv hg hg0
    split_ifs at h with h0 h1 h2 h3 h4
    · cases h
      exact hap
    · cases hw : wr b.board (i : Int) wall with
      | fault => rw [hw] at h; cases h
      | timeout => rw [hw] at h; cases h
      | ok bd =>
        rw [hw] at h
        simp only at h
        obtain ⟨w0, _, wset⟩ := wr_eq_set hw
        subst wset
        apply ih (i + 1) _ b1 h
        · intro m v hm hv
          simp only at hv
          rw [rd_set_other w0 (by push_cast at hm; omega)] at hv
          exact hzb m v (by push_cast at hm; omega) hv
        · intro m g hm hg
          exact hzg m g (by push_cast at hm; omega) hg
        · intro m v g hv hg hg0
          simp only at hv hg
          by_cases hmi : m = (i : Int)
          · rw [hmi] at hg
            exact absurd (hzg _ g (le_refl _) hg) hg0
          · rw [rd_set_other w0 hmi] at hv
            exact hap m v g hv hg hg0
    · cases hw : wr b.goals (i : Int) 1 with
      | fault => rw [hw] at h; cases h
      | timeout => rw [hw] at h; cases h
      | ok gl =>
        rw [hw] at h
        exact hset_goal gl _ hw h
    · cases hw : wr b.goals (i : Int) 1 with
      | fault => rw [hw] at h; cases h
      | timeout => rw [hw] at h; cases h
      | ok gl =>
        rw [hw] at h
        exact hset_goal gl _ hw h
    · apply ih (i + 1) _ b1 h
      · intro m v hm hv
        exact hzb m v (by push_cast at hm; omega) hv
      · intro m g hm hg
        exact hzg m g (by push_cast at hm; omega) hg
      · exact hap
    · apply ih (i + 1) _ b1 h
      · intro m v hm hv
        exact hzb m v (by push_cast at hm; omega) hv
      · intro m g hm hg
        exact hzg m g (by push_cast at hm; omega) hg
      · exact hap

/-- After `parse_board` every goal cell is a cell of `board` that is not a
wall. -/
theorem parse_board_apart {w h : Int} {s : List Char} {b : Board} {s0 : state_t}
    (hp : parse_board w h s = .ok (b, s0)) :
    ∀ (m : Int) (g : Nat), rd b.goals m = .ok g → g ≠ 0 → open_at b.board m := by
  unfold parse_board at hp
  split_ifs at hp with hneg
  simp only at hp
  cases hpc : parse_cells s 0 ⟨w, h, 0, List.replicate (w * h).toNat 0,
      List.replicate (w * h).toNat 0, List.replicate (w * h).toNat 0⟩ with
  | fault => rw [hpc] at hp; cases hp
  | timeout => rw [hpc] at hp; cases hp
  | ok b1 =>
    rw [hpc] at hp
    simp only at hp
    cases hpl : place_loop s ((w * h).toNat + 1) (w * h).toNat 0 0 b1
        (List.replicate (b1.n_boxes + 1) 0) with
    | fault => rw [hpl] at hp; cases hp
    | timeout => rw [hpl] at hp; cases hp
    | ok x =>
      obtain ⟨b2, c⟩ := x
      rw [hpl] at hp
      simp only at hp
      cases hp
      obtain ⟨_, _, k3, k4⟩ := parse_cells_keeps s 0 _ b1 hpc
      have k5 := parse_cells_board_len s 0 _ b1 hpc
      simp only [List.length_replicate] at k4 k5
      obtain ⟨m1, _, _⟩ := place_loop_spec s _ _ 0 0 b1 _ b _ hpl (by
        intro c l hl hl0
        rw [k3] at hl
        exact absurd (rd_replicate_zero hl) hl0)
      have hap := parse_cells_apart s 0 _ b1 hpc
        (fun m v _ hv => rd_replicate_zero hv) (fun m g _ hg => rd_replicate_zero hg)
        (fun m v g _ hg hg0 => absurd (rd_replicate_zero hg) hg0)
      intro m g hg hg0
      rw [m1.goals_eq] at hg
      obtain ⟨h0, h1⟩ := rd_lt hg
      obtain ⟨v, hv⟩ := rd_sized (a := b1.board) (n := (b1.board.length : Int)) rfl h0
        (by rw [k5, ← k4]; exact h1)
      rw [m1.board_eq]
      exact ⟨v, hv, hap m v g hv hg hg0⟩


/-! ## The long line -/

theorem long_text_length : long_text.length = 65538 := by
  unfold long_text
  rw [List.length_append, List.length_replicate]
  rfl

theorem long_text_blank {m : Nat} (h : m < 65536) : text_at long_text m = ' ' := by
  unfold text_at long_text
  rw [List.getD_eq_getElem?_getD,
    List.getElem?_append_left (by rw [List.length_replicate]; exact h),
    List.getElem?_replicate]
  simp only [h, if_true]
  rfl

theorem long_text_player : text_at long_text 65536 = '@' := by
  unfold text_at long_text
  rw [List.getD_eq_getElem?_getD,
    List.getElem?_append_right (by rw [List.length_replicate]), List.length_replicate]
  rfl

theorem long_text_newline : text_at long_text 65537 = '\n' := by
  unfold text_at long_text
  rw [List.getD_eq_getElem?_getD,
    List.getElem?_append_right (by rw [List.length_replicate]; omega), List.length_replicate]
  rfl

theorem long_text_positions (p : Char → Bool) (hp : p ' ' = false) :
    ∀ k, k ≤ 65536 → positions p long_text k = [] := by
  intro k
  induction k with
  | zero => intro _; rfl
  | succ k ih =>
    intro hk
    rw [positions_succ, ih (by omega), long_text_blank (by omega), hp]
    rfl

theorem long_text_nul : Char.ofNat 0 ∉ long_text := by
  unfold long_text
  rw [List.mem_append]
  rintro (h | h)
  · have := (List.mem_replicate.mp h).2
    revert this
    decide
  · revert h
    decide
/-- The record `parse_board` builds from the long line holds 0 in the
player slot. -/
theorem long_text_parse :
    ∃ b, parse_board 65538 1 long_text = .ok (b, .mk 0 none [0]) := by
  have hn : ((65538 : Int) * 1).toNat = 65538 := by decide
  obtain ⟨b, p, h1, _, _, _, _, _, h7⟩ := parse_board_total (w := 65538) (h := 1)
    (s := long_text) (by decide) (by decide) long_text_nul
    (by rw [long_text_length, hn]; omega) (by rw [long_text_length, hn])
  rw [long_text_length] at h1 h7
  have hbox : positions is_box_char long_text 65538 = [] := by
    rw [positions_succ, positions_succ, long_text_positions _ (by decide) 65536 (le_refl _),
      long_text_player, long_text_newline]
    rfl
  have hpl : positions is_player_char long_text 65538 = [65536] := by
    rw [positions_succ, positions_succ, long_text_positions _ (by decide) 65536 (le_refl _),
      long_text_player, long_text_newline]
    rfl
  rw [hbox] at h1
  rw [hpl] at h7
  have := h7 65536 rfl
  rw [this] at h1
  exact ⟨b, h1⟩

/-! ## The end-to-end corridor and the end of the search -/

/-- C1 (code evaluated at the failing input): on the corridor `#@$.#` with
`w = 6`, `h = 3` the program, given any positive number of rounds, ends with
the outcome `no solution?` and not with the move string `R`. -/
theorem corridor_reports_no_solution (fuel : Nat) :
    main 6 3 corridor_text (fuel + 1) = .ok .no_solution := by
  rfl

/-- C2 (code evaluated at the failing input): on the longer corridor the
second round accepts a state that satisfies `success` and records it in
`done`, the frontier built in that round is empty, and the program ends with
the outcome `no solution?`. -/
theorem done_recorded_yet_no_solution :
    ∃ b s t g0 g1 g2 d,
      parse_board 8 3 long_corridor_text = .ok (b, s) ∧
      extend_table Table.empty = .ok t ∧
      queue_move b ⟨t, [], none⟩ (some s) = .ok (false, g0) ∧
      round b g0.next_level { g0 with next_level := [] } = .ok g1 ∧
      g1.done = none ∧
      round b g1.next_level { g1 with next_level := [] } = .ok g2 ∧
      g2.done = some d ∧ success b d = .ok true ∧ g2.next_level = [] ∧
      ∀ fuel, main 8 3 long_corridor_text (fuel + 2) = .ok .no_solution :=
  ⟨_, _, _, _, _, _, _, rfl, rfl, rfl, rfl, rfl, rfl, rfl, rfl, rfl, fun _ => rfl⟩

/-! ## The move generator -/

/-- C5 (code evaluated at the failing input): with two boxes at the cells
13 and 14, in ascending order, the push of the first box down to cell 19
returns a successor whose box slots are 19, 14: the sort loop never compares
the last slot. -/
theorem sort_misses_last_slot :
    ∃ b s n, parse_board 6 6 two_box_text = .ok (b, s) ∧
      b.n_boxes = 2 ∧ boxes b s = [13, 14] ∧
      move_me b s 1 0 = .ok (some n) ∧ boxes b n = [19, 14] :=
  ⟨_, _, _, rfl, rfl, rfl, rfl, rfl⟩

/-- C8 (code evaluated at the failing input): on the board of `ragged_text`
(`w = 4`, `h = 2`, 8 cells) the move right from cell 3, column `w - 1`, has
its destination in column `w`, outside the grid, and returns a successor
with the player at cell 4; the move down from cell 7, row `h - 1`, reads
`board[11]`, outside the array. -/
theorem bounds_check_off_by_one :
    ∃ b s, parse_board 4 2 ragged_text = .ok (b, s) ∧ s.c = [2] ∧
      b.board.length = 8 ∧
      col1 b (.mk 0 none [3]) 1 = b.w ∧
      (∃ n, move_me b (.mk 0 none [3]) 0 1 = .ok (some n) ∧ n.c = [4]) ∧
      row1 b (.mk 0 none [7]) 1 = b.h ∧ cell1 b (.mk 0 none [7]) 1 0 = 11 ∧
      move_me b (.mk 0 none [7]) 1 0 = .fault :=
  ⟨_, _, rfl, rfl, rfl, rfl, ⟨_, rfl, rfl⟩, rfl, rfl, rfl⟩

/-- C7 as stated fails: on the board of `open_text` the box below the
player sits on the last row, the cell `c2` behind it has index 9, outside
the 8 cells of the arrays, and the call returns neither a successor nor
`NULL`; on the wide row the step to cell 65536 returns a successor whose
player slot holds 0. -/
theorem successor_content_fails :
    (parse_board 4 2 open_text = .ok (open_board, open_state) ∧
      (0 ≤ row1 open_board open_state 1 ∧ row1 open_board open_state 1 < open_board.h ∧
        0 ≤ col1 open_board open_state 0 ∧ col1 open_board open_state 0 < open_board.w) ∧
      rd open_board.board (cell1 open_board open_state 1 0) = .ok space ∧
      (5 : Nat) ∈ boxes open_board open_state ∧ cell1 open_board open_state 1 0 = 5 ∧
      cell2 open_board open_state 1 0 = 9 ∧
      move_me open_board open_state 1 0 = .fault) ∧
    ((0 ≤ row1 wide_board wide_walker 0 ∧ row1 wide_board wide_walker 0 < wide_board.h ∧
        0 ≤ col1 wide_board wide_walker 1 ∧ col1 wide_board wide_walker 1 < wide_board.w) ∧
      rd wide_board.board (cell1 wide_board wide_walker 0 1) = .ok space ∧
      (∀ x ∈ boxes wide_board wide_walker, (x : Int) ≠ cell1 wide_board wide_walker 0 1) ∧
      cell1 wide_board wide_walker 0 1 = 65536 ∧
      ∃ n, move_me wide_board wide_walker 0 1 = .ok (some n) ∧ cell0 n = 0) := by
  refine ⟨⟨rfl, by decide, by decide, by decide, by decide, by decide, rfl⟩,
    ⟨by decide, ?_, by decide, by decide, wide_walk⟩⟩
  have e : cell1 wide_board wide_walker 0 1 = ((65536 : Nat) : Int) := by decide
  rw [e]
  exact wide_rd_board 65536 (by omega)

/-- C7 (amended): on a board of at most 65536 cells, for a record with
`n_boxes + 1` slots and a destination `c1` inside the grid and not a wall:
(i) if no box is at `c1`, `move_me` returns a successor with player slot
`c1` and the same boxes up to order; (ii) if a box is at `c1` and the cell
`c2` behind it is inside the grid, `move_me` returns `NULL` exactly when
`c2` is a wall, not live, or holds a box, and otherwise returns a successor
with player slot `c1` whose boxes are those of `s` with `c1` replaced by
`c2`, up to order.  In both cases `prev` is `s` and the cached hash is 0. -/
theorem successor_content (b : Board) (s : state_t) (dy dx : Int)
    (hsz : Sized b) (hcap : b.w * b.h ≤ 65536) (hlen : s.c.length = b.n_boxes + 1)
    (hin : 0 ≤ row1 b s dy ∧ row1 b s dy < b.h ∧ 0 ≤ col1 b s dx ∧ col1 b s dx < b.w)
    (hfl : ∃ v, rd b.board (cell1 b s dy dx) = .ok v ∧ v ≠ wall) :
    ((∀ x ∈ boxes b s, (x : Int) ≠ cell1 b s dy dx) →
      ∃ n, move_me b s dy dx = .ok (some n) ∧ cell0 n = cell1 b s dy dx ∧
        (boxes b n).Perm (boxes b s) ∧ n.prev = some s ∧ n.h = 0) ∧
    ((∃ x ∈ boxes b s, (x : Int) = cell1 b s dy dx) →
      0 ≤ cell2 b s dy dx ∧ cell2 b s dy dx < b.w * b.h →
      (move_me b s dy dx = .ok none ↔
        (rd b.board (cell2 b s dy dx) = .ok wall ∨ rd b.live (cell2 b s dy dx) = .ok 0 ∨
          ∃ x ∈ boxes b s, (x : Int) = cell2 b s dy dx)) ∧
      (¬ (rd b.board (cell2 b s dy dx) = .ok wall ∨ rd b.live (cell2 b s dy dx) = .ok 0 ∨
          ∃ x ∈ boxes b s, (x : Int) = cell2 b s dy dx) →
        ∃ n, move_me b s dy dx = .ok (some n) ∧ cell0 n = cell1 b s dy dx ∧
          (boxes b n).Perm
            ((cell2 b s dy dx).toNat :: (boxes b s).erase (cell1 b s dy dx).toNat) ∧
          n.prev = some s ∧ n.h = 0)) := by
  obtain ⟨_, hlo, _⟩ := cell1_in_grid hsz.w_pos hin
  have hbl := boxes_length hlen
  constructor
  · intro hfree
    obtain ⟨bs1, hm, hperm⟩ := move_me_walk hsz.w_pos hcap hlen hin hfl hfree
    refine ⟨_, hm, ?_, ?_, rfl, rfl⟩
    · simp [cell0, state_t.c, Int.toNat_of_nonneg hlo]
    · rw [boxes_mk _ _ _ _ (by rw [hperm.length_eq, hbl])]
      exact hperm
  · intro hbox h2in
    rcases move_me_push hsz.w_pos hcap hlen hin hfl hbox h2in
        (rd_sized hsz.board_len h2in.1 h2in.2) (rd_sized hsz.live_len h2in.1 h2in.2) with ⟨hb, hm⟩ | ⟨hb, bs1, hm, hperm⟩
    · exact ⟨⟨fun _ => hb, fun _ => hm⟩, fun h => absurd hb h⟩
    · refine ⟨⟨fun h => ?_, fun h => absurd h hb⟩, fun _ => ⟨_, hm, ?_, ?_, rfl, rfl⟩⟩
      · rw [hm] at h
        cases h
      · simp [cell0, state_t.c, Int.toNat_of_nonneg hlo]
      · obtain ⟨x, hx, hx1⟩ := hbox
        have hmem : (cell1 b s dy dx).toNat ∈ boxes b s := by
          have : x = (cell1 b s dy dx).toNat := by omega
          rw [← this]; exact hx
        have hl1 : bs1.length = b.n_boxes := by
          rw [hperm.length_eq, List.length_cons, List.length_erase_of_mem hmem, hbl]
          have : 0 < (boxes b s).length := List.length_pos_of_mem hmem
          omega
        rw [boxes_mk _ _ _ _ hl1]
        exact hperm

/-- Witness for C7 (amended): the push down in the room. -/
theorem successor_content_witness :
    ((∀ x ∈ boxes room_board room_state, (x : Int) ≠ cell1 room_board room_state 1 0) →
      ∃ n, move_me room_board room_state 1 0 = .ok (some n) ∧
        cell0 n = cell1 room_board room_state 1 0 ∧
        (boxes room_board n).Perm (boxes room_board room_state) ∧
        n.prev = some room_state ∧ n.h = 0) ∧
    ((∃ x ∈ boxes room_board room_state, (x : Int) = cell1 room_board room_state 1 0) →
      0 ≤ cell2 room_board room_state 1 0 ∧
        cell2 room_board room_state 1 0 < room_board.w * room_board.h →
      (move_me room_board room_state 1 0 = .ok none ↔
        (rd room_board.board (cell2 room_board room_state 1 0) = .ok wall ∨
          rd room_board.live (cell2 room_board room_state 1 0) = .ok 0 ∨
          ∃ x ∈ boxes room_board room_state, (x : Int) = cell2 room_board room_state 1 0)) ∧
      (¬ (rd room_board.board (cell2 room_board room_state 1 0) = .ok wall ∨
          rd room_board.live (cell2 room_board room_state 1 0) = .ok 0 ∨
          ∃ x ∈ boxes room_board room_state, (x : Int) = cell2 room_board room_state 1 0) →
        ∃ n, move_me room_board room_state 1 0 = .ok (some n) ∧
          cell0 n = cell1 room_board room_state 1 0 ∧
          (boxes room_board n).Perm
            ((cell2 room_board room_state 1 0).toNat ::
              (boxes room_board room_state).erase (cell1 room_board room_state 1 0).toNat) ∧
          n.prev = some room_state ∧ n.h = 0)) :=
  successor_content room_board room_state 1 0
    ⟨by decide, by decide, by decide, by decide, by decide⟩ (by decide) (by decide)
    (by decide) ⟨0, by decide, by decide⟩

/-- C10: on a wall-enclosed board of at most 65536 cells, with `R` the
cells the player or a box can occupy, every successor that `move_me`
returns for a valid state and one of the four directions is a valid state:
its boxes are pairwise distinct, each box and the player are on a cell
inside the arrays that is not a wall, and the player is on no box. -/
theorem state_invariants_preserved (b : Board) (R : Nat → Prop) (s n : state_t) (dy dx : Int)
    (he : Enclosed b R) (hcap : b.w * b.h ≤ 65536) (hs : ValidState b R s)
    (hd : (dy, dx) ∈ dirs) (hm : move_me b s dy dx = .ok (some n)) :
    ValidState b R n ∧ (boxes b n).Nodup ∧
      (∀ x ∈ boxes b n, (x : Int) < b.w * b.h ∧ ∃ v, rd b.board (x : Int) = .ok v ∧ v ≠ wall) ∧
      (cell0 n < b.w * b.h ∧ ∃ v, rd b.board (cell0 n) = .ok v ∧ v ≠ wall) ∧
      n.c.headD 0 ∉ boxes b n := by
  have hv := move_me_valid he hcap hs hd hm
  exact ⟨hv, hv.nodup, fun x hx => ⟨enclosed_lt he (hv.box x hx), he.floor x (hv.box x hx)⟩,
    ⟨enclosed_lt he hv.player, he.floor _ hv.player⟩, hv.apart⟩

/-- Witness for C10: the push down in the room. -/
theorem state_invariants_preserved_witness :
    ValidState room_board (fun c => c ∈ room_cells) (.mk 0 (some room_state) [14, 20]) ∧
      (boxes room_board (.mk 0 (some room_state) [14, 20])).Nodup ∧
      (∀ x ∈ boxes room_board (.mk 0 (some room_state) [14, 20]),
        (x : Int) < room_board.w * room_board.h ∧
          ∃ v, rd room_board.board (x : Int) = .ok v ∧ v ≠ wall) ∧
      (cell0 (.mk 0 (some room_state) [14, 20]) < room_board.w * room_board.h ∧
        ∃ v, rd room_board.board (cell0 (.mk 0 (some room_state) [14, 20])) = .ok v ∧
          v ≠ wall) ∧
      (state_t.mk 0 (some room_state) [14, 20]).c.headD 0 ∉
        boxes room_board (.mk 0 (some room_state) [14, 20]) :=
  state_invariants_preserved room_board (fun c => c ∈ room_cells) room_state _ 1 0
    room_enclosed (by decide) room_valid (by decide) rfl

/-! ## Deduplication -/

/-- C6: starting from the table of the first `extend_table` call, in every
sequence of `add_to_table` calls on records as `newstate` and `hash` leave
them, a call returns true exactly when no earlier call offered the same
slots `c[0..n_boxes]`, and false exactly when an earlier call did; the
calls never fail, whatever growth happens in between. -/
theorem dedup_correct (b : Board) (xs : List state_t) (hxs : ∀ s ∈ xs, Hashable b s) :
    ∃ t0 rs t1, extend_table Table.empty = .ok t0 ∧ offer_all b t0 xs = .ok (rs, t1) ∧
      rs.length = xs.length ∧
      ∀ (i : Nat) (s : state_t), xs[i]? = some s →
        (rs[i]? = some true ↔
          ∀ (j : Nat) (s2 : state_t), j < i → xs[j]? = some s2 → s2.c ≠ s.c) ∧
        (rs[i]? = some false ↔
          ∃ (j : Nat) (s2 : state_t), j < i ∧ xs[j]? = some s2 ∧ s2.c = s.c) := by
  obtain ⟨rs, t1, h1, h2, _, h4⟩ := offer_all_spec b xs _ (tableInv_first b) hxs
  refine ⟨_, rs, t1, extend_table_first, h1, h2, ?_⟩
  intro i s hi
  obtain ⟨g1, g2⟩ := h4 i s hi
  have hk : s.c ∉ (Table.mk (List.replicate 1024 []) 1024 768 0).keys := by
    unfold Table.keys Table.states
    intro hmem
    obtain ⟨f, hf, _⟩ := List.mem_map.mp hmem
    obtain ⟨idx, hidx⟩ := inBucket_flatten.mp hf
    exact absurd hidx (fun h => by
      obtain ⟨chain, hc, hfc⟩ := h
      simp only at hc
      rw [List.getElem?_replicate] at hc
      split at hc
      · cases hc; simp at hfc
      · cases hc)
  constructor
  · rw [g1]
    exact ⟨fun h => h.2, fun h => ⟨hk, h⟩⟩
  · rw [g2]
    constructor
    · intro h
      by_contra hcon
      apply h
      refine ⟨hk, ?_⟩
      intro j s2 hj hs2 heq
      exact hcon ⟨j, s2, hj, hs2, heq⟩
    · rintro ⟨j, s2, hj, hs2, heq⟩ h
      exact h.2 j s2 hj hs2 heq

/-- Witness for C6: three records, the third with the slots of the first. -/
theorem dedup_correct_witness :
    (∀ s ∈ demo_offers, Hashable room_board s) ∧
    ∃ t0 rs t1, extend_table Table.empty = .ok t0 ∧
      offer_all room_board t0 demo_offers = .ok (rs, t1) ∧
      rs.length = demo_offers.length ∧
      ∀ (i : Nat) (s : state_t), demo_offers[i]? = some s →
        (rs[i]? = some true ↔
          ∀ (j : Nat) (s2 : state_t), j < i → demo_offers[j]? = some s2 → s2.c ≠ s.c) ∧
        (rs[i]? = some false ↔
          ∃ (j : Nat) (s2 : state_t), j < i ∧ demo_offers[j]? = some s2 ∧ s2.c = s.c) :=
  ⟨by decide, dedup_correct room_board demo_offers (by decide)⟩

/-! ## The search as a whole -/

theorem room_boxes_live : BoxesLive room_board room_state := by
  intro x hx
  have : x = 14 := by simpa [boxes, room_state, room_board] using hx
  subst this
  exact ⟨1, by decide, by decide⟩

theorem offset_valid : ValidState room_board (fun c => c ∈ room_cells) offset_state :=
  ⟨by decide, by decide, by decide, by decide, by decide⟩

theorem offset_parse : parse_board 6 5 offset_text = .ok (room_board, offset_state) := by
  rfl

/-- C3: on a wall-enclosed board of at most 65536 cells, from a valid
initial record, when the search ends SOLVED the text printed is a letter
sequence followed by a newline; replayed from the initial configuration
under the Sokoban rules the letters are legal at every step and end in a
configuration with every box on a goal cell. -/
theorem no_false_positive (b : Board) (R : Nat → Prop) (c0 : List Nat) (fuel : Nat)
    (out : List Char) (he : Enclosed b R) (hcap : b.w * b.h ≤ 65536)
    (hv : ValidState b R (.mk 0 none c0))
    (hrun : main_search b (.mk 0 none c0) fuel = .ok (.solved out)) :
    ∃ letters cfg, out = letters ++ ['\n'] ∧
      replay b (config_of b (.mk 0 none c0)) letters = some cfg ∧ all_on_goals b cfg := by
  obtain ⟨k, d, hchain, hsucc, hshow, _⟩ := main_search_solved he hcap hv hrun
  obtain ⟨letters, cfg, _, hrep, hrepd, hsh⟩ := chain_shown he hcap hv hchain
  have hvd := chain_valid he hcap hv hchain
  refine ⟨letters, cfg, ?_, hrep, ?_⟩
  · rw [hsh (-1)] at hshow
    unfold shown at hshow
    simp only [if_true] at hshow
    cases hshow
    rfl
  · intro c hc
    exact (success_spec hvd.len hsucc).1 rfl c (hrepd.2.mem_iff.mpr hc)

/-- Witness for C3: the room with the box between player and goal, solved
by one push down. -/
theorem no_false_positive_witness :
    ∃ letters cfg, ['D', '\n'] = letters ++ ['\n'] ∧
      replay room_board (config_of room_board (.mk 0 none [8, 14])) letters = some cfg ∧
      all_on_goals room_board cfg :=
  no_false_positive room_board (fun c => c ∈ room_cells) [8, 14] 3 ['D', '\n']
    room_enclosed (by decide) room_valid (by decide!)

/-- C4: for a board built by `parse_board` that is wall-enclosed and has at
most 65536 cells, and a valid initial record, when the program ends SOLVED
with `k` letters printed, no letter sequence of fewer than `k` moves that
is legal under the Sokoban rules takes the initial configuration to a
configuration with every box on a goal. -/
theorem bfs_optimal (w h : Int) (text : List Char) (b : Board) (s0 : state_t)
    (R : Nat → Prop) (fuel : Nat) (out : List Char)
    (hparse : parse_board w h text = .ok (b, s0)) (he : Enclosed b R)
    (hcap : b.w * b.h ≤ 65536) (hv : ValidState b R s0)
    (hrun : main w h text fuel = .ok (.solved out)) :
    ∃ found, out = found ++ ['\n'] ∧
      ∀ (letters : List Char) (cfg : Config), letters.length < found.length →
        replay b (config_of b s0) letters = some cfg → ¬ all_on_goals b cfg := by
  obtain ⟨hlc, hs0, _, _⟩ := parse_board_spec hparse
  unfold main at hrun
  rw [hparse] at hrun
  simp only at hrun
  rw [hs0] at hrun hv
  obtain ⟨k, d, hchain, _, hshow, hopt⟩ := main_search_solved he hcap hv hrun
  obtain ⟨found, cfgd, hlen, _, _, hsh⟩ := chain_shown he hcap hv hchain
  refine ⟨found, ?_, ?_⟩
  · rw [hsh (-1)] at hshow
    unfold shown at hshow
    simp only [if_true] at hshow
    cases hshow
    rfl
  · intro letters cfg hlt hrep hgoal
    rw [hs0] at hrep
    have hrun2 := liveRun_of_replay hlc letters _ cfg (root_player_ok he hv) hrep
      (boxes_live_of_goals hlc hgoal)
    exact hopt letters cfg (by omega) hrun2 hgoal

/-- Witness for C4: the room with the player in the corner, solved in two
moves. -/
theorem bfs_optimal_witness :
    ∃ found, ['r', 'D', '\n'] = found ++ ['\n'] ∧
      ∀ (letters : List Char) (cfg : Config), letters.length < found.length →
        replay room_board (config_of room_board offset_state) letters = some cfg →
        ¬ all_on_goals room_board cfg :=
  bfs_optimal 6 5 offset_text room_board offset_state (fun c => c ∈ room_cells) 3
    ['r', 'D', '\n'] offset_parse room_enclosed (by decide) offset_valid (by decide!)

/-- C9 as stated fails: on the wide row of 65538 cells the box at the live
cell 65535 is pushed to the live cell 65536 and stored, through `cidx_t`,
at cell 0, which is not live. -/
theorem pruning_fails_on_wide_board :
    BoxesLive wide_board wide_state ∧
      ∃ n, move_me wide_board wide_state 0 1 = .ok (some n) ∧ ¬ BoxesLive wide_board n := by
  constructor
  · intro x hx
    have : x = 65534 + 1 := by simpa [boxes, wide_state, wide_board] using hx
    subst this
    exact ⟨1, wide_rd_live_succ 65534 (by omega), by decide⟩
  · obtain ⟨n, hn, hb⟩ := wide_push
    refine ⟨n, hn, ?_⟩
    intro hlive
    obtain ⟨l, hl, hl0⟩ := hlive 0 (by rw [hb]; simp)
    rw [wide_rd_live_zero] at hl
    cases hl
    exact hl0 rfl

/-- C9 (amended): when `live` has at most 65536 cells, every successor
that `move_me` returns for a record with all boxes on live cells has all
boxes on live cells; so has every record made by `move_me` steps from an
initial record with all boxes on live cells, and on a wall-enclosed board
so has every record stored in the table at any round boundary of the search. -/
theorem pruning_invariant (b : Board) (hcap : b.live.length ≤ 65536) :
    (∀ (s n : state_t) (dy dx : Int), s.c.length = b.n_boxes + 1 → BoxesLive b s →
      move_me b s dy dx = .ok (some n) → BoxesLive b n) ∧
    (∀ (c0 : List Nat) (s : state_t) (k : Nat), c0.length = b.n_boxes + 1 →
      BoxesLive b (.mk 0 none c0) → Chain b c0 s k → BoxesLive b s) ∧
    (∀ (R : Nat → Prop) (c0 : List Nat) (g : Globals), Enclosed b R → b.w * b.h ≤ 65536 →
      ValidState b R (.mk 0 none c0) → BoxesLive b (.mk 0 none c0) →
      Reached b (.mk 0 none c0) g → ∀ s ∈ g.tbl.states, BoxesLive b s) := by
  refine ⟨?_, ?_, ?_⟩
  · intro s n dy dx hlen hlive hm
    exact move_me_boxes_live hcap hlen hlive hm
  · intro c0 s k hlen hroot hc
    exact (chain_boxes_live hcap hlen hroot hc).1
  · intro R c0 g he hcap2 hv hroot hg s hs
    obtain ⟨k, hk⟩ := (reached_chain he hcap2 hv hg).1 s hs
    exact (chain_boxes_live hcap hv.len hroot hk).1

/-- Witness for C9 (amended): the push down in the room. -/
theorem pruning_invariant_witness :
    BoxesLive room_board (.mk 0 (some room_state) [14, 20]) :=
  (pruning_invariant room_board (by decide)).1 room_state _ 1 0 (by decide) room_boxes_live rfl

/-! ## The printer `show_moves` -/

/-- C11 as stated fails: on the wide row the step right from cell 65535 is
stored with the player at cell 0 and `show_moves` prints `l` for it, where
the specification has `r`; on the board of `ragged_text` the second step
right, from the last column, lands in column 0 of the next row and is
printed as `l`. -/
theorem reconstruction_fails :
    (Trail wide_board (fun _ _ _ => True) (.mk 0 (some wide_walker) [0, 3]) 1 ['r'] ∧
      show_moves wide_board (.mk 0 (some wide_walker) [0, 3]) (-1) = .ok (['l', '\n'], false)) ∧
    (parse_board 4 2 ragged_text = .ok (ragged_board, .mk 0 none [2]) ∧
      Trail ragged_board (fun _ _ _ => True)
        (.mk 0 (some (.mk 0 (some (.mk 0 none [2])) [3])) [4]) 2 ['r', 'r'] ∧
      show_moves ragged_board (.mk 0 (some (.mk 0 (some (.mk 0 none [2])) [3])) [4]) (-1)
        = .ok (['r', 'l', '\n'], false)) :=
  ⟨⟨wide_trail, by decide⟩, rfl, ragged_trail, rfl⟩

/-- C11 (amended): on a board of at most 65536 cells, for every chain of
`k` links made by `move_me` in which the destination column of every step
is a column of the grid, `show_moves(goal, -1)` returns normally and prints
the `k` letters of the specification, root first, and a newline. -/
theorem reconstruction (b : Board) (s : state_t) (k : Nat) (ls : List Char)
    (hcap : b.board.length ≤ 65536) (ht : Trail b (in_columns b) s k ls) :
    show_moves b s (-1) = .ok (ls ++ ['\n'], false) ∧ ls.length = k ∧ depth s = k := by
  obtain ⟨_, hk, hd, hshow⟩ := trail_shown hcap ht
  refine ⟨?_, hk, hd⟩
  rw [hshow]
  rfl

/-- C11 (amended) on the room: the chain of the push down prints `D`. -/
theorem reconstruction_witness :
    room_board.board.length ≤ 65536 ∧
      show_moves room_board (.mk 0 (some room_state) [14, 20]) (-1) = .ok (['D', '\n'], false) :=
  ⟨by decide, (reconstruction room_board _ 1 ['D'] (by decide) room_trail).1⟩

/-- C12 as stated fails: for a record whose player is two columns to the
right of the player of its parent, and for one whose player is one row down
and one column to the right, `show_moves` prints the letter `r` and returns
normally. -/
theorem invalid_move_check_fails :
    show_moves room_board (.mk 0 (some (.mk 0 none [7, 14])) [9, 14]) (-1)
        = .ok (['r', '\n'], false) ∧
      show_moves room_board (.mk 0 (some (.mk 0 none [7, 20])) [14, 20]) (-1)
        = .ok (['r', '\n'], false) :=
  ⟨by decide, by decide⟩

/-- C12 (amended): for every chain of records with `n_boxes + 1` slots,
`w ≠ 0`, `show_moves(s, -1)` takes the branch `Invalid move` with `exit(1)`
exactly when some record has the same player cell as its parent.  It prints
the letters of the links before the first such link, each chosen by
comparing the columns first and the rows second and uppercase when the next
player cell is a box slot of the record, and then the text `Invalid move`;
when there is no such link it prints one letter per link and a newline. -/
theorem invalid_move_check (b : Board) (s : state_t) (hw : b.w ≠ 0) (hs : sized_chain b s) :
    show_moves b s (-1) = .ok (link_letters b s ++
        (if stalled s = true then "Invalid move\n".toList else ['\n']), stalled s) ∧
      (stalled s = false → (link_letters b s).length = depth s) ∧
      (stalled s = true → (link_letters b s).length < depth s) := by
  have h1 := show_moves_letters hw (depth s) s (-1) rfl hs
  obtain ⟨h2, h3⟩ := link_letters_length b (depth s) s rfl
  refine ⟨?_, h2, h3⟩
  rw [h1]
  cases stalled s with
  | true => rfl
  | false => rfl

/-- C12 (amended) in the room: a chain whose last record repeats the player
cell of its parent prints `D` and `Invalid move`; a chain whose player jumps
two columns and then two rows prints `r`, `d` and a newline. -/
theorem invalid_move_check_witness :
    show_moves room_board (.mk 0 (some (.mk 0 (some room_state) [14, 20])) [14, 20]) (-1)
        = .ok ('D' :: "Invalid move\n".toList, true) ∧
      show_moves room_board (.mk 0 (some (.mk 0 (some (.mk 0 none [7, 14])) [9, 14])) [21, 14]) (-1)
        = .ok (['r', 'd', '\n'], false) :=
  ⟨(invalid_move_check room_board
      (.mk 0 (some (.mk 0 (some room_state) [14, 20])) [14, 20]) (by decide) ⟨rfl, rfl, rfl⟩).1,
    (invalid_move_check room_board
      (.mk 0 (some (.mk 0 (some (.mk 0 none [7, 14])) [9, 14])) [21, 14]) (by decide)
      ⟨rfl, rfl, rfl⟩).1⟩

/-! ## The flood fill and the parser -/

/-- C13: after `parse_board` (for a width `w ≥ 1`) a cell has `live = 1`
exactly when it is reached from some goal cell by steps of the backward
push closure: steps by `-w`, `+w`, `-1`, `+1` from a cell `(y, x)` with
`y - 2 ≥ 0`, `y + 2 ≤ h - 1`, `x - 2 ≥ 0`, `x + 2 ≤ w - 1` respectively and
with the next cell and the cell after it not walls; every cell of the grid
holds 0 or 1. -/
theorem live_is_push_closure (w h : Int) (s : List Char) (b : Board) (s0 : state_t)
    (hw : 0 < w) (hp : parse_board w h s = .ok (b, s0)) (c : Int) :
    (rd b.live c = .ok 1 ↔ ∃ g, (∃ v, rd b.goals g = .ok v ∧ v ≠ 0) ∧ PushBack b g c) ∧
      (0 ≤ c → c < w * h → rd b.live c = .ok 0 ∨ rd b.live c = .ok 1) := by
  obtain ⟨hlc, _, hbw, hbh⟩ := parse_board_spec hp
  have hP := pushBack_closed b
  rw [hbw, hbh] at hP
  obtain ⟨hF, _⟩ := parse_board_fill hw hp hP (fun m g hg hg0 => ⟨m, ⟨g, hg, hg0⟩, .refl⟩)
  refine ⟨⟨fun hl => hF.sound c 1 hl (by decide), ?_⟩, ?_⟩
  · rintro ⟨g, hg, hc⟩
    obtain ⟨l, hl, hl0⟩ := pushBack_live (by rw [hbw]; exact hw) hlc hg hc
    have := hF.bit c l hl hl0
    rw [this] at hl
    exact hl
  · intro h0 h1
    obtain ⟨l, hl⟩ := rd_sized hF.live_len h0 h1
    by_cases hl0 : l = 0
    · left; rw [hl, hl0]
    · right; rw [hl, hF.bit c l hl hl0]

/-- C13 on the room: the cell above the goal is live, reached from the goal
by one step up. -/
theorem live_is_push_closure_witness :
    (rd room_board.live 14 = .ok 1 ↔
        ∃ g, (∃ v, rd room_board.goals g = .ok v ∧ v ≠ 0) ∧ PushBack room_board g 14) ∧
      ((0 : Int) ≤ 14 → (14 : Int) < 6 * 5 →
        rd room_board.live 14 = .ok 0 ∨ rd room_board.live 14 = .ok 1) :=
  live_is_push_closure 6 5 room_text room_board room_state (by decide) room_parse 14

/-! ## The hash -/

/-- C14: for a record with its `n_boxes + 1` slots whose field `h` is 0,
`hash` returns the record with `h` set to the value of the fold
`ha = c[i] + 31 * ha` over the slots 0 to `n_boxes` in 32-bit arithmetic,
which is the sum of `c[i] * 31 ^ (n_boxes - i)` modulo `2 ^ 32`, and with
`prev` and the slots as they were. -/
theorem hash_definition (b : Board) (s : state_t) (h0 : s.h = 0)
    (hlen : b.n_boxes + 1 ≤ s.c.length) :
    hash_loop s.c (b.n_boxes + 1) 0 0 = .ok (poly_hash s.c b.n_boxes) ∧
      hash b s = .ok (.mk (poly_hash s.c b.n_boxes) s.prev s.c) := by
  have hp := hash_loop_eq_poly (c := s.c) (n := b.n_boxes) hlen
  refine ⟨hp, ?_⟩
  unfold hash
  simp only [h0, if_true, hp]

/-- C14 on the initial record of the room: `8 * 31 + 14 = 262`. -/
theorem hash_definition_witness :
    hash_loop [8, 14] 2 0 0 = .ok 262 ∧ hash room_board room_state = .ok (.mk 262 none [8, 14]) :=
  hash_definition room_board room_state rfl (by decide)

/-- C15: for a record with its `n_boxes + 1` slots, a second call of `hash`
leaves what the first call left; a record with `h ≠ 0` is returned as it
is; when the value computed is 0 the record is returned as it is, with
`h = 0`, so that the next call computes again; records as `newstate` and
`hash` leave them with equal slots get equal `h` and the same bucket index
for every table size. -/
theorem hash_stable (b : Board) (s : state_t) (hlen : b.n_boxes + 1 ≤ s.c.length) :
    ∃ s1, hash b s = .ok s1 ∧ hash b s1 = .ok s1 ∧ s1.c = s.c ∧ s1.prev = s.prev ∧
      (s.h ≠ 0 → s1 = s) ∧
      (s.h = 0 → poly_hash s.c b.n_boxes = 0 → s1 = s) ∧
      ∀ t, Hashable b s → Hashable b t → t.c = s.c →
        ∃ t1, hash b t = .ok t1 ∧ t1.h = s1.h ∧
          ∀ size, t1.h &&& mask size = s1.h &&& mask size := by
  have hp := hash_loop_eq_poly (c := s.c) (n := b.n_boxes) hlen
  by_cases h0 : s.h = 0
  · have h1 : hash b s = .ok (.mk (poly_hash s.c b.n_boxes) s.prev s.c) := by
      unfold hash
      simp only [h0, if_true, hp]
    refine ⟨_, h1, ?_, rfl, rfl, fun h => absurd h0 h, ?_, ?_⟩
    · unfold hash
      by_cases hz : poly_hash s.c b.n_boxes = 0
      · simp only [h_mk, hz, if_true, c_mk, prev_mk]
        rw [← hz] at hp ⊢
        simp only [hp]
      · simp only [h_mk, hz, if_false]
    · intro _ hz
      rw [hz, ← h0]
      exact state_eta s
    · intro t hs ht htc
      obtain ⟨t1, e1, e2⟩ := hash_of_hashable ht
      refine ⟨t1, e1, by rw [e2, htc, h_mk], fun size => by rw [e2, htc, h_mk]⟩
  · have h1 : hash b s = .ok s := by
      unfold hash
      simp only [h0, if_false]
    refine ⟨s, h1, h1, rfl, rfl, fun _ => rfl, fun h => absurd h h0, ?_⟩
    intro t hs ht htc
    obtain ⟨t1, e1, e2⟩ := hash_of_hashable ht
    obtain ⟨s1, f1, f2⟩ := hash_of_hashable hs
    rw [h1] at f1
    cases f1
    refine ⟨t1, e1, by rw [e2, htc, f2], fun size => by rw [e2, htc, f2]⟩

/-- C15 on the initial record of the room. -/
theorem hash_stable_witness :
    ∃ s1, hash room_board room_state = .ok s1 ∧ hash room_board s1 = .ok s1 ∧
      s1.c = room_state.c ∧ s1.prev = room_state.prev ∧
      (room_state.h ≠ 0 → s1 = room_state) ∧
      (room_state.h = 0 → poly_hash room_state.c room_board.n_boxes = 0 → s1 = room_state) ∧
      ∀ t, Hashable room_board room_state → Hashable room_board t → t.c = room_state.c →
        ∃ t1, hash room_board t = .ok t1 ∧ t1.h = s1.h ∧
          ∀ size, t1.h &&& mask size = s1.h &&& mask size :=
  hash_stable room_board room_state (by decide)

/-! ## The counters of the table and the rehash -/

/-- C16: the first `extend_table` call sets `hash_size = 1024`,
`filled = 0`, `fill_limit = 768`; after every sequence of `add_to_table`
calls on records as `newstate` and `hash` leave them, `hash_size` is a power
of two, `fill_limit = hash_size * 3 / 4`, `filled` is the number of stored
records and `filled ≤ fill_limit`; and a further call doubles `hash_size`
and `fill_limit` exactly when it accepts its record with `filled` equal to
`fill_limit`, and leaves both as they are otherwise. -/
theorem table_growth (b : Board) (xs : List state_t) (hx : ∀ s ∈ xs, Hashable b s) :
    ∃ t0 flags t, extend_table Table.empty = .ok t0 ∧
      t0.hash_size = 1024 ∧ t0.filled = 0 ∧ t0.fill_limit = 768 ∧
      offer_all b t0 xs = .ok (flags, t) ∧
      (∃ k, t.hash_size = 2 ^ k) ∧ t.fill_limit = t.hash_size * 3 / 4 ∧
      t.filled = t.states.length ∧ t.filled ≤ t.fill_limit ∧
      ∀ s, Hashable b s → ∃ r s1 t1, add_to_table b t s = .ok (r, s1, t1) ∧
        ((r = true ∧ t.filled = t.fill_limit) →
          t1.hash_size = 2 * t.hash_size ∧ t1.fill_limit = 2 * t.fill_limit) ∧
        (¬ (r = true ∧ t.filled = t.fill_limit) →
          t1.hash_size = t.hash_size ∧ t1.fill_limit = t.fill_limit) := by
  obtain ⟨flags, t, k, hoff, hinv, hg⟩ :=
    offer_all_growth b xs _ 0 (tableInv_first b) growthInv_first hx
  refine ⟨_, flags, t, extend_table_first, rfl, rfl, rfl, hoff, ⟨k + 10, ?_⟩, ?_, hg.filled_eq,
    hg.filled_le, ?_⟩
  · rw [hg.size_eq, pow_add]
    ring
  · rw [hg.size_eq, hg.limit_eq]
    have e : 1024 * 2 ^ k * 3 = 4 * (768 * 2 ^ k) := by ring
    rw [e, Nat.mul_div_cancel_left _ (by decide)]
  · intro s hs
    obtain ⟨r, s1, t1, hadd, _, hcase⟩ := add_to_table_growth hinv hg hs
    refine ⟨r, s1, t1, hadd, ?_, ?_⟩
    · rintro ⟨hr, hf⟩
      rcases hcase with ⟨h, _⟩ | ⟨_, h, _⟩ | ⟨_, _, _, h1, h2, _⟩
      · rw [hr] at h; cases h
      · omega
      · exact ⟨h1, h2⟩
    · intro hn
      rcases hcase with ⟨_, h⟩ | ⟨_, _, _, h1, h2, _⟩ | ⟨hr, hf, _⟩
      · rw [h]; exact ⟨rfl, rfl⟩
      · exact ⟨h1, h2⟩
      · exact absurd ⟨hr, hf⟩ hn

/-- C16 on three offers to the table of the room, the third a duplicate. -/
theorem table_growth_witness :
    ∃ t0 flags t, extend_table Table.empty = .ok t0 ∧
      t0.hash_size = 1024 ∧ t0.filled = 0 ∧ t0.fill_limit = 768 ∧
      offer_all room_board t0 demo_offers = .ok (flags, t) ∧
      (∃ k, t.hash_size = 2 ^ k) ∧ t.fill_limit = t.hash_size * 3 / 4 ∧
      t.filled = t.states.length ∧ t.filled ≤ t.fill_limit ∧
      ∀ s, Hashable room_board s → ∃ r s1 t1, add_to_table room_board t s = .ok (r, s1, t1) ∧
        ((r = true ∧ t.filled = t.fill_limit) →
          t1.hash_size = 2 * t.hash_size ∧ t1.fill_limit = 2 * t.fill_limit) ∧
        (¬ (r = true ∧ t.filled = t.fill_limit) →
          t1.hash_size = t.hash_size ∧ t1.fill_limit = t.fill_limit) :=
  table_growth room_board demo_offers (by decide)

/-- C18: the sort loop of `move_me` returns a record with `n_boxes + 1`
slots as it is when the box slots 1 to `n_boxes` are in ascending order;
and a successor made by a move that finds no box on the destination, from a
record with its box slots in ascending order, has the box slots of its
parent. -/
theorem sort_idempotent (n : Nat) (p : List Nat) (hlen : n + 1 ≤ p.length)
    (hs : ((p.drop 1).take n).Sorted (· ≤ ·)) :
    sort_outer n p = .ok p ∧
      ∀ (b : Board) (s m : state_t) (dy dx : Int), s.c.length = b.n_boxes + 1 →
        (boxes b s).Sorted (· ≤ ·) → (∀ x ∈ boxes b s, (x : Int) ≠ cell1 b s dy dx) →
        move_me b s dy dx = .ok (some m) → boxes b m = boxes b s := by
  refine ⟨sort_outer_sorted n p hlen hs, ?_⟩
  intro b s m dy dx hl hsorted hfree hm
  rw [move_me_keeps_sorted hl hsorted hfree hm]
  exact boxes_mk _ _ _ _ (boxes_length hl)

/-- C18 on a record with the boxes 13 and 14 and on the step right in the
room. -/
theorem sort_idempotent_witness :
    sort_outer 2 [7, 13, 14] = .ok [7, 13, 14] ∧
      boxes room_board (.mk 0 (some room_state) [9, 14]) = boxes room_board room_state := by
  obtain ⟨h1, h2⟩ := sort_idempotent 2 [7, 13, 14] (by decide) (by decide)
  exact ⟨h1, h2 room_board room_state _ 0 1 rfl (by decide) (by decide) rfl⟩

/-- C19: for a table whose `hash_size ≥ 1` buckets hold records with
`n_boxes + 1` slots, each with the hash of its slots cached in `h` and
stored in the bucket `h & (hash_size - 1)`, `extend_table` returns a table
of twice the size that holds the same records, each once and unchanged,
every record in the bucket `h & (2 * hash_size - 1)`, and `lookup` of any
record finds a record after the call exactly when it found one before, in
both cases one with the slots looked for. -/
theorem rehash_preserves (b : Board) (t : Table) (hinv : TableInv b t) :
    ∃ t1, extend_table t = .ok t1 ∧ t1.hash_size = 2 * t.hash_size ∧
      t1.states.Perm t.states ∧
      (∀ i f, InBucket t1.buckets i f → f.h &&& mask (2 * t.hash_size) = i) ∧
      ∀ s, Hashable b s → ∃ s1 r r1, lookup b t s = .ok (s1, r) ∧
        lookup b t1 s = .ok (s1, r1) ∧ (r = none ↔ r1 = none) ∧
        (∀ f, r = some f → f ∈ t.states ∧ f.c = s.c) ∧
        (∀ f, r1 = some f → f ∈ t.states ∧ f.c = s.c) := by
  obtain ⟨t1, e1, e2, e3, _, _, e6⟩ := extend_table_spec hinv
  have hperm := extend_table_perm hinv.len e1
  have hsz : t1.hash_size = 2 * t.hash_size := by rw [e3]; ring
  refine ⟨t1, e1, hsz, hperm, ?_, ?_⟩
  · intro i f hf
    rw [← hsz]
    exact (e2.placed i f hf).2.2
  · intro s hs
    obtain ⟨v, hv, hl⟩ := lookup_found hinv hs
    obtain ⟨v1, hv1, hl1⟩ := lookup_found e2 hs
    rw [hv] at hv1
    cases hv1
    have hkeys : s.c ∈ t1.keys ↔ s.c ∈ t.keys := by
      rw [mem_keys_iff, mem_keys_iff]
      constructor
      · rintro ⟨f, hf, hfc⟩
        exact ⟨f, (e6 f).mp hf, hfc⟩
      · rintro ⟨f, hf, hfc⟩
        exact ⟨f, (e6 f).mpr hf, hfc⟩
    rcases hl with ⟨hl, hk⟩ | ⟨f, hl, hf, hfc⟩
    · rcases hl1 with ⟨hl1, _⟩ | ⟨f1, _, hf1, hfc1⟩
      · exact ⟨_, none, none, hl, hl1, Iff.rfl, (fun f h => by cases h), (fun f h => by cases h)⟩
      · exact absurd (hkeys.mp (mem_keys_iff.mpr ⟨f1, hf1, hfc1⟩)) hk
    · rcases hl1 with ⟨_, hk1⟩ | ⟨f1, hl1, hf1, hfc1⟩
      · exact absurd (hkeys.mpr (mem_keys_iff.mpr ⟨f, hf, hfc⟩)) hk1
      · refine ⟨_, some f, some f1, hl, hl1, ?_, ?_, ?_⟩
        · constructor <;> intro h <;> cases h
        · intro g hg
          cases hg
          exact ⟨hf, hfc⟩
        · intro g hg
          cases hg
          exact ⟨(e6 _).mp hf1, hfc1⟩

/-- C19 on the table that holds the hashed initial record of the room. -/
theorem rehash_preserves_witness :
    ∃ t1, extend_table one_table = .ok t1 ∧ t1.hash_size = 2 * one_table.hash_size ∧
      t1.states.Perm one_table.states ∧
      (∀ i f, InBucket t1.buckets i f → f.h &&& mask (2 * one_table.hash_size) = i) ∧
      ∀ s, Hashable room_board s → ∃ s1 r r1, lookup room_board one_table s = .ok (s1, r) ∧
        lookup room_board t1 s = .ok (s1, r1) ∧ (r = none ↔ r1 = none) ∧
        (∀ f, r = some f → f ∈ one_table.states ∧ f.c = s.c) ∧
        (∀ f, r1 = some f → f ∈ one_table.states ∧ f.c = s.c) :=
  rehash_preserves room_board one_table one_table_inv

/-! ## The content of the parsed board -/

/-- C17 as stated fails: for the text of a line `@$` and an empty line
(`w = 3`, `h = 2`, four characters for six cells) the second loop of
`parse_board` reads the text beyond its terminator; for the line of 65536
blanks followed by `@` the player slot of the initial record holds 0, not
the position 65536 of the player. -/
theorem parse_content_fails :
    (short_text.length ≤ 3 * 2 ∧ parse_board 3 2 short_text = .fault) ∧
    (long_text.length ≤ 65538 * 1 ∧ text_at long_text 65536 = '@' ∧
      ∃ b, parse_board 65538 1 long_text = .ok (b, .mk 0 none [0])) :=
  ⟨⟨by decide, rfl⟩, by rw [long_text_length], long_text_player, long_text_parse⟩

/-- C17 (amended): for a text without NUL of `w * h` or `w * h - 1`
characters (`w, h ≥ 1`), `parse_board` returns; `board[i]` is `wall`
exactly at the positions of `#`, `goals[i]` is 1 exactly at the positions
of `.`, `+` and `*`, `n_boxes` is the number of `$` and `*`; the initial
record has no parent, `h = 0`, the positions of the `$` and `*` in ascending
order in its box slots and the position of the last `@` or `+` in its
player slot, every position reduced modulo 65536. -/
theorem parse_content (w h : Int) (s : List Char) (hw : 0 < w) (hh : 0 < h)
    (hnul : Char.ofNat 0 ∉ s) (hlo : (w * h).toNat ≤ s.length + 1)
    (hhi : s.length ≤ (w * h).toNat) :
    ∃ b p, parse_board w h s =
        .ok (b, .mk 0 none (p :: (positions is_box_char s s.length).map (fun q => q % 65536))) ∧
      b.w = w ∧ b.h = h ∧ b.n_boxes = (positions is_box_char s s.length).length ∧
      b.board = (List.range (w * h).toNat).map
        (fun i => if text_at s i = '#' then wall else space) ∧
      b.goals = (List.range (w * h).toNat).map
        (fun i => if is_goal_char (text_at s i) = true then 1 else 0) ∧
      (∀ q, (positions is_player_char s s.length).getLast? = some q → p = q % 65536) :=
  parse_board_total hw hh hnul hlo hhi

/-- C17 (amended) on the text of the room. -/
theorem parse_content_witness :
    ∃ b p, parse_board 6 5 room_text =
        .ok (b, .mk 0 none
          (p :: (positions is_box_char room_text room_text.length).map (fun q => q % 65536))) ∧
      b.w = 6 ∧ b.h = 5 ∧ b.n_boxes = (positions is_box_char room_text room_text.length).length ∧
      b.board = (List.range ((6 : Int) * 5).toNat).map
        (fun i => if text_at room_text i = '#' then wall else space) ∧
      b.goals = (List.range ((6 : Int) * 5).toNat).map
        (fun i => if is_goal_char (text_at room_text i) = true then 1 else 0) ∧
      (∀ q, (positions is_player_char room_text room_text.length).getLast? = some q →
        p = q % 65536) :=
  parse_content 6 5 room_text (by decide) (by decide) (by decide) (by decide) (by decide)

/-! ## Index safety of the flood fill -/

/-- C20: on a board with `w, h ≥ 1` and arrays of `w * h` cells, the flood
fill from a cell of the grid, given more nested calls than there are cells
with `live = 0`, returns with no access outside the arrays; when the start
cell is not a wall, every cell that is live afterwards is a cell of `board`
that is not a wall, or was live before.  After `parse_board` every goal
cell is live and no wall cell is live. -/
theorem flood_fill_safe (b : Board) (c : Int) (fuel : Nat) (hs : Sized b)
    (hc0 : 0 ≤ c) (hc1 : c < b.w * b.h) (hfuel : b.live.count 0 < fuel) :
    (∃ b1, mark_live fuel b c = .ok b1 ∧ b1.board = b.board ∧
      b1.live.length = b.live.length ∧
      (open_at b.board c → ∀ (i : Int) (l : Nat), rd b1.live i = .ok l → l ≠ 0 →
        open_at b.board i ∨ ∃ l0, rd b.live i = .ok l0 ∧ l0 ≠ 0)) ∧
    (∀ (w h : Int) (s : List Char) (b0 : Board) (s0 : state_t), 0 < w →
      parse_board w h s = .ok (b0, s0) →
      (∀ (g : Int) (v : Nat), rd b0.goals g = .ok v → v ≠ 0 → rd b0.live g = .ok 1) ∧
      (∀ (i : Int), rd b0.board i = .ok wall → rd b0.live i = .ok 0)) := by
  constructor
  · have hF : Fill b.w b.h b.board (fun _ => True) (fun _ => True) b :=
      ⟨rfl, rfl, rfl, hs.live_len, fun _ _ _ _ => trivial, fun _ _ _ _ => trivial⟩
    obtain ⟨b1, h1, f1⟩ := mark_live_fill hs.w_pos hs.board_len (stepClosed_true _ _ _) trivial
      fuel b c hF hc0 hc1 trivial hfuel
    refine ⟨b1, h1, f1.fill.board_eq, ?_, ?_⟩
    · have h2 := f1.fill.live_len
      have h3 := hs.live_len
      omega
    · intro hopen i l hl hl0
      have hP : StepClosed b.w b.h b.board
          (fun i => open_at b.board i ∨ ∃ l0, rd b.live i = .ok l0 ∧ l0 ≠ 0) :=
        ⟨fun _ _ _ _ _ o _ => Or.inl o, fun _ _ _ _ _ o _ => Or.inl o,
          fun _ _ _ _ _ o _ => Or.inl o, fun _ _ _ _ _ o _ => Or.inl o⟩
      have hF2 : Fill b.w b.h b.board
          (fun i => open_at b.board i ∨ ∃ l0, rd b.live i = .ok l0 ∧ l0 ≠ 0)
          (fun _ => True) b :=
        ⟨rfl, rfl, rfl, hs.live_len, fun i l hl hl0 => Or.inr ⟨l, hl, hl0⟩,
          fun _ _ _ _ => trivial⟩
      obtain ⟨b2, h2, f2⟩ := mark_live_fill hs.w_pos hs.board_len hP trivial
        fuel b c hF2 hc0 hc1 (Or.inl hopen) hfuel
      rw [h1] at h2
      cases h2
      exact f2.fill.sound i l hl hl0
  · intro w h s b0 s0 hw hp
    obtain ⟨hlc, _, hbw, hbh⟩ := parse_board_spec hp
    have hP : StepClosed w h b0.board (fun i => open_at b0.board i) :=
      ⟨fun _ _ _ _ _ o _ => o, fun _ _ _ _ _ o _ => o, fun _ _ _ _ _ o _ => o,
        fun _ _ _ _ _ o _ => o⟩
    obtain ⟨hF, hBD⟩ := parse_board_fill hw hp hP (parse_board_apart hp)
    constructor
    · intro g v hg hv
      have h0 := (rd_lt hg).1
      obtain ⟨l, hl, hl0⟩ := hlc.goals_live g.toNat v
        (by rw [Int.toNat_of_nonneg h0]; exact hg) hv
      rw [Int.toNat_of_nonneg h0] at hl
      rw [hl, hF.bit g l hl hl0]
    · intro i hi
      obtain ⟨h0, h1⟩ := rd_lt hi
      obtain ⟨l, hl⟩ := rd_sized hF.live_len h0 (by omega)
      by_cases hl0 : l = 0
      · rw [hl, hl0]
      · obtain ⟨v, hv, hvw⟩ := hF.sound i l hl hl0
        rw [hi] at hv
        cases hv
        exact absurd rfl hvw

/-- C20 on the room before the flood fill, from the goal cell 20. -/
theorem flood_fill_safe_witness :
    ∃ b1, mark_live 31 room_fresh 20 = .ok b1 ∧ b1.board = room_fresh.board ∧
      b1.live.length = room_fresh.live.length ∧
      (open_at room_fresh.board 20 → ∀ (i : Int) (l : Nat), rd b1.live i = .ok l → l ≠ 0 →
        open_at room_fresh.board i ∨ ∃ l0, rd room_fresh.live i = .ok l0 ∧ l0 ≠ 0) :=
  (flood_fill_safe room_fresh 20 31 ⟨by decide, by decide, by decide, by decide, by decide⟩
    (by decide) (by decide) (by decide)).1

end Sokoban
